import Mathlib

/-!
Verification development for the View Syncer core of the sync platform.

The definitions in this file embed `ViewSyncerService`
(packages/zero-cache/src/services/view-syncer/view-syncer.ts) together with
models of its collaborators.  The service file itself is embedded
line-by-line; the collaborators (`cvr.ts` updaters, `client-handler.ts`,
`pipeline-driver.ts`, `schema/types.ts`), whose sources are not part of the
corpus, are modelled from the specification and are marked as such in their
doc comments.
-/

namespace ViewSyncer

/-- SQL-ish column values carried in replicated rows.  The core only inspects
the `_0_version` column, which must be a non-empty string; everything else is
opaque payload. -/
inductive SqlVal
  | s (v : String)
  | i (v : Int)
  | b (v : Bool)
  | nullv
  deriving DecidableEq, Repr

/-- A row is a finite map from column names to values (JS object, insertion
ordered, unique keys). -/
abbrev Row := List (String × SqlVal)

/-- `ZERO_VERSION_COLUMN_NAME` from replication-state.ts. -/
def ZERO_VERSION_COLUMN_NAME : String := "_0_version"

/-- Modelled from the spec (schema/types.ts is not in the corpus):
`{stateVersion: string, minorVersion: u32 = 0}`; `stateVersion` is a
lexicographically ordered token, `minorVersion` bumps when the CVR changes
without the replica advancing. -/
structure Version where
  stateVersion : String
  minorVersion : Nat
  deriving DecidableEq, Repr

/-- Modelled from the spec: total order on versions — compare `stateVersion`
(lexicographic string order), then `minorVersion` (`cmpVersions`). -/
def versionLt (a b : Version) : Prop :=
  a.stateVersion < b.stateVersion ∨
    (a.stateVersion = b.stateVersion ∧ a.minorVersion < b.minorVersion)

instance (a b : Version) : Decidable (versionLt a b) := by
  unfold versionLt; infer_instance

def versionLe (a b : Version) : Prop := versionLt a b ∨ a = b

instance (a b : Version) : Decidable (versionLe a b) := by
  unfold versionLe; infer_instance

/-- The canonical row identity `(schema, table, rowKey)`; the row key is kept
as its canonical JSON encoding. -/
structure RowID where
  schema : String
  table : String
  rowKey : String
  deriving DecidableEq, Repr

/-- The staged per-batch update for one row (`RowUpdate` in cvr.ts as used by
`#processChanges`): signed ref-count deltas per query hash, plus the row
version and contents captured from the first non-null row seen. -/
structure RowUpdate where
  refCounts : List (String × Int)
  version : Option String
  contents : Option Row
  deriving DecidableEq, Repr

/-- The `CustomKeyMap<RowID, RowUpdate>` of `#processChanges`, as an
insertion-ordered association list with unique keys. -/
abbrev RowsMap := List (RowID × RowUpdate)

def lookupRM (m : RowsMap) (k : RowID) : Option RowUpdate :=
  match m with
  | [] => none
  | (k1, v1) :: rest => if k1 = k then some v1 else lookupRM rest k

/-- Insert-or-replace preserving insertion order (JS `Map.set`). -/
def setRM (m : RowsMap) (k : RowID) (v : RowUpdate) : RowsMap :=
  match m with
  | [] => [(k, v)]
  | (k1, v1) :: rest => if k1 = k then (k, v) :: rest else (k1, v1) :: setRM rest k v

/-- `parsedRow.refCounts[queryHash] ??= 0; parsedRow.refCounts[queryHash] += d`. -/
def bumpRC (rc : List (String × Int)) (q : String) (d : Int) : List (String × Int) :=
  match rc with
  | [] => [(q, d)]
  | (q1, v1) :: rest => if q1 = q then (q1, v1 + d) :: rest else (q1, v1) :: bumpRC rest q d

def lookupRC (rc : List (String × Int)) (q : String) : Option Int :=
  match rc with
  | [] => none
  | (q1, v1) :: rest => if q1 = q then some v1 else lookupRC rest q

/-- Extract the `_0_version` column value; `some v` exactly when it is a
string of length at least 1 (`typeof version === 'string' && version.length
>= 1`). -/
def rowZeroVersion (r : Row) : Option String :=
  match r.lookup ZERO_VERSION_COLUMN_NAME with
  | some (SqlVal.s v) => if v.length = 0 then none else some v
  | _ => none

/-- `const \x7b[ZERO_VERSION_COLUMN_NAME]: version, ...contents\x7d = row`:
the row minus its `_0_version` column. -/
def stripZeroVersion (r : Row) : Row :=
  r.filter (fun kv => decide (kv.1 ≠ ZERO_VERSION_COLUMN_NAME))

/-- A `RowChange` yielded by the pipeline driver:
`(queryHash, table, rowKey, row | null)`. -/
structure RowChangeE where
  queryHash : String
  table : String
  rowKey : String
  row : Option Row
  deriving DecidableEq, Repr

def ridOf (c : RowChangeE) : RowID := ⟨"", c.table, c.rowKey⟩

/-- `CURSOR_PAGE_SIZE` (view-syncer.ts line 650). -/
def CURSOR_PAGE_SIZE : Nat := 10000

/-- The loop body of `#processChanges` (view-syncer.ts lines 569-593): look
up or insert the `RowUpdate` for the canonical row id, accumulate the signed
ref count, and on the first non-null row capture the (validated) row version
and the `_0_version`-stripped contents.  `none` signals the thrown
`Invalid _0_version` error. -/
def ingest (m : RowsMap) (c : RowChangeE) : Option RowsMap :=
  let rid := ridOf c
  let parsedRow := (lookupRM m rid).getD ⟨[], none, none⟩
  let parsedRow := { parsedRow with
    refCounts := bumpRC parsedRow.refCounts c.queryHash
      (match c.row with | some _ => 1 | none => -1) }
  match c.row with
  | some r =>
    if parsedRow.version.isNone then
      match rowZeroVersion r with
      | none => none
      | some v =>
        some (setRM m rid { parsedRow with version := some v, contents := some (stripZeroVersion r) })
    else some (setRM m rid parsedRow)
  | none => some (setRM m rid parsedRow)

/-- The batching loop of `#processChanges` (lines 569-597): ingest each
change; whenever the map size reaches a multiple of `CURSOR_PAGE_SIZE` the
batch is handed to `updater.received` and the map cleared; a final non-empty
remainder is flushed after the stream ends.  Returns the list of maps handed
to `received`, and whether the processing threw. -/
def pcGo (m : RowsMap) : List RowChangeE → List RowsMap × Bool
  | [] => (if m.length ≠ 0 then [m] else [], false)
  | c :: cs =>
    match ingest m c with
    | none => ([], true)
    | some m1 =>
      if m1.length % CURSOR_PAGE_SIZE = 0 then
        let out := pcGo [] cs
        (m1 :: out.1, out.2)
      else pcGo m1 cs

/-- `#processChanges` observable behaviour: the sequence of row-update
batches passed to the updater, plus the error flag. -/
def processChanges (cs : List RowChangeE) : List RowsMap × Bool := pcGo [] cs

/-! ## CVR data model -/

/-- A query AST, abstracted to the data the core inspects: the columns it
references (`addQuery` fails with `BadQuery` when one does not exist). -/
structure AST where
  table : String
  columns : List String
  deriving DecidableEq, Repr

/-- A CVR query record: `{id, ast, desiredBy, internal,
transformationHash?}` (spec section 3). -/
structure QueryRecord where
  id : String
  ast : AST
  desiredBy : List (String × Version)
  internal : Bool
  transformationHash : Option String
  deriving DecidableEq, Repr

/-- A query is "desired" iff `internal` or `desiredBy` is non-empty
(view-syncer.ts line 391 / spec section 3). -/
def QueryRecord.isDesired (q : QueryRecord) : Bool :=
  q.internal || decide (q.desiredBy.length > 0)

/-- A CVR row record: `{patchVersion, rowVersion, refCounts}`; `refCounts =
none` is the unreferenced-row tombstone. -/
structure RowRecord where
  patchVersion : Version
  rowVersion : String
  refCounts : Option (List (String × Nat))
  deriving DecidableEq, Repr

/-- An in-memory CVR snapshot (spec section 3).  Client records carry only
their desired-query id list, which the claims do not inspect further. -/
structure CVRSnapshot where
  id : String
  version : Version
  clients : List String
  queries : List (String × QueryRecord)
  rows : List (RowID × RowRecord)
  deriving DecidableEq, Repr

def lookupQ (qs : List (String × QueryRecord)) (h : String) : Option QueryRecord :=
  match qs with
  | [] => none
  | (h1, q1) :: rest => if h1 = h then some q1 else lookupQ rest h

def setQ (qs : List (String × QueryRecord)) (h : String) (q : QueryRecord) :
    List (String × QueryRecord) :=
  match qs with
  | [] => [(h, q)]
  | (h1, q1) :: rest => if h1 = h then (h, q) :: rest else (h1, q1) :: setQ rest h q

def setDesired (ds : List (String × Version)) (c : String) (v : Version) :
    List (String × Version) :=
  match ds with
  | [] => [(c, v)]
  | (c1, v1) :: rest => if c1 = c then (c, v) :: rest else (c1, v1) :: setDesired rest c v

/-! ## Config-driven CVR updater

Modelled from the spec (cvr.ts is not in the corpus), section 4.3: staged
`put`/`del`/`clear` desired-query operations against a snapshot; flush bumps
`minorVersion` (not `stateVersion`) and returns the new snapshot. -/

/-- Modelled from the spec: the config-driven updater's new version — the
current CVR version with `minorVersion` bumped. -/
def configNewVersion (cvr : CVRSnapshot) : Version :=
  ⟨cvr.version.stateVersion, cvr.version.minorVersion + 1⟩

/-- Modelled from the spec: `putDesiredQueries(clientID, ast-by-hash)` —
adds the client if absent, creates absent queries (returned as newly added)
and marks each as desired by the client at the new version. -/
def putDesiredQueries (cvr : CVRSnapshot) (clientID : String)
    (queries : List (String × AST)) : CVRSnapshot :=
  let cvr :=
    if cvr.clients.contains clientID then cvr
    else { cvr with clients := cvr.clients ++ [clientID] }
  queries.foldl
    (fun acc (hq : String × AST) =>
      let nv := configNewVersion acc
      match lookupQ acc.queries hq.1 with
      | some q =>
        let q2 := { q with desiredBy := setDesired q.desiredBy clientID nv }
        { acc with queries := setQ acc.queries hq.1 q2 }
      | none =>
        let q2 : QueryRecord := ⟨hq.1, hq.2, [(clientID, nv)], false, none⟩
        { acc with queries := setQ acc.queries hq.1 q2 })
    cvr

/-- Modelled from the spec: `deleteDesiredQueries(clientID, hashes)` —
removes the client's `desiredBy` entry from each listed query. -/
def deleteDesiredQueries (cvr : CVRSnapshot) (clientID : String)
    (hashes : List String) : CVRSnapshot :=
  { cvr with queries := cvr.queries.map (fun hq =>
      if hashes.contains hq.1 then
        (hq.1, { hq.2 with desiredBy := hq.2.desiredBy.filter (fun d => decide (d.1 ≠ clientID)) })
      else hq) }

/-- Modelled from the spec: `clearDesiredQueries(clientID)` — removes the
client's `desiredBy` entry from every query. -/
def clearDesiredQueries (cvr : CVRSnapshot) (clientID : String) : CVRSnapshot :=
  { cvr with queries := cvr.queries.map (fun hq =>
      (hq.1, { hq.2 with desiredBy := hq.2.desiredBy.filter (fun d => decide (d.1 ≠ clientID)) })) }

/-- Modelled from the spec: config-driven `flush` — atomically persists the
staged snapshot at the bumped minor version, or fails (`Unavailable`). -/
def configFlush (staged : CVRSnapshot) (base : CVRSnapshot) (ok : Bool) :
    Option CVRSnapshot :=
  if ok then some { staged with version := configNewVersion base } else none

/-! ## Query-driven CVR updater

Modelled from the spec, section 4.3: created at the pipeline's current state
version; `trackQueries` stages got/removed queries and returns the new
version and query patches; `received` merges row updates; `flush` persists
atomically. -/

/-- Modelled from the spec: the query-driven updater's new CVR version — its
`stateVersion` is the pipeline's current version; if the state version did
not advance, `minorVersion` is bumped instead. -/
def nextVersion (v : Version) (stateVersion : String) : Version :=
  if stateVersion = v.stateVersion then ⟨v.stateVersion, v.minorVersion + 1⟩
  else ⟨stateVersion, 0⟩

/-- Patch payloads broadcast by the updaters and the catch-up scan, as seen
by a client handler. -/
inductive PatchEv
  | queryPut (hash : String)
  | queryDel (hash : String)
  | rowPut (id : RowID) (contents : Row)
  | rowDel (id : RowID)
  deriving DecidableEq, Repr

/-- Modelled from the spec: the query-driven updater (`CVRQueryDrivenUpdater`
in cvr.ts), staging query and row modifications against a snapshot. -/
structure QueryUpdater where
  base : CVRSnapshot
  staged : CVRSnapshot
  newVersion : Version
  removedQueries : List String
  deriving Repr

/-- Modelled from the spec: the updater is created at the pipeline's current
state version; `updatedVersion()` is the resulting new CVR version. -/
def mkQueryUpdater (cvr : CVRSnapshot) (stateVersion : String) : QueryUpdater :=
  ⟨cvr, cvr, nextVersion cvr.version stateVersion, []⟩

/-- Modelled from the spec: `trackQueries(add, remove)` — marks each added
query as got (its `transformationHash` recorded), deletes removed query
records, and returns `put`/`del` query patches for the current poke. -/
def trackQueries (u : QueryUpdater) (add : List (String × String))
    (remove : List String) : QueryUpdater × List PatchEv :=
  let qs := u.staged.queries.map (fun hq =>
    match add.lookup hq.1 with
    | some th => (hq.1, { hq.2 with transformationHash := some th })
    | none => hq)
  let qs := qs.filter (fun hq => decide ¬ remove.contains hq.1)
  let u := { u with staged := { u.staged with queries := qs },
                    removedQueries := u.removedQueries ++ remove }
  (u, add.map (fun a => PatchEv.queryPut a.1) ++ remove.map PatchEv.queryDel)

def setRCNat (rc : List (String × Nat)) (q : String) (n : Nat) : List (String × Nat) :=
  match rc with
  | [] => [(q, n)]
  | (q1, v1) :: rest => if q1 = q then (q, n) :: rest else (q1, v1) :: setRCNat rest q n

/-- Merge one signed ref-count delta into a stored (unsigned) ref-count map;
an entry reaching zero or below is removed (spec: "if a query's ref-count
reaches zero, remove that query from the row"). -/
def addRC (rc : List (String × Nat)) (q : String) (d : Int) : List (String × Nat) :=
  let cur : Int := ((rc.lookup q).getD 0 : Nat)
  let v := cur + d
  if v ≤ 0 then rc.filter (fun e => decide (e.1 ≠ q)) else setRCNat rc q v.toNat

def mergeRC (stored : List (String × Nat)) (delta : List (String × Int)) :
    List (String × Nat) :=
  delta.foldl (fun acc e => addRC acc e.1 e.2) stored

def lookupRow (rows : List (RowID × RowRecord)) (k : RowID) : Option RowRecord :=
  match rows with
  | [] => none
  | (k1, v1) :: rest => if k1 = k then some v1 else lookupRow rest k

def setRow (rows : List (RowID × RowRecord)) (k : RowID) (v : RowRecord) :
    List (RowID × RowRecord) :=
  match rows with
  | [] => [(k, v)]
  | (k1, v1) :: rest => if k1 = k then (k, v) :: rest else (k1, v1) :: setRow rest k v

/-- Modelled from the spec: `received(rows)` for one staged row — merge the
signed `refCounts` into the stored row; if no referencing query remains the
row becomes a tombstone and a `del` patch is emitted; otherwise, if contents
arrived, a `put` patch with the new contents is emitted. -/
def receivedOne (u : QueryUpdater) (rid : RowID) (upd : RowUpdate) :
    QueryUpdater × Option PatchEv :=
  let stored := lookupRow u.staged.rows rid
  let counts := mergeRC ((stored.bind (·.refCounts)).getD []) upd.refCounts
  if counts.isEmpty then
    let rec1 : RowRecord :=
      ⟨u.newVersion, (stored.map (·.rowVersion)).getD "", none⟩
    ({ u with staged := { u.staged with rows := setRow u.staged.rows rid rec1 } },
     some (PatchEv.rowDel rid))
  else
    let rec1 : RowRecord :=
      ⟨u.newVersion, (upd.version.orElse (fun _ => stored.map (·.rowVersion))).getD "", some counts⟩
    let u1 := { u with staged := { u.staged with rows := setRow u.staged.rows rid rec1 } }
    match upd.contents with
    | some c => (u1, some (PatchEv.rowPut rid c))
    | none => (u1, none)

/-- Modelled from the spec: `received(rows)` over a whole staged batch,
returning the patches to broadcast in arrival order. -/
def received (u : QueryUpdater) (batch : RowsMap) : QueryUpdater × List PatchEv :=
  batch.foldl
    (fun (acc : QueryUpdater × List PatchEv) e =>
      let out := receivedOne acc.1 e.1 e.2
      (out.1, acc.2 ++ out.2.toList))
    (u, [])

/-- Modelled from the spec: `deleteUnreferencedRows()` — for the removed
queries, drop their references from every row; rows left with no referencing
query become tombstones and yield `del` patches. -/
def deleteUnreferencedRows (u : QueryUpdater) : QueryUpdater × List PatchEv :=
  let step := fun (acc : List (RowID × RowRecord) × List PatchEv)
      (e : RowID × RowRecord) =>
    match e.2.refCounts with
    | none => (acc.1 ++ [e], acc.2)
    | some rc =>
      let rc1 := rc.filter (fun c => decide ¬ u.removedQueries.contains c.1)
      if rc1.isEmpty then
        (acc.1 ++ [(e.1, ⟨u.newVersion, e.2.rowVersion, none⟩)],
         acc.2 ++ [PatchEv.rowDel e.1])
      else (acc.1 ++ [(e.1, { e.2 with refCounts := some rc1 })], acc.2)
  let out := u.staged.rows.foldl step ([], [])
  ({ u with staged := { u.staged with rows := out.1 } }, out.2)

/-- Modelled from the spec: query-driven `flush` — atomically persists all
staged changes at the new version, returning the new snapshot, or fails. -/
def queryFlush (u : QueryUpdater) (ok : Bool) : Option CVRSnapshot :=
  if ok then some { u.staged with version := u.newVersion } else none

/-! ## Pipeline driver model

Modelled from the spec (pipeline-driver.ts is not in the corpus), section
4.4: a set of named queries over the replica at `currentVersion`; `addQuery`
hydrates (failing with `BadQuery` on an AST referencing nonexistent columns),
`removeQuery` drops, `getRow` is a point lookup. -/

structure PipelineState where
  isInitialized : Bool
  currentVersion : String
  addedQueries : List String
  schemaColumns : List String
  hydration : String → List RowChangeE
  tableRows : List ((String × String) × Row)

/-- Modelled from the spec: `addQuery(hash, ast)` hydrates the query and
yields its rows, or fails with `BadQuery` if the AST references nonexistent
columns. -/
def pipeAddQuery (p : PipelineState) (hash : String) (ast : AST) :
    Option (PipelineState × List RowChangeE) :=
  if ast.columns.all (fun c => p.schemaColumns.contains c) then
    some ({ p with addedQueries := p.addedQueries ++ [hash] }, p.hydration hash)
  else none

/-- Modelled from the spec: `removeQuery(hash)` drops the query. -/
def pipeRemoveQuery (p : PipelineState) (hash : String) : PipelineState :=
  { p with addedQueries := p.addedQueries.erase hash }

/-- Modelled from the spec: `getRow(table, rowKey)` point lookup. -/
def pipeGetRow (p : PipelineState) (table rowKey : String) : Option Row :=
  match p.tableRows.find? (fun e => e.1.1 = table && e.1.2 = rowKey) with
  | some e => some e.2
  | none => none

/-! ## Client handlers and pokers

Modelled from the spec (client-handler.ts is not in the corpus), sections
4.5 and 4.6: a handler tracks the wsID, its object identity, and the latest
version the client acknowledged; `startPoke(v)` opens a poke at cookie `v`
with `baseCookie` the client's current version; `addPatch` delivers a patch
to the client exactly when its `toVersion` is above the client's version;
`end()` commits the poke, advancing the client's version to the cookie. -/

structure ClientState where
  wsID : String
  handle : Nat
  baseVersion : Version
  deriving DecidableEq, Repr

structure Poker where
  clientID : String
  base : Version
  cookie : Version
  deriving DecidableEq, Repr

inductive PokeTag
  | main
  | catchup
  deriving DecidableEq, Repr

/-- Observable downstream events: poke framing and delivered patches. -/
inductive Event
  | pokeStart (tag : PokeTag) (clientID : String) (base : Version) (cookie : Version)
  | patchSent (clientID : String) (p : PatchEv) (toVersion : Version)
  | pokeEnd (clientID : String) (cookie : Version)
  deriving DecidableEq, Repr

def lookupC (cs : List (String × ClientState)) (k : String) : Option ClientState :=
  match cs with
  | [] => none
  | (k1, v1) :: rest => if k1 = k then some v1 else lookupC rest k

/-- `addPatch` broadcast: each poker delivers the patch to its client iff the
patch's `toVersion` is above the client's acknowledged version. -/
def addPatchEvents (pokers : List Poker) (p : PatchEv) (toVersion : Version) :
    List Event :=
  pokers.filterMap (fun pk =>
    if versionLt pk.base toVersion then some (Event.patchSent pk.clientID p toVersion)
    else none)

def startPokers (clients : List (String × ClientState)) (cookie : Version) :
    List Poker :=
  clients.map (fun e => Poker.mk e.1 e.2.baseVersion cookie)

def startPokeEvents (tag : PokeTag) (clients : List (String × ClientState))
    (cookie : Version) : List Event :=
  clients.map (fun e => Event.pokeStart tag e.1 e.2.baseVersion cookie)

def endPokeEvents (pokers : List Poker) : List Event :=
  pokers.map (fun pk => Event.pokeEnd pk.clientID pk.cookie)

/-- After `poker.end()` each poked client has acknowledged the cookie. -/
def commitClients (clients : List (String × ClientState)) (v : Version) :
    List (String × ClientState) :=
  clients.map (fun e => (e.1, { e.2 with baseVersion := v }))

/-! ## The service -/

/-- Error kinds relevant to the embedded control flow (spec section 7). -/
inductive Err
  | badQuery
  | internal
  | flushFailed
  | assertFailed
  deriving DecidableEq, Repr

/-- The `ViewSyncerService` mutable fields: the CVR snapshot pointer `#cvr`,
the durably stored CVR, the pipeline driver, the `#clients` map, and the
idle-timer state. -/
structure ServiceState where
  cvr : CVRSnapshot
  stored : CVRSnapshot
  pipeline : PipelineState
  clients : List (String × ClientState)
  idleArmed : Bool

/-- The outcome of one service operation: its result, the downstream events
emitted (also on the error path), and the resulting service state. -/
structure OpOut where
  res : Option Err
  events : List Event
  state : ServiceState

/-- Feed the row-update batches produced by `#processChanges` to
`updater.received`, broadcasting the returned patches to the pokers. -/
def feedBatches (pokers : List Poker) (u : QueryUpdater) :
    List RowsMap → QueryUpdater × List Event
  | [] => (u, [])
  | b :: bs =>
    let out := received u b
    let evs := out.2.flatMap (fun p => addPatchEvents pokers p u.newVersion)
    let rest := feedBatches pokers out.1 bs
    (rest.1, evs ++ rest.2)

/-- `#processChanges` at the service level (view-syncer.ts lines 549-597):
the paged batches go to `updater.received`, the resulting patches to every
poker; a malformed `_0_version` surfaces as `Internal`. -/
def processChangesB (changes : List RowChangeE) (u : QueryUpdater)
    (pokers : List Poker) : Option Err × QueryUpdater × List Event :=
  let out := processChanges changes
  let fed := feedBatches pokers u out.1
  (if out.2 then some Err.internal else none, fed.1, fed.2)

/-- `#advancePipelines` (view-syncer.ts lines 605-630): advance the replica,
create a query-driven updater at the new version, start pokers at
`updater.updatedVersion()`, process changes, flush and — only then — end the
pokes. -/
def advancePipelinesOp (newVer : String) (changes : List RowChangeE)
    (flushOk : Bool) (s : ServiceState) : OpOut :=
  let pipe := { s.pipeline with currentVersion := newVer }
  let u := mkQueryUpdater s.cvr newVer
  let pokers := startPokers s.clients u.newVersion
  let evs0 := startPokeEvents PokeTag.main s.clients u.newVersion
  let pc := processChangesB changes u pokers
  match pc.1 with
  | some e => ⟨some e, evs0 ++ pc.2.2, { s with pipeline := pipe }⟩
  | none =>
    match queryFlush pc.2.1 flushOk with
    | none => ⟨some Err.flushFailed, evs0 ++ pc.2.2, { s with pipeline := pipe }⟩
    | some cvr2 =>
      ⟨none, evs0 ++ pc.2.2 ++ endPokeEvents pokers,
       { s with pipeline := pipe, cvr := cvr2, stored := cvr2,
                clients := commitClients s.clients u.newVersion }⟩

/-- A row patch record produced by `cvrStore.catchupRowPatches` (its shape as
consumed by view-syncer.ts lines 520-540). -/
structure CatchupRowRecord where
  id : RowID
  patchVersion : Version
  hasRefCounts : Bool
  deriving DecidableEq, Repr

/-- The row-patch loop of `#catchupClients` (lines 520-541): a tombstone
becomes a `del` patch; a referenced row is materialized via
`pipeline.getRow`, whose absence is the thrown `Missing row` invariant
violation. -/
def catchupRowLoop (pokers : List Poker) (pipe : PipelineState) :
    List CatchupRowRecord → Option Err × List Event
  | [] => (none, [])
  | r :: rest =>
    if r.hasRefCounts then
      match pipeGetRow pipe r.id.table r.id.rowKey with
      | none => (some Err.internal, [])
      | some contents =>
        let evs := addPatchEvents pokers (PatchEv.rowPut r.id contents) r.patchVersion
        let out := catchupRowLoop pokers pipe rest
        (out.1, evs ++ out.2)
    else
      let evs := addPatchEvents pokers (PatchEv.rowDel r.id) r.patchVersion
      let out := catchupRowLoop pokers pipe rest
      (out.1, evs ++ out.2)

/-- `#catchupClients` (view-syncer.ts lines 489-547).  The store's catch-up
scans (`catchupConfigPatches`, `catchupRowPatches`, both queried from the
oldest connected client version and excluding `excludeQueryHashes`) are
supplied as inputs; config patches are broadcast first, then row patches,
each filtered per client by the poker.  Without `usePokers` the pokes are
started and ended here at the supplied CVR's version. -/
def catchupClients (clients : List (String × ClientState)) (pipe : PipelineState)
    (cvr : CVRSnapshot) (excludeQueryHashes : List String)
    (usePokers : Option (List Poker)) (configPatches : List (PatchEv × Version))
    (rowPatches : List CatchupRowRecord) :
    Option Err × List Event × List (String × ClientState) :=
  let _ := excludeQueryHashes
  let pokers := usePokers.getD (startPokers clients cvr.version)
  let startEvs :=
    if usePokers.isSome then [] else startPokeEvents PokeTag.catchup clients cvr.version
  let cfgEvs := configPatches.flatMap (fun pv => addPatchEvents pokers pv.1 pv.2)
  let rowOut := catchupRowLoop pokers pipe rowPatches
  match rowOut.1 with
  | some e => (some e, startEvs ++ cfgEvs ++ rowOut.2, clients)
  | none =>
    if usePokers.isSome then (none, startEvs ++ cfgEvs ++ rowOut.2, clients)
    else
      (none, startEvs ++ cfgEvs ++ rowOut.2 ++ endPokeEvents pokers,
       commitClients clients cvr.version)

/-- The added-query loop of `#addAndRemoveQueries` (lines 450-459): for each
hash, look up its AST in the CVR, hydrate it through the pipeline (`BadQuery`
on invalid columns) and stream the changes through `#processChanges`. -/
def addLoop (pokers : List Poker) (cvr : CVRSnapshot) (p : PipelineState)
    (u : QueryUpdater) : List String → Option Err × PipelineState × QueryUpdater × List Event
  | [] => (none, p, u, [])
  | h :: rest =>
    match lookupQ cvr.queries h with
    | none => (some Err.internal, p, u, [])
    | some q =>
      match pipeAddQuery p h q.ast with
      | none => (some Err.badQuery, p, u, [])
      | some pc0 =>
        let pc := processChangesB pc0.2 u pokers
        match pc.1 with
        | some e => (some e, pc0.1, pc.2.1, pc.2.2)
        | none =>
          let out := addLoop pokers cvr pc0.1 pc.2.1 rest
          (out.1, out.2.1, out.2.2.1, pc.2.2 ++ out.2.2.2)

/-- The `trackQueries` call of `#addAndRemoveQueries` (lines 432-436): each
added hash paired with its (identity) transformation hash. -/
def arqTrack (s : ServiceState) (addQ remQ : List String) :
    QueryUpdater × List PatchEv :=
  trackQueries (mkQueryUpdater s.cvr s.pipeline.currentVersion)
    (addQ.map (fun h => (h, h))) remQ

/-- The pokers started by `#addAndRemoveQueries` (lines 437-439), one per
connected client, at the updater's new version. -/
def arqPokers (s : ServiceState) (addQ remQ : List String) : List Poker :=
  startPokers s.clients (arqTrack s addQ remQ).1.newVersion

/-- The pipeline after the `removeQuery` loop (lines 446-448). -/
def arqPipeAfterRemove (s : ServiceState) (remQ : List String) : PipelineState :=
  remQ.foldl pipeRemoveQuery s.pipeline

/-- The added-query hydration loop of `#addAndRemoveQueries` (lines
450-459). -/
def arqAddLoop (s : ServiceState) (addQ remQ : List String) :
    Option Err × PipelineState × QueryUpdater × List Event :=
  addLoop (arqPokers s addQ remQ) s.cvr (arqPipeAfterRemove s remQ)
    (arqTrack s addQ remQ).1 addQ

/-- `#addAndRemoveQueries` (view-syncer.ts lines 411-476): track the query
set changes, start a poker per connected client at the new version, broadcast
the query patches, remove then add pipelines streaming hydration through
`#processChanges`, emit the delete patches, flush, catch up clients against
the old CVR, and finally end every poke. -/
def addAndRemoveQueriesOp (s : ServiceState) (addQ remQ : List String)
    (flushOk : Bool) (cfgP : List (PatchEv × Version))
    (rowP : List CatchupRowRecord) : OpOut :=
  let u1 := (arqTrack s addQ remQ).1
  let pokers := arqPokers s addQ remQ
  let evs0 := startPokeEvents PokeTag.main s.clients u1.newVersion
  let evs1 := (arqTrack s addQ remQ).2.flatMap
    (fun p => addPatchEvents pokers p u1.newVersion)
  let al := arqAddLoop s addQ remQ
  match al.1 with
  | some e => ⟨some e, evs0 ++ evs1 ++ al.2.2.2, { s with pipeline := al.2.1 }⟩
  | none =>
    let du := deleteUnreferencedRows al.2.2.1
    let evs2 := du.2.flatMap (fun p => addPatchEvents pokers p u1.newVersion)
    match queryFlush du.1 flushOk with
    | none =>
      ⟨some Err.flushFailed, evs0 ++ evs1 ++ al.2.2.2 ++ evs2,
       { s with pipeline := al.2.1 }⟩
    | some cvr2 =>
      let cu := catchupClients s.clients al.2.1 s.cvr addQ (some pokers) cfgP rowP
      match cu.1 with
      | some e =>
        ⟨some e, evs0 ++ evs1 ++ al.2.2.2 ++ evs2 ++ cu.2.1,
         { s with pipeline := al.2.1, cvr := cvr2, stored := cvr2 }⟩
      | none =>
        ⟨none, evs0 ++ evs1 ++ al.2.2.2 ++ evs2 ++ cu.2.1 ++ endPokeEvents pokers,
         { s with pipeline := al.2.1, cvr := cvr2, stored := cvr2,
                  clients := commitClients s.clients u1.newVersion }⟩

/-- `allClientQueries` of `#syncQueryPipelineSet` (line 387). -/
def allQueryKeys (cvr : CVRSnapshot) : List String := cvr.queries.map (·.1)

/-- `desiredClientQueries` (lines 388-393): the keys whose query is internal
or desired by some client. -/
def desiredQueryKeys (cvr : CVRSnapshot) : List String :=
  (allQueryKeys cvr).filter (fun h =>
    match lookupQ cvr.queries h with
    | some q => q.isDesired
    | none => false)

/-- `addQueries = difference(desiredClientQueries, hydratedQueries)`
(line 395). -/
def computeAddQueries (cvr : CVRSnapshot) (p : PipelineState) : List String :=
  (desiredQueryKeys cvr).filter (fun h => decide ¬ p.addedQueries.contains h)

/-- `removeQueries = difference(allClientQueries, desiredClientQueries)`
(lines 396-398). -/
def computeRemoveQueries (cvr : CVRSnapshot) (p : PipelineState) : List String :=
  let _ := p
  (allQueryKeys cvr).filter (fun h => decide ¬ (desiredQueryKeys cvr).contains h)

/-- The `else` branch of `#syncQueryPipelineSet` (line 403): catch up all
clients to the current CVR, starting and ending the pokes here. -/
def catchupStandaloneOp (s : ServiceState) (cfgP : List (PatchEv × Version))
    (rowP : List CatchupRowRecord) : OpOut :=
  let cu := catchupClients s.clients s.pipeline s.cvr [] none cfgP rowP
  ⟨cu.1, cu.2.1, { s with clients := cu.2.2 }⟩

/-- The branch of `#syncQueryPipelineSet` (lines 399-404): run
`#addAndRemoveQueries` when a query must be added or removed, else catch the
clients up. -/
def syncBranchOp (s : ServiceState) (flushOk : Bool)
    (cfgP : List (PatchEv × Version)) (rowP : List CatchupRowRecord) : OpOut :=
  if (computeAddQueries s.cvr s.pipeline).length > 0 ∨
      (computeRemoveQueries s.cvr s.pipeline).length > 0 then
    addAndRemoveQueriesOp s (computeAddQueries s.cvr s.pipeline)
      (computeRemoveQueries s.cvr s.pipeline) flushOk cfgP rowP
  else catchupStandaloneOp s cfgP rowP

/-- `#syncQueryPipelineSet` (view-syncer.ts lines 380-408): reconcile the
pipeline's query set with the CVR's, then assert that the CVR caught up to
the pipeline's state version (line 407). -/
def syncQueryPipelineSetOp (s : ServiceState) (flushOk : Bool)
    (cfgP : List (PatchEv × Version)) (rowP : List CatchupRowRecord) : OpOut :=
  match (syncBranchOp s flushOk cfgP rowP).res with
  | some _ => syncBranchOp s flushOk cfgP rowP
  | none =>
    if (syncBranchOp s flushOk cfgP rowP).state.cvr.version.stateVersion =
        (syncBranchOp s flushOk cfgP rowP).state.pipeline.currentVersion then
      syncBranchOp s flushOk cfgP rowP
    else { syncBranchOp s flushOk cfgP rowP with res := some Err.assertFailed }

/-- A desired-queries patch entry (`{op: put|del|clear, hash, ast?}`). -/
inductive QPatchOp
  | put (hash : String) (ast : AST)
  | del (hash : String)
  | clear
  deriving DecidableEq, Repr

/-- One iteration of the `#patchQueries` switch (lines 296-310). -/
def applyQueryPatch (cvr : CVRSnapshot) (clientID : String) :
    QPatchOp → CVRSnapshot
  | QPatchOp.put h ast => putDesiredQueries cvr clientID [(h, ast)]
  | QPatchOp.del h => deleteDesiredQueries cvr clientID [h]
  | QPatchOp.clear => clearDesiredQueries cvr clientID

/-- `#patchQueries` (view-syncer.ts lines 283-318): when the patch list is
non-empty, stage it through a config-driven updater and flush — reassigning
`#cvr` to the flushed snapshot; then, if the pipeline is initialized, run
`#syncQueryPipelineSet`. -/
def patchQueriesOp (s : ServiceState) (clientID : String) (patch : List QPatchOp)
    (cfOk qfOk : Bool) (cfgP : List (PatchEv × Version))
    (rowP : List CatchupRowRecord) : OpOut :=
  let step : Option Err × ServiceState :=
    if patch.isEmpty then (none, s)
    else
      let staged := patch.foldl (fun c p => applyQueryPatch c clientID p) s.cvr
      match configFlush staged s.cvr cfOk with
      | none => (some Err.flushFailed, s)
      | some cvr1 => (none, { s with cvr := cvr1, stored := cvr1 })
  match step.1 with
  | some e => ⟨some e, [], step.2⟩
  | none =>
    if step.2.pipeline.isInitialized then syncQueryPipelineSetOp step.2 qfOk cfgP rowP
    else ⟨none, [], step.2⟩

/-- `changeDesiredQueries` via `#runInLockForClient` (lines 224-268, no new
client): the handler registered for the clientID is looked up; a missing
handler or a wsID mismatch silently drops the message. -/
def changeDesiredQueriesOp (s : ServiceState) (clientID wsID : String)
    (patch : List QPatchOp) (cfOk qfOk : Bool)
    (cfgP : List (PatchEv × Version)) (rowP : List CatchupRowRecord) : OpOut :=
  match lookupC s.clients clientID with
  | none => ⟨none, [], s⟩
  | some c =>
    if c.wsID = wsID then patchQueriesOp s clientID patch cfOk qfOk cfgP rowP
    else ⟨none, [], s⟩

/-- `#deleteClient` (view-syncer.ts lines 173-184): remove the entry only
when the registered handler is identity-equal to the departing one, and arm
the idle timer when the map becomes empty. -/
def deleteClientOp (s : ServiceState) (clientID : String) (handle : Nat) :
    ServiceState :=
  match lookupC s.clients clientID with
  | none => s
  | some c =>
    if c.handle = handle then
      let cs := s.clients.filter (fun e => decide (e.1 ≠ clientID))
      { s with clients := cs, idleArmed := if cs.isEmpty then true else s.idleArmed }
    else s

/-- The per-query loop of `#hydrateUnchangedQueries` (lines 353-369) over the
got queries: skip queries that are no longer desired, skip queries whose
stored transformation hash differs from the identity transformation, and
hydrate the rest through `addQuery`, discarding the yielded rows.  Returns
the pipeline and the hashes passed to `addQuery`; `none` is a thrown
`addQuery` error. -/
def hydrateLoop (p : PipelineState) :
    List (String × QueryRecord) → Option (PipelineState × List String)
  | [] => some (p, [])
  | (hash, q) :: rest =>
    if q.internal = false ∧ q.desiredBy.length = 0 then hydrateLoop p rest
    else if q.transformationHash ≠ some hash then hydrateLoop p rest
    else
      match pipeAddQuery p hash q.ast with
      | none => none
      | some pc => (hydrateLoop pc.1 rest).map (fun out => (out.1, hash :: out.2))

/-- `#hydrateUnchangedQueries` (view-syncer.ts lines 335-370): a no-op when
the CVR state version is behind the database version; otherwise re-register
the unchanged got queries. -/
def hydrateUnchangedQueries (cvr : CVRSnapshot) (p : PipelineState) :
    Option (PipelineState × List String) :=
  if cvr.version.stateVersion ≠ p.currentVersion then some (p, [])
  else
    hydrateLoop p (cvr.queries.filter (fun hq => hq.2.transformationHash.isSome))

/-- `#hydrateUnchangedQueries` at the service level: only the pipeline is
touched; `#cvr` is not reassigned and nothing is poked. -/
def hydrateStep (s : ServiceState) : Option ServiceState :=
  (hydrateUnchangedQueries s.cvr s.pipeline).map
    (fun out => { s with pipeline := out.1 })

/-! ## Operation sequences -/

/-- The operations of the running (initialized) service that drive pokes:
replica advancements from the run loop, and client `changeDesiredQueries`
requests.  Flush outcomes and store catch-up results are external inputs. -/
inductive SOp
  | advance (newVer : String) (changes : List RowChangeE) (flushOk : Bool)
  | changeQ (clientID wsID : String) (patch : List QPatchOp) (cfOk qfOk : Bool)
      (cfgP : List (PatchEv × Version)) (rowP : List CatchupRowRecord)

def applyOp (s : ServiceState) : SOp → OpOut
  | SOp.advance nv cs fo => advancePipelinesOp nv cs fo s
  | SOp.changeQ cid ws p c q cp rp => changeDesiredQueriesOp s cid ws p c q cp rp

/-- Run a sequence of operations; a thrown error ends the run (the service
run loop catches it and enters cleanup). -/
def runOps (s : ServiceState) : List SOp → ServiceState × List Event
  | [] => (s, [])
  | op :: rest =>
    let o := applyOp s op
    match o.res with
    | some _ => (o.state, o.events)
    | none =>
      let out := runOps o.state rest
      (out.1, o.events ++ out.2)

/-- The versions `(baseCookie, cookie)` of the pokes started for a client by
`#addAndRemoveQueries` and `#advancePipelines` (the `newVersion` /
`updatedVersion` start-poke sites). -/
def mainPokesTo (c : String) (evs : List Event) : List (Version × Version) :=
  evs.filterMap (fun e =>
    match e with
    | Event.pokeStart PokeTag.main cid b v => if cid = c then some (b, v) else none
    | _ => none)

/-- The versions of every poke started for a client, the catch-up pokes
included. -/
def allPokesTo (c : String) (evs : List Event) : List (Version × Version) :=
  evs.filterMap (fun e =>
    match e with
    | Event.pokeStart _ cid b v => if cid = c then some (b, v) else none
    | _ => none)

/-- Strictly increasing poke versions starting from threshold `b`: each poke
opens at or above the threshold and strictly increases it. -/
def mainChainFrom (b : Version) : List (Version × Version) → Prop
  | [] => True
  | p :: rest => versionLe b p.1 ∧ versionLt p.1 p.2 ∧ mainChainFrom p.2 rest

/-- Gapless poke versions from `b`: each poke's baseCookie is exactly the
version the client last acknowledged. -/
def contiguousFrom (b : Version) : List (Version × Version) → Prop
  | [] => True
  | p :: rest => p.1 = b ∧ contiguousFrom p.2 rest

/-- The run-state invariant of the initialized service: unique client ids,
every connected client acknowledged at the current CVR version, the pipeline
initialized and not behind the CVR, and the snapshot pointer holding the
last flushed snapshot. -/
def Inv (s : ServiceState) : Prop :=
  (s.clients.map Prod.fst).Nodup ∧
  (∀ e ∈ s.clients, (e : String × ClientState).2.baseVersion = s.cvr.version) ∧
  s.pipeline.isInitialized = true ∧
  (s.cvr.version.stateVersion < s.pipeline.currentVersion ∨
    s.cvr.version.stateVersion = s.pipeline.currentVersion) ∧
  s.stored = s.cvr

/-- Validity of one operation against a state: a replica advancement carries
a strictly newer state version (`advance()` consumes the next delta). -/
def validOp (s : ServiceState) : SOp → Prop
  | SOp.advance nv _ _ => s.pipeline.currentVersion < nv
  | SOp.changeQ _ _ _ _ _ _ _ => True

def validOps (s : ServiceState) : List SOp → Prop
  | [] => True
  | op :: rest =>
    validOp s op ∧
      ((applyOp s op).res = none → validOps (applyOp s op).state rest)

/-! ## Specification-side definitions

These re-state parts of the claims in the spec's own words, to be compared
with the definitions embedded from the source. -/

/-- Spec: a query is desired iff it is internal or some client desires it. -/
def SpecDesired (cvr : CVRSnapshot) (h : String) : Prop :=
  ∃ q, lookupQ cvr.queries h = some q ∧ (q.internal = true ∨ q.desiredBy ≠ [])

instance (cvr : CVRSnapshot) (h : String) : Decidable (SpecDesired cvr h) := by
  unfold SpecDesired
  cases hq : lookupQ cvr.queries h with
  | none => exact Decidable.isFalse (by rintro ⟨q, hq2, _⟩; cases hq2)
  | some q =>
    by_cases hd : q.internal = true ∨ q.desiredBy ≠ []
    · exact Decidable.isTrue ⟨q, rfl, hd⟩
    · exact Decidable.isFalse (by rintro ⟨q2, hq2, h2⟩; cases hq2; exact hd h2)

/-- Spec: the net signed ref count a list of changes contributes for a
`(row, query)` pair: `+1` per non-null row, `-1` per null row. -/
def signedCount (seg : List RowChangeE) (rid : RowID) (q : String) : Int :=
  ((seg.filter (fun c => decide (ridOf c = rid) && decide (c.queryHash = q) && c.row.isSome)).length : Int) -
  ((seg.filter (fun c => decide (ridOf c = rid) && decide (c.queryHash = q) && c.row.isNone)).length : Int)

/-- Spec: the first non-null row a batch of changes carries for a row id. -/
def firstNonNullRow (seg : List RowChangeE) (rid : RowID) : Option Row :=
  (seg.find? (fun c => decide (ridOf c = rid) && c.row.isSome)).bind (fun c => c.row)

/-- The staged ref-count value seen through the map (0 when untouched). -/
def rcVal (m : RowsMap) (rid : RowID) (q : String) : Int :=
  (lookupRC ((lookupRM m rid).getD ⟨[], none, none⟩).refCounts q).getD 0

def verOf (m : RowsMap) (rid : RowID) : Option String :=
  ((lookupRM m rid).getD ⟨[], none, none⟩).version

def contOf (m : RowsMap) (rid : RowID) : Option Row :=
  ((lookupRM m rid).getD ⟨[], none, none⟩).contents

/-- Ingest a whole batch segment from the loop body, with no intervening
flush. -/
def ingestList (m : RowsMap) : List RowChangeE → Option RowsMap
  | [] => some m
  | c :: cs =>
    match ingest m c with
    | none => none
    | some m1 => ingestList m1 cs

/-- The per-batch first-contents tracking of the spec, keyed by row id:
`true` once the batch has recorded contents (and hence a row version) for
the row. -/
abbrev SeenMap := List (RowID × Bool)

def lookupSeen (sm : SeenMap) (k : RowID) : Option Bool :=
  match sm with
  | [] => none
  | (k1, v1) :: rest => if k1 = k then some v1 else lookupSeen rest k

def setSeen (sm : SeenMap) (k : RowID) (v : Bool) : SeenMap :=
  match sm with
  | [] => [(k, v)]
  | (k1, v1) :: rest => if k1 = k then (k, v) :: rest else (k1, v1) :: setSeen rest k v

/-- Spec: the processing fails exactly when some change carries, as the
first non-null row for its row id within its batch, a row whose
`_0_version` is not a string of length at least 1 (batches cut when the
row map reaches `CURSOR_PAGE_SIZE` distinct rows). -/
def specBadBatches (sm : SeenMap) : List RowChangeE → Bool
  | [] => false
  | c :: cs =>
    let rid := ridOf c
    match c.row with
    | some r =>
      if (lookupSeen sm rid).getD false = false ∧ rowZeroVersion r = none then true
      else
        let sm1 := setSeen sm rid (((lookupSeen sm rid).getD false) || (rowZeroVersion r).isSome)
        if sm1.length % CURSOR_PAGE_SIZE = 0 then specBadBatches [] cs
        else specBadBatches sm1 cs
    | none =>
      let sm1 := setSeen sm rid ((lookupSeen sm rid).getD false)
      if sm1.length % CURSOR_PAGE_SIZE = 0 then specBadBatches [] cs
      else specBadBatches sm1 cs

/-- The patches delivered to one client, in order. -/
def deliveredTo (c : String) (evs : List Event) : List (PatchEv × Version) :=
  evs.filterMap (fun e =>
    match e with
    | Event.patchSent cid p v => if cid = c then some (p, v) else none
    | _ => none)

/-- Spec: what a catch-up delivers to a client acknowledged at `base`:
the config patches above `base` first, then the row patches above `base`,
tombstones as `del` and referenced rows as `put` of the pipeline's current
contents. -/
def expectedCatchup (base : Version) (cfg : List (PatchEv × Version))
    (rows : List CatchupRowRecord) (pipe : PipelineState) :
    List (PatchEv × Version) :=
  cfg.filter (fun pv => decide (versionLt base pv.2)) ++
  rows.filterMap (fun r =>
    if versionLt base r.patchVersion then
      some
        (if r.hasRefCounts then
          PatchEv.rowPut r.id ((pipeGetRow pipe r.id.table r.id.rowKey).getD [])
        else PatchEv.rowDel r.id, r.patchVersion)
    else none)

def isPokeEnd (e : Event) : Bool :=
  match e with
  | Event.pokeEnd _ _ => true
  | _ => false

/-- No `pokeEnd` frame occurs among the events. -/
def noPokeEnds (evs : List Event) : Prop := ∀ e ∈ evs, isPokeEnd e = false

def isPokeStart (e : Event) : Bool :=
  match e with
  | Event.pokeStart _ _ _ _ => true
  | _ => false

/-- No `pokeStart` frame occurs among the events. -/
def noPokeStarts (evs : List Event) : Prop := ∀ e ∈ evs, isPokeStart e = false

/-- The per-operation poke/state case analysis used in the poke-version
monotonicity induction: on success the run invariant is preserved, the CVR
version never goes backwards and the connected-client set is unchanged; a
client unknown to the service is never poked; and each connected client sees
either no poke, exactly one main poke based at its acknowledged version with
a strictly larger cookie, or exactly one catch-up poke based at its
acknowledged version — in the poked cases the successful operation leaves
the CVR at the poked cookie. -/
def PokeCases (s : ServiceState) (o : OpOut) : Prop :=
  (o.res = none → Inv o.state ∧ versionLe s.cvr.version o.state.cvr.version ∧
    o.state.clients.map Prod.fst = s.clients.map Prod.fst) ∧
  (∀ c, lookupC s.clients c = none →
    mainPokesTo c o.events = [] ∧ allPokesTo c o.events = []) ∧
  (∀ c st, lookupC s.clients c = some st →
    (mainPokesTo c o.events = [] ∧ allPokesTo c o.events = [] ∧
      (o.res = none → o.state.cvr.version = s.cvr.version)) ∨
    (∃ v, versionLt s.cvr.version v ∧
      mainPokesTo c o.events = [(s.cvr.version, v)] ∧
      allPokesTo c o.events = [(s.cvr.version, v)] ∧
      (o.res = none → o.state.cvr.version = v)) ∨
    (∃ v, versionLe s.cvr.version v ∧
      mainPokesTo c o.events = [] ∧
      allPokesTo c o.events = [(s.cvr.version, v)] ∧
      (o.res = none → o.state.cvr.version = v)))

/-- The config-updater flush result for a non-empty patch list: the staged
snapshot at the bumped minor version. -/
def configFlushValue (s : ServiceState) (clientID : String)
    (patch : List QPatchOp) : CVRSnapshot :=
  { patch.foldl (fun c p => applyQueryPatch c clientID p) s.cvr with
    version := configNewVersion s.cvr }

/-- The hashes of the got queries whose stored transformation hash equals
the identity transformation of their own hash — the set the claim about
`#hydrateUnchangedQueries` quantifies over. -/
def gotIdentityQueries (cvr : CVRSnapshot) : List String :=
  (cvr.queries.filter (fun hq => hq.2.transformationHash == some hq.1)).map (·.1)

/-- The hashes `#hydrateUnchangedQueries` actually hydrates: additionally
restricted to queries that are still desired. -/
def hydratedCallKeys (cvr : CVRSnapshot) : List String :=
  ((cvr.queries.filter (fun hq => hq.2.transformationHash.isSome)).filter
    (fun hq =>
      ¬ (hq.2.internal = false ∧ hq.2.desiredBy.length = 0) ∧
        hq.2.transformationHash = some hq.1)).map (·.1)

/-! ## Concrete example states used by witnesses and counterexamples -/

def exPipe : PipelineState :=
  ⟨true, "1a0", [], ["id", "title"], fun _ => [], []⟩

def exCvr : CVRSnapshot := ⟨"g1", ⟨"1a0", 0⟩, ["foo"], [], []⟩

def exClient : ClientState := ⟨"ws1", 7, ⟨"1a0", 0⟩⟩

def exS : ServiceState := ⟨exCvr, exCvr, exPipe, [("foo", exClient)], false⟩

/-- A CVR holding one got query with identity transformation hash that is no
longer desired by anyone. -/
def exCvrUndesired : CVRSnapshot :=
  ⟨"g1", ⟨"1a0", 0⟩, ["foo"],
   [("q1", ⟨"q1", ⟨"issues", ["id"]⟩, [], false, some "q1"⟩)], []⟩

/-- The AST of a query referencing a nonexistent column. -/
def badAST : AST := ⟨"issues", ["nonexistent"]⟩

/-- Every batch but the last is exactly full. -/
def allFullExceptLast : List RowsMap → Prop
  | [] => True
  | [_] => True
  | b :: rest => b.length = CURSOR_PAGE_SIZE ∧ allFullExceptLast rest

/-- A well-formed row change used by witnesses. -/
def exChange : RowChangeE :=
  ⟨"q1", "issues", "k1", some [("id", SqlVal.s "1"), (ZERO_VERSION_COLUMN_NAME, SqlVal.s "1a")]⟩

/-- A row change whose row lacks a valid `_0_version`. -/
def exBadChange : RowChangeE :=
  ⟨"q1", "issues", "k2", some [("id", SqlVal.s "2"), (ZERO_VERSION_COLUMN_NAME, SqlVal.s "")]⟩

/-- A pipeline holding one row of the `issues` table, for catch-up
witnesses. -/
def exPipeRows : PipelineState :=
  ⟨true, "1b", [], ["id", "title"], fun _ => [],
   [(("issues", "k1"), [("id", SqlVal.s "1")])]⟩

/-- A CVR one state version ahead of `exClient`. -/
def exCvrAhead : CVRSnapshot := ⟨"g1", ⟨"1b", 0⟩, ["foo"], [], []⟩

/-- One config patch at the new version. -/
def exCfgPatch : List (PatchEv × Version) := [(PatchEv.queryPut "q1", ⟨"1b", 0⟩)]

/-- One referenced row patch at the new version, present in `exPipeRows`. -/
def exRowRecs : List CatchupRowRecord :=
  [⟨⟨"", "issues", "k1"⟩, ⟨"1b", 0⟩, true⟩]

/-! ## Theorems: version order -/

theorem versionLt_trans {a b c : Version} (h1 : versionLt a b) (h2 : versionLt b c) :
    versionLt a c := by
  rcases h1 with h1 | ⟨h1e, h1m⟩ <;> rcases h2 with h2 | ⟨h2e, h2m⟩
  · exact Or.inl (lt_trans h1 h2)
  · exact Or.inl (h2e ▸ h1)
  · exact Or.inl (h1e ▸ h2)
  · exact Or.inr ⟨h1e.trans h2e, lt_trans h1m h2m⟩

theorem versionLt_irrefl (a : Version) : ¬ versionLt a a := by
  rintro (h | ⟨_, h⟩)
  · exact lt_irrefl _ h
  · exact lt_irrefl _ h

theorem versionLe_lt_trans {a b c : Version} (h1 : versionLe a b) (h2 : versionLt b c) :
    versionLt a c := by
  rcases h1 with h1 | h1
  · exact versionLt_trans h1 h2
  · subst h1; exact h2

theorem versionLe_trans {a b c : Version} (h1 : versionLe a b) (h2 : versionLe b c) :
    versionLe a c := by
  rcases h2 with h2 | h2
  · exact Or.inl (versionLe_lt_trans h1 h2)
  · subst h2; exact h1

theorem versionLt_le {a b : Version} (h : versionLt a b) : versionLe a b := Or.inl h

theorem versionLe_refl (a : Version) : versionLe a a := Or.inr rfl

theorem not_versionLt_of_versionLe {a b : Version} (h : versionLe b a) :
    ¬ versionLt a b := by
  intro hlt
  rcases h with h | h
  · exact versionLt_irrefl _ (versionLt_trans hlt h)
  · subst h; exact versionLt_irrefl _ hlt

theorem versionLt_nextVersion {v : Version} {sv : String}
    (h : v.stateVersion < sv ∨ v.stateVersion = sv) :
    versionLt v (nextVersion v sv) := by
  rcases h with h | h
  · have hne : ¬ sv = v.stateVersion := fun he => absurd (he ▸ h) (lt_irrefl _)
    simp only [nextVersion, if_neg hne]
    exact Or.inl h
  · simp only [nextVersion, if_pos h.symm]
    exact Or.inr ⟨rfl, Nat.lt_succ_self _⟩

theorem nextVersion_stateVersion (v : Version) (sv : String)
    (h : v.stateVersion < sv ∨ v.stateVersion = sv) :
    (nextVersion v sv).stateVersion = sv := by
  rcases h with h | h
  · have hne : ¬ sv = v.stateVersion := fun he => absurd (he ▸ h) (lt_irrefl _)
    simp [nextVersion, hne]
  · subst h
    simp [nextVersion]

theorem configNewVersion_lt (cvr : CVRSnapshot) :
    versionLt cvr.version (configNewVersion cvr) :=
  Or.inr ⟨rfl, Nat.lt_succ_self _⟩

theorem configNewVersion_stateVersion (cvr : CVRSnapshot) :
    (configNewVersion cvr).stateVersion = cvr.version.stateVersion := rfl

theorem mainChainFrom_chain {b : Version} :
    ∀ {l : List (Version × Version)}, mainChainFrom b l →
      List.Chain' (fun p q : Version × Version => versionLt p.2 q.2) l := by
  intro l
  induction l generalizing b with
  | nil => intro _; exact List.chain'_nil
  | cons p rest ih =>
    intro h
    obtain ⟨_, hlt, hrest⟩ := h
    have hchain := ih hrest
    cases rest with
    | nil => simp [List.chain'_singleton]
    | cons q rest2 =>
      refine List.Chain'.cons ?_ hchain
      obtain ⟨hle2, hlt2, _⟩ := hrest
      exact versionLe_lt_trans hle2 hlt2

/-! ## Theorems: claims C9 and C10 -/

theorem lookupC_filter_ne (cs : List (String × ClientState)) (cid : String) :
    lookupC (cs.filter (fun e => decide (e.1 ≠ cid))) cid = none := by
  induction cs with
  | nil => rfl
  | cons e rest ih =>
    by_cases he : e.1 = cid
    · simp only [List.filter, he]
      simpa using ih
    · simp only [List.filter]
      rw [show (decide (e.1 ≠ cid)) = true by simpa using he]
      simpa [lookupC, he] using ih

/-- C9: a `changeDesiredQueries` message whose wsID does not match the
registered handler (or for which no handler is registered) is silently
dropped: the result is success, no downstream event is emitted, no patch is
applied, and the service state — the CVR snapshot included — is unchanged. -/
theorem C9_stale_wsid_dropped (s : ServiceState) (cid ws : String)
    (patch : List QPatchOp) (cfOk qfOk : Bool) (cfgP : List (PatchEv × Version))
    (rowP : List CatchupRowRecord)
    (h : (lookupC s.clients cid).map ClientState.wsID ≠ some ws) :
    changeDesiredQueriesOp s cid ws patch cfOk qfOk cfgP rowP = ⟨none, [], s⟩ := by
  unfold changeDesiredQueriesOp
  cases hl : lookupC s.clients cid with
  | none => rfl
  | some c =>
    rw [hl] at h
    have hne : ¬ c.wsID = ws := by
      intro he
      exact h (by simp [he])
    simp [hne]

theorem C9_stale_wsid_dropped_witness :
    (lookupC exS.clients "foo").map ClientState.wsID ≠ some "wsOld" ∧
      changeDesiredQueriesOp exS "foo" "wsOld" [] true true [] [] = ⟨none, [], exS⟩ :=
  ⟨by decide,
   C9_stale_wsid_dropped exS "foo" "wsOld" [] true true [] [] (by decide)⟩

/-- C10: `#deleteClient` removes the entry and (on an empty map) arms the
idle timer only when the departing handler is identity-equal to the
registered one; a mismatching (for example newer) registered handler stays
and the whole state is untouched. -/
theorem C10_delete_client_identity (s : ServiceState) (cid : String) (hdl : Nat) :
    ((lookupC s.clients cid).map ClientState.handle ≠ some hdl →
      deleteClientOp s cid hdl = s) ∧
    ((lookupC s.clients cid).map ClientState.handle = some hdl →
      lookupC (deleteClientOp s cid hdl).clients cid = none ∧
      ((deleteClientOp s cid hdl).clients.isEmpty = true →
        (deleteClientOp s cid hdl).idleArmed = true) ∧
      ((deleteClientOp s cid hdl).clients.isEmpty = false →
        (deleteClientOp s cid hdl).idleArmed = s.idleArmed) ∧
      (deleteClientOp s cid hdl).cvr = s.cvr) := by
  constructor
  · intro hne
    unfold deleteClientOp
    cases hl : lookupC s.clients cid with
    | none => rfl
    | some c =>
      rw [hl] at hne
      have : ¬ c.handle = hdl := by
        intro he
        exact hne (by simp [he])
      simp [this]
  · intro heq
    cases hl : lookupC s.clients cid with
    | none => rw [hl] at heq; cases heq
    | some c =>
      rw [hl] at heq
      have hh : c.handle = hdl := by
        simpa using heq
      have hred : deleteClientOp s cid hdl =
          { s with clients := s.clients.filter (fun e => decide (e.1 ≠ cid)),
                   idleArmed :=
                     if (s.clients.filter (fun e => decide (e.1 ≠ cid))).isEmpty then true
                     else s.idleArmed } := by
        unfold deleteClientOp
        rw [hl]
        simp [hh]
      rw [hred]
      refine ⟨lookupC_filter_ne _ _, ?_, ?_, rfl⟩
      · intro hemp
        have hemp2 : (s.clients.filter (fun e => decide (e.1 ≠ cid))).isEmpty = true := hemp
        show (if (s.clients.filter (fun e => decide (e.1 ≠ cid))).isEmpty = true then true
          else s.idleArmed) = true
        rw [if_pos hemp2]
      · intro hemp
        have hemp2 : (s.clients.filter (fun e => decide (e.1 ≠ cid))).isEmpty = false := hemp
        show (if (s.clients.filter (fun e => decide (e.1 ≠ cid))).isEmpty = true then true
          else s.idleArmed) = s.idleArmed
        rw [hemp2]
        simp

/-! ## Theorems: claim C6 -/

theorem hydrateLoop_calls (l : List (String × QueryRecord)) :
    ∀ (p : PipelineState) (out : PipelineState × List String),
      hydrateLoop p l = some out →
      out.2 = (l.filter (fun hq =>
        ¬ (hq.2.internal = false ∧ hq.2.desiredBy.length = 0) ∧
          hq.2.transformationHash = some hq.1)).map (·.1) := by
  induction l with
  | nil =>
    intro p out h
    simp only [hydrateLoop] at h
    cases h
    rfl
  | cons hq rest ih =>
    intro p out h
    obtain ⟨hash, q⟩ := hq
    by_cases h1 : q.internal = false ∧ q.desiredBy.length = 0
    · simp only [hydrateLoop, if_pos h1] at h
      have := ih p out h
      simp only [List.filter]
      rw [show (decide (¬ ((hash, q).2.internal = false ∧ (hash, q).2.desiredBy.length = 0) ∧
          (hash, q).2.transformationHash = some (hash, q).1)) = false by
        simp only [decide_eq_false_iff_not]
        rintro ⟨hc, _⟩
        exact hc h1]
      exact this
    · simp only [hydrateLoop, if_neg h1] at h
      by_cases h2 : q.transformationHash ≠ some hash
      · rw [if_pos h2] at h
        have := ih p out h
        simp only [List.filter]
        rw [show (decide (¬ ((hash, q).2.internal = false ∧ (hash, q).2.desiredBy.length = 0) ∧
            (hash, q).2.transformationHash = some (hash, q).1)) = false by
          simp only [decide_eq_false_iff_not]
          rintro ⟨_, hc⟩
          exact h2 hc]
        exact this
      · rw [if_neg h2] at h
        cases hpq : pipeAddQuery p hash q.ast with
        | none => rw [hpq] at h; cases h
        | some pc =>
          rw [hpq] at h
          have h3 : Option.map (fun o : PipelineState × List String => (o.1, hash :: o.2))
              (hydrateLoop pc.1 rest) = some out := h
          cases hrest : hydrateLoop pc.1 rest with
          | none => rw [hrest] at h3; cases h3
          | some out2 =>
            rw [hrest] at h3
            simp only [Option.map_some'] at h3
            cases h3
            have := ih pc.1 out2 hrest
            simp only [List.filter]
            rw [show (decide (¬ ((hash, q).2.internal = false ∧ (hash, q).2.desiredBy.length = 0) ∧
                (hash, q).2.transformationHash = some (hash, q).1)) = true by
              simp only [decide_eq_true_eq]
              exact ⟨h1, by simpa using h2⟩]
            simp only [List.map]
            rw [this]

/-- C6 counterexample: a got query with identity transformation hash that is
no longer desired (not internal, empty `desiredBy`) is *not* re-registered
by `#hydrateUnchangedQueries`, although the state versions match — the code
skips undesired queries, which the claim as stated does not allow. -/
theorem C6_hydrate_counterexample :
    exCvrUndesired.version.stateVersion = exPipe.currentVersion ∧
    "q1" ∈ gotIdentityQueries exCvrUndesired ∧
    (hydrateUnchangedQueries exCvrUndesired exPipe).map Prod.snd = some [] :=
  ⟨rfl, by decide, rfl⟩

/-- C6 (amended): when the CVR state version equals the pipeline's current
version, `#hydrateUnchangedQueries` calls `addQuery` exactly for the got
queries that are *still desired* (internal or with non-empty `desiredBy`)
and whose stored transformation hash equals their identity hash, discarding
the yielded changes; the CVR snapshot, the stored CVR and the client map are
untouched; when the versions differ, nothing is done. -/
theorem C6_hydrate_unchanged_amended (s : ServiceState) :
    (s.cvr.version.stateVersion ≠ s.pipeline.currentVersion →
      hydrateUnchangedQueries s.cvr s.pipeline = some (s.pipeline, [])) ∧
    (s.cvr.version.stateVersion = s.pipeline.currentVersion →
      ∀ out, hydrateUnchangedQueries s.cvr s.pipeline = some out →
        out.2 = hydratedCallKeys s.cvr) ∧
    (∀ s2, hydrateStep s = some s2 →
      s2.cvr = s.cvr ∧ s2.stored = s.stored ∧ s2.clients = s.clients) := by
  refine ⟨?_, ?_, ?_⟩
  · intro hne
    simp [hydrateUnchangedQueries, hne]
  · intro heq out h
    simp only [hydrateUnchangedQueries, if_neg (not_not_intro heq)] at h
    exact hydrateLoop_calls _ _ _ h
  · intro s2 h
    simp only [hydrateStep] at h
    cases hh : hydrateUnchangedQueries s.cvr s.pipeline with
    | none => rw [hh] at h; cases h
    | some out =>
      rw [hh] at h
      cases h
      exact ⟨rfl, rfl, rfl⟩

theorem C6_hydrate_unchanged_amended_witness :
    exCvrUndesired.version.stateVersion = exPipe.currentVersion ∧
    (hydrateUnchangedQueries exCvrUndesired exPipe).map Prod.snd =
      some (hydratedCallKeys exCvrUndesired) := by
  have hcomp : hydrateUnchangedQueries exCvrUndesired exPipe = some (exPipe, []) := rfl
  have h2 := (C6_hydrate_unchanged_amended
    ⟨exCvrUndesired, exCvrUndesired, exPipe, [], false⟩).2.1 rfl (exPipe, []) hcomp
  refine ⟨rfl, ?_⟩
  rw [hcomp]
  simp only [Option.map_some']
  exact congrArg some h2

/-! ## Theorems: claim C8 -/

/-- C8 evidence: a `changeDesiredQueries` putting a query whose AST
references a nonexistent column fails with `BadQuery` (surfaced to the
caller), but the stored CVR *does* contain the bad query, desired by the
offending client: `#patchQueries` flushes the config-driven update before
`#syncQueryPipelineSet` reaches the pipeline's validation, contradicting the
claim and the repository's own test. -/
theorem C8_badquery_leaves_cvr_mutated :
    (changeDesiredQueriesOp exS "foo" "ws1" [QPatchOp.put "bad" badAST]
        true true [] []).res = some Err.badQuery ∧
    lookupQ (changeDesiredQueriesOp exS "foo" "ws1" [QPatchOp.put "bad" badAST]
        true true [] []).state.stored.queries "bad" =
      some ⟨"bad", badAST, [("foo", ⟨"1a0", 1⟩)], false, none⟩ ∧
    lookupQ (changeDesiredQueriesOp exS "foo" "ws1" [QPatchOp.put "bad" badAST]
        true true [] []).state.cvr.queries "bad" =
      some ⟨"bad", badAST, [("foo", ⟨"1a0", 1⟩)], false, none⟩ :=
  ⟨by decide, by decide, by decide⟩

/-! ## Theorems: claim C3 -/

theorem lookupQ_some_mem {qs : List (String × QueryRecord)} {h : String}
    {q : QueryRecord} (hl : lookupQ qs h = some q) : h ∈ qs.map Prod.fst := by
  induction qs with
  | nil => cases hl
  | cons e rest ih =>
    simp only [lookupQ] at hl
    by_cases he : e.1 = h
    · simp [he]
    · rw [if_neg he] at hl
      simp [ih hl]

theorem lookupQ_none_not_mem {qs : List (String × QueryRecord)} {h : String}
    (hl : lookupQ qs h = none) : h ∉ qs.map Prod.fst := by
  induction qs with
  | nil => simp
  | cons e rest ih =>
    simp only [lookupQ] at hl
    by_cases he : e.1 = h
    · rw [if_pos he] at hl; cases hl
    · rw [if_neg he] at hl
      simp only [List.map, List.mem_cons]
      rintro (hc | hc)
      · exact he hc.symm
      · exact ih hl hc

theorem isDesired_iff (q : QueryRecord) :
    q.isDesired = true ↔ (q.internal = true ∨ q.desiredBy ≠ []) := by
  simp only [QueryRecord.isDesired, Bool.or_eq_true, decide_eq_true_eq]
  constructor
  · rintro (hp | hp)
    · exact Or.inl hp
    · refine Or.inr (fun he => ?_)
      rw [he] at hp
      simp at hp
  · rintro (hp | hp)
    · exact Or.inl hp
    · refine Or.inr ?_
      cases hq : q.desiredBy with
      | nil => exact absurd hq hp
      | cons a l => simp [hq]

theorem mem_desiredQueryKeys (cvr : CVRSnapshot) (h : String) :
    h ∈ desiredQueryKeys cvr ↔ SpecDesired cvr h := by
  unfold desiredQueryKeys
  simp only [List.mem_filter]
  cases hl : lookupQ cvr.queries h with
  | none =>
    constructor
    · rintro ⟨_, hp⟩
      simp at hp
    · rintro ⟨q, hq, _⟩
      rw [hl] at hq
      cases hq
  | some q =>
    constructor
    · rintro ⟨_, hp⟩
      exact ⟨q, hl, (isDesired_iff q).mp hp⟩
    · rintro ⟨q2, hq2, hd⟩
      rw [hl] at hq2
      cases hq2
      exact ⟨lookupQ_some_mem hl, (isDesired_iff q).mpr hd⟩

theorem sync_events_state (s : ServiceState) (flushOk : Bool)
    (cfgP : List (PatchEv × Version)) (rowP : List CatchupRowRecord) :
    (syncQueryPipelineSetOp s flushOk cfgP rowP).events =
        (syncBranchOp s flushOk cfgP rowP).events ∧
      (syncQueryPipelineSetOp s flushOk cfgP rowP).state =
        (syncBranchOp s flushOk cfgP rowP).state := by
  unfold syncQueryPipelineSetOp
  cases hr : (syncBranchOp s flushOk cfgP rowP).res with
  | some e => exact ⟨rfl, rfl⟩
  | none =>
    constructor
    · split
      · rfl
      · split <;> rfl
    · split
      · rfl
      · split <;> rfl

theorem sync_post (s : ServiceState) (flushOk : Bool)
    (cfgP : List (PatchEv × Version)) (rowP : List CatchupRowRecord) :
    (syncQueryPipelineSetOp s flushOk cfgP rowP).res = none →
      (syncQueryPipelineSetOp s flushOk cfgP rowP).state.cvr.version.stateVersion =
        (syncQueryPipelineSetOp s flushOk cfgP rowP).state.pipeline.currentVersion := by
  intro hok
  unfold syncQueryPipelineSetOp at hok ⊢
  cases hr : (syncBranchOp s flushOk cfgP rowP).res with
  | some e =>
    simp only [hr] at hok
    cases hok
  | none =>
    simp only [hr] at hok ⊢
    by_cases hc : (syncBranchOp s flushOk cfgP rowP).state.cvr.version.stateVersion =
        (syncBranchOp s flushOk cfgP rowP).state.pipeline.currentVersion
    · rw [if_pos hc]
      exact hc
    · rw [if_neg hc] at hok
      cases hok

/-- C3: `#syncQueryPipelineSet` computes `toAdd` as the desired queries
(internal or with non-empty `desiredBy`) minus the pipeline's hydrated set,
and `toRemove` as all CVR queries minus the desired ones; it runs
`#addAndRemoveQueries` exactly when one of the two is non-empty and
`#catchupClients` otherwise; and whenever it completes without error the CVR
state version equals the pipeline's current version. -/
theorem C3_sync_query_pipeline_set (s : ServiceState) (flushOk : Bool)
    (cfgP : List (PatchEv × Version)) (rowP : List CatchupRowRecord) :
    (∀ h, h ∈ computeAddQueries s.cvr s.pipeline ↔
        (SpecDesired s.cvr h ∧ h ∉ s.pipeline.addedQueries)) ∧
    (∀ h, h ∈ computeRemoveQueries s.cvr s.pipeline ↔
        (h ∈ allQueryKeys s.cvr ∧ ¬ SpecDesired s.cvr h)) ∧
    ((computeAddQueries s.cvr s.pipeline ≠ [] ∨
        computeRemoveQueries s.cvr s.pipeline ≠ []) →
      (syncQueryPipelineSetOp s flushOk cfgP rowP).events =
          (addAndRemoveQueriesOp s (computeAddQueries s.cvr s.pipeline)
            (computeRemoveQueries s.cvr s.pipeline) flushOk cfgP rowP).events ∧
        (syncQueryPipelineSetOp s flushOk cfgP rowP).state =
          (addAndRemoveQueriesOp s (computeAddQueries s.cvr s.pipeline)
            (computeRemoveQueries s.cvr s.pipeline) flushOk cfgP rowP).state) ∧
    (computeAddQueries s.cvr s.pipeline = [] →
      computeRemoveQueries s.cvr s.pipeline = [] →
      (syncQueryPipelineSetOp s flushOk cfgP rowP).events =
          (catchupStandaloneOp s cfgP rowP).events ∧
        (syncQueryPipelineSetOp s flushOk cfgP rowP).state.cvr = s.cvr) ∧
    ((syncQueryPipelineSetOp s flushOk cfgP rowP).res = none →
      (syncQueryPipelineSetOp s flushOk cfgP rowP).state.cvr.version.stateVersion =
        (syncQueryPipelineSetOp s flushOk cfgP rowP).state.pipeline.currentVersion) := by
  refine ⟨?_, ?_, ?_, ?_, ?_⟩
  · intro h
    unfold computeAddQueries
    rw [List.mem_filter, mem_desiredQueryKeys]
    simp [List.elem_iff]
  · intro h
    unfold computeRemoveQueries
    rw [List.mem_filter]
    simp only [decide_eq_true_eq, allQueryKeys]
    constructor
    · rintro ⟨hm, hnd⟩
      exact ⟨hm, fun hd => hnd (by
        rw [List.elem_iff]
        exact (mem_desiredQueryKeys _ _).mpr hd)⟩
    · rintro ⟨hm, hnd⟩
      refine ⟨hm, fun hc => hnd ?_⟩
      rw [List.elem_iff] at hc
      exact (mem_desiredQueryKeys _ _).mp hc
  · intro hne
    have hcond : (computeAddQueries s.cvr s.pipeline).length > 0 ∨
        (computeRemoveQueries s.cvr s.pipeline).length > 0 := by
      rcases hne with hne | hne
      · exact Or.inl (List.length_pos.mpr hne)
      · exact Or.inr (List.length_pos.mpr hne)
    have hbr : syncBranchOp s flushOk cfgP rowP =
        addAndRemoveQueriesOp s (computeAddQueries s.cvr s.pipeline)
          (computeRemoveQueries s.cvr s.pipeline) flushOk cfgP rowP := by
      unfold syncBranchOp
      rw [if_pos hcond]
    rw [← hbr]
    exact ⟨(sync_events_state s flushOk cfgP rowP).1,
           (sync_events_state s flushOk cfgP rowP).2⟩
  · intro ha hr
    have hbr : syncBranchOp s flushOk cfgP rowP = catchupStandaloneOp s cfgP rowP := by
      unfold syncBranchOp
      rw [ha, hr]
      simp
    refine ⟨?_, ?_⟩
    · rw [(sync_events_state s flushOk cfgP rowP).1, hbr]
    · rw [(sync_events_state s flushOk cfgP rowP).2, hbr]
      rfl
  · exact sync_post s flushOk cfgP rowP

theorem C3_sync_query_pipeline_set_witness :
    computeAddQueries exS.cvr exS.pipeline = [] ∧
    computeRemoveQueries exS.cvr exS.pipeline = [] ∧
    (syncQueryPipelineSetOp exS true [] []).events =
      (catchupStandaloneOp exS [] []).events ∧
    (syncQueryPipelineSetOp exS true [] []).state.cvr = exS.cvr := by
  have h := (C3_sync_query_pipeline_set exS true [] []).2.2.2.1 (by decide) (by decide)
  exact ⟨by decide, by decide, h.1, h.2⟩

/-! ## Theorems: claim C2 -/

theorem noPokeEnds_nil : noPokeEnds [] := by
  intro e he
  cases he

theorem noPokeEnds_append {a b : List Event} (ha : noPokeEnds a)
    (hb : noPokeEnds b) : noPokeEnds (a ++ b) := by
  intro e he
  rcases List.mem_append.mp he with h | h
  · exact ha e h
  · exact hb e h

theorem noPokeEnds_startPokeEvents (t : PokeTag)
    (cl : List (String × ClientState)) (v : Version) :
    noPokeEnds (startPokeEvents t cl v) := by
  intro e he
  obtain ⟨x, _, hx⟩ := List.mem_map.mp he
  rw [← hx]
  rfl

theorem noPokeEnds_addPatchEvents (pk : List Poker) (p : PatchEv) (v : Version) :
    noPokeEnds (addPatchEvents pk p v) := by
  intro e he
  obtain ⟨x, _, hx⟩ := List.mem_filterMap.mp he
  by_cases hc : versionLt x.base v
  · rw [if_pos hc] at hx
    cases hx
    rfl
  · rw [if_neg hc] at hx
    cases hx

theorem noPokeEnds_flatMapPatch (l : List PatchEv) (pk : List Poker) (v : Version) :
    noPokeEnds (l.flatMap (fun p => addPatchEvents pk p v)) := by
  induction l with
  | nil => exact noPokeEnds_nil
  | cons p rest ih =>
    simp only [List.flatMap_cons]
    exact noPokeEnds_append (noPokeEnds_addPatchEvents _ _ _) ih

theorem noPokeEnds_flatMapPV (l : List (PatchEv × Version)) (pk : List Poker) :
    noPokeEnds (l.flatMap (fun pv => addPatchEvents pk pv.1 pv.2)) := by
  induction l with
  | nil => exact noPokeEnds_nil
  | cons p rest ih =>
    simp only [List.flatMap_cons]
    exact noPokeEnds_append (noPokeEnds_addPatchEvents _ _ _) ih

theorem noPokeEnds_feedBatches (pk : List Poker) :
    ∀ (bs : List RowsMap) (u : QueryUpdater), noPokeEnds (feedBatches pk u bs).2 := by
  intro bs
  induction bs with
  | nil => intro u; exact noPokeEnds_nil
  | cons b rest ih =>
    intro u
    simp only [feedBatches]
    exact noPokeEnds_append (noPokeEnds_flatMapPatch _ _ _) (ih _)

theorem noPokeEnds_processChangesB (changes : List RowChangeE) (u : QueryUpdater)
    (pk : List Poker) : noPokeEnds (processChangesB changes u pk).2.2 := by
  unfold processChangesB
  exact noPokeEnds_feedBatches _ _ _

theorem noPokeEnds_catchupRowLoop (pk : List Poker) (pipe : PipelineState) :
    ∀ rs : List CatchupRowRecord, noPokeEnds (catchupRowLoop pk pipe rs).2 := by
  intro rs
  induction rs with
  | nil => exact noPokeEnds_nil
  | cons r rest ih =>
    simp only [catchupRowLoop]
    by_cases hrc : r.hasRefCounts
    · rw [if_pos hrc]
      cases hg : pipeGetRow pipe r.id.table r.id.rowKey with
      | none => exact noPokeEnds_nil
      | some contents =>
        exact noPokeEnds_append (noPokeEnds_addPatchEvents _ _ _) ih
    · rw [if_neg hrc]
      exact noPokeEnds_append (noPokeEnds_addPatchEvents _ _ _) ih

theorem noPokeEnds_addLoop (pk : List Poker) (cvr : CVRSnapshot) :
    ∀ (l : List String) (p : PipelineState) (u : QueryUpdater),
      noPokeEnds (addLoop pk cvr p u l).2.2.2 := by
  intro l
  induction l with
  | nil => intro p u; exact noPokeEnds_nil
  | cons h rest ih =>
    intro p u
    cases hq : lookupQ cvr.queries h with
    | none =>
      simp only [addLoop, hq]
      exact noPokeEnds_nil
    | some q =>
      cases hpq : pipeAddQuery p h q.ast with
      | none =>
        simp only [addLoop, hq, hpq]
        exact noPokeEnds_nil
      | some pc0 =>
        cases hpc : (processChangesB pc0.2 u pk).1 with
        | some e =>
          simp only [addLoop, hq, hpq, hpc]
          exact noPokeEnds_processChangesB _ _ _
        | none =>
          simp only [addLoop, hq, hpq, hpc]
          exact noPokeEnds_append (noPokeEnds_processChangesB _ _ _) (ih _ _)

theorem noPokeEnds_catchup_usePokers (cl : List (String × ClientState))
    (pipe : PipelineState) (cvr : CVRSnapshot) (ex : List String)
    (pk : List Poker) (cfg : List (PatchEv × Version))
    (rows : List CatchupRowRecord) :
    noPokeEnds (catchupClients cl pipe cvr ex (some pk) cfg rows).2.1 := by
  unfold catchupClients
  cases hr : (catchupRowLoop pk pipe rows).1 with
  | some e =>
    simp only [hr, Option.getD_some, Option.isSome_some, if_true]
    exact noPokeEnds_append
      (noPokeEnds_append noPokeEnds_nil (noPokeEnds_flatMapPV _ _))
      (noPokeEnds_catchupRowLoop _ _ _)
  | none =>
    simp only [hr, Option.getD_some, Option.isSome_some, if_true]
    exact noPokeEnds_append
      (noPokeEnds_append noPokeEnds_nil (noPokeEnds_flatMapPV _ _))
      (noPokeEnds_catchupRowLoop _ _ _)

theorem processChangesB_res (changes : List RowChangeE) (u : QueryUpdater)
    (pk : List Poker) :
    (processChangesB changes u pk).1 = none ∨
      (processChangesB changes u pk).1 = some Err.internal := by
  unfold processChangesB
  cases (processChanges changes).2 <;> simp

theorem addLoop_no_flushFailed (pk : List Poker) (cvr : CVRSnapshot) :
    ∀ (l : List String) (p : PipelineState) (u : QueryUpdater),
      (addLoop pk cvr p u l).1 ≠ some Err.flushFailed := by
  intro l
  induction l with
  | nil => intro p u h; cases h
  | cons h rest ih =>
    intro p u
    cases hq : lookupQ cvr.queries h with
    | none => simp [addLoop, hq]
    | some q =>
      cases hpq : pipeAddQuery p h q.ast with
      | none => simp [addLoop, hq, hpq]
      | some pc0 =>
        cases hpc : (processChangesB pc0.2 u pk).1 with
        | some e =>
          simp only [addLoop, hq, hpq, hpc]
          intro hcon
          rcases processChangesB_res pc0.2 u pk with hr | hr
          · rw [hpc] at hr; cases hr
          · rw [hpc] at hr
            injection hr with hr2
            injection hcon with hcon2
            rw [hr2] at hcon2
            cases hcon2
        | none =>
          simp only [addLoop, hq, hpq, hpc]
          exact ih _ _

theorem catchupRowLoop_res (pk : List Poker) (pipe : PipelineState) :
    ∀ rs : List CatchupRowRecord,
      (catchupRowLoop pk pipe rs).1 = none ∨
        (catchupRowLoop pk pipe rs).1 = some Err.internal := by
  intro rs
  induction rs with
  | nil => exact Or.inl rfl
  | cons r rest ih =>
    simp only [catchupRowLoop]
    by_cases hrc : r.hasRefCounts
    · rw [if_pos hrc]
      cases hg : pipeGetRow pipe r.id.table r.id.rowKey with
      | none => exact Or.inr rfl
      | some contents => exact ih
    · rw [if_neg hrc]
      exact ih

theorem catchupClients_res (cl : List (String × ClientState))
    (pipe : PipelineState) (cvr : CVRSnapshot) (ex : List String)
    (up : Option (List Poker)) (cfg : List (PatchEv × Version))
    (rows : List CatchupRowRecord) :
    (catchupClients cl pipe cvr ex up cfg rows).1 = none ∨
      (catchupClients cl pipe cvr ex up cfg rows).1 = some Err.internal := by
  cases up with
  | none =>
    rcases catchupRowLoop_res (startPokers cl cvr.version) pipe rows with h | h
    · simp [catchupClients, h]
    · simp [catchupClients, h]
  | some pk =>
    rcases catchupRowLoop_res pk pipe rows with h | h
    · simp [catchupClients, h]
    · simp [catchupClients, h]

theorem catchupStandalone_res (s : ServiceState) (cfgP : List (PatchEv × Version))
    (rowP : List CatchupRowRecord) :
    (catchupStandaloneOp s cfgP rowP).res = none ∨
      (catchupStandaloneOp s cfgP rowP).res = some Err.internal := by
  unfold catchupStandaloneOp
  exact catchupClients_res _ _ _ _ _ _ _

theorem advance_flush_characterization (nv : String) (changes : List RowChangeE)
    (fo : Bool) (s : ServiceState) :
    ((advancePipelinesOp nv changes fo s).res = some Err.flushFailed →
      (advancePipelinesOp nv changes fo s).state.cvr = s.cvr ∧
      (advancePipelinesOp nv changes fo s).state.stored = s.stored ∧
      noPokeEnds (advancePipelinesOp nv changes fo s).events) ∧
    ((advancePipelinesOp nv changes fo s).res = none →
      (advancePipelinesOp nv changes fo s).state.cvr =
        (advancePipelinesOp nv changes fo s).state.stored) := by
  cases hpc : (processChangesB changes (mkQueryUpdater s.cvr nv)
      (startPokers s.clients (mkQueryUpdater s.cvr nv).newVersion)).1 with
  | some e =>
    constructor
    · intro hres
      simp only [advancePipelinesOp, hpc] at hres
      injection hres with h2
      subst h2
      rcases processChangesB_res changes (mkQueryUpdater s.cvr nv)
          (startPokers s.clients (mkQueryUpdater s.cvr nv).newVersion) with h | h
      · rw [hpc] at h; cases h
      · rw [hpc] at h
        injection h with h3
        cases h3
    · intro hres
      simp only [advancePipelinesOp, hpc] at hres
      cases hres
  | none =>
    cases fo with
    | false =>
      constructor
      · intro _
        refine ⟨?_, ?_, ?_⟩
        · simp only [advancePipelinesOp, hpc, queryFlush]
          rfl
        · simp only [advancePipelinesOp, hpc, queryFlush]
          rfl
        · simp only [advancePipelinesOp, hpc, queryFlush]
          exact noPokeEnds_append (noPokeEnds_startPokeEvents _ _ _)
            (noPokeEnds_processChangesB _ _ _)
      · intro hres
        simp only [advancePipelinesOp, hpc, queryFlush] at hres
        cases hres
    | true =>
      constructor
      · intro hres
        simp only [advancePipelinesOp, hpc, queryFlush] at hres
        cases hres
      · intro _
        simp only [advancePipelinesOp, hpc, queryFlush]
        rfl

theorem addRemove_flush_characterization (s : ServiceState) (addQ remQ : List String)
    (fo : Bool) (cfgP : List (PatchEv × Version)) (rowP : List CatchupRowRecord) :
    ((addAndRemoveQueriesOp s addQ remQ fo cfgP rowP).res = some Err.flushFailed →
      (addAndRemoveQueriesOp s addQ remQ fo cfgP rowP).state.cvr = s.cvr ∧
      (addAndRemoveQueriesOp s addQ remQ fo cfgP rowP).state.stored = s.stored ∧
      noPokeEnds (addAndRemoveQueriesOp s addQ remQ fo cfgP rowP).events) ∧
    ((addAndRemoveQueriesOp s addQ remQ fo cfgP rowP).res = none →
      (addAndRemoveQueriesOp s addQ remQ fo cfgP rowP).state.cvr =
        (addAndRemoveQueriesOp s addQ remQ fo cfgP rowP).state.stored) := by
  cases hal : (arqAddLoop s addQ remQ).1 with
  | some e =>
    constructor
    · intro hres
      simp only [addAndRemoveQueriesOp, hal] at hres
      injection hres with h2
      subst h2
      exact absurd hal (addLoop_no_flushFailed _ _ _ _ _)
    · intro hres
      simp only [addAndRemoveQueriesOp, hal] at hres
      cases hres
  | none =>
    cases fo with
    | false =>
      constructor
      · intro _
        refine ⟨?_, ?_, ?_⟩
        · simp only [addAndRemoveQueriesOp, hal, queryFlush]
          rfl
        · simp only [addAndRemoveQueriesOp, hal, queryFlush]
          rfl
        · simp only [addAndRemoveQueriesOp, hal, queryFlush]
          refine noPokeEnds_append (noPokeEnds_append (noPokeEnds_append ?_ ?_) ?_) ?_
          · exact noPokeEnds_startPokeEvents _ _ _
          · exact noPokeEnds_flatMapPatch _ _ _
          · exact noPokeEnds_addLoop _ _ _ _ _
          · exact noPokeEnds_flatMapPatch _ _ _
      · intro hres
        simp only [addAndRemoveQueriesOp, hal, queryFlush] at hres
        cases hres
    | true =>
      cases hcu : (catchupClients s.clients (arqAddLoop s addQ remQ).2.1 s.cvr addQ
          (some (arqPokers s addQ remQ)) cfgP rowP).1 with
      | some e =>
        constructor
        · intro hres
          simp only [addAndRemoveQueriesOp, hal, queryFlush, hcu] at hres
          injection hres with h2
          subst h2
          rcases catchupClients_res s.clients (arqAddLoop s addQ remQ).2.1 s.cvr addQ
              (some (arqPokers s addQ remQ)) cfgP rowP with h | h
          · rw [hcu] at h; cases h
          · rw [hcu] at h
            injection h with h3
            cases h3
        · intro hres
          simp only [addAndRemoveQueriesOp, hal, queryFlush, hcu] at hres
          cases hres
      | none =>
        constructor
        · intro hres
          simp only [addAndRemoveQueriesOp, hal, queryFlush, hcu] at hres
          cases hres
        · intro _
          simp only [addAndRemoveQueriesOp, hal, queryFlush, hcu]
          rfl

theorem sync_res_cases (s : ServiceState) (fo : Bool)
    (cfgP : List (PatchEv × Version)) (rowP : List CatchupRowRecord) :
    ((syncQueryPipelineSetOp s fo cfgP rowP).res = (syncBranchOp s fo cfgP rowP).res ∧
      ((syncQueryPipelineSetOp s fo cfgP rowP).res = none →
        (syncBranchOp s fo cfgP rowP).res = none)) ∨
    ((syncQueryPipelineSetOp s fo cfgP rowP).res = some Err.assertFailed ∧
      (syncBranchOp s fo cfgP rowP).res = none) := by
  unfold syncQueryPipelineSetOp
  cases hr : (syncBranchOp s fo cfgP rowP).res with
  | some e => exact Or.inl ⟨hr, fun hc => hr.symm.trans hc⟩
  | none =>
    by_cases hc2 : (syncBranchOp s fo cfgP rowP).state.cvr.version.stateVersion =
        (syncBranchOp s fo cfgP rowP).state.pipeline.currentVersion
    · rw [if_pos hc2]
      exact Or.inl ⟨hr, fun _ => rfl⟩
    · rw [if_neg hc2]
      exact Or.inr ⟨rfl, rfl⟩

theorem sync_flush_characterization (s : ServiceState) (fo : Bool)
    (cfgP : List (PatchEv × Version)) (rowP : List CatchupRowRecord)
    (hcs : s.stored = s.cvr) :
    ((syncQueryPipelineSetOp s fo cfgP rowP).res = some Err.flushFailed →
      (syncQueryPipelineSetOp s fo cfgP rowP).state.cvr = s.cvr ∧
      (syncQueryPipelineSetOp s fo cfgP rowP).state.stored = s.stored ∧
      noPokeEnds (syncQueryPipelineSetOp s fo cfgP rowP).events) ∧
    ((syncQueryPipelineSetOp s fo cfgP rowP).res = none →
      (syncQueryPipelineSetOp s fo cfgP rowP).state.cvr =
        (syncQueryPipelineSetOp s fo cfgP rowP).state.stored) := by
  have hev := (sync_events_state s fo cfgP rowP).1
  have hst := (sync_events_state s fo cfgP rowP).2
  constructor
  · intro hres
    have hbr : (syncBranchOp s fo cfgP rowP).res = some Err.flushFailed := by
      rcases sync_res_cases s fo cfgP rowP with ⟨h1, _⟩ | ⟨h1, _⟩
      · rw [← h1]; exact hres
      · rw [h1] at hres
        injection hres with h2
        cases h2
    rw [hev, hst]
    unfold syncBranchOp at hbr ⊢
    by_cases hcond : (computeAddQueries s.cvr s.pipeline).length > 0 ∨
        (computeRemoveQueries s.cvr s.pipeline).length > 0
    · rw [if_pos hcond] at hbr ⊢
      exact (addRemove_flush_characterization s _ _ fo cfgP rowP).1 hbr
    · rw [if_neg hcond] at hbr
      rcases catchupStandalone_res s cfgP rowP with h | h
      · rw [hbr] at h; cases h
      · rw [hbr] at h
        injection h with h2
        cases h2
  · intro hres
    have hbr : (syncBranchOp s fo cfgP rowP).res = none := by
      rcases sync_res_cases s fo cfgP rowP with ⟨_, h2⟩ | ⟨h1, _⟩
      · exact h2 hres
      · rw [h1] at hres; cases hres
    rw [hst]
    unfold syncBranchOp at hbr ⊢
    by_cases hcond : (computeAddQueries s.cvr s.pipeline).length > 0 ∨
        (computeRemoveQueries s.cvr s.pipeline).length > 0
    · rw [if_pos hcond] at hbr ⊢
      exact (addRemove_flush_characterization s _ _ fo cfgP rowP).2 hbr
    · rw [if_neg hcond]
      show (catchupStandaloneOp s cfgP rowP).state.cvr =
        (catchupStandaloneOp s cfgP rowP).state.stored
      show s.cvr = s.stored
      exact hcs.symm

theorem patch_flush_characterization (s : ServiceState) (clientID : String)
    (patch : List QPatchOp) (cf qf : Bool) (cfgP : List (PatchEv × Version))
    (rowP : List CatchupRowRecord) (hcs : s.stored = s.cvr) :
    ((patchQueriesOp s clientID patch cf qf cfgP rowP).res = some Err.flushFailed →
      (patchQueriesOp s clientID patch cf qf cfgP rowP).state.cvr =
        (patchQueriesOp s clientID patch cf qf cfgP rowP).state.stored ∧
      ((patchQueriesOp s clientID patch cf qf cfgP rowP).state.cvr = s.cvr ∨
        (patchQueriesOp s clientID patch cf qf cfgP rowP).state.cvr =
          configFlushValue s clientID patch) ∧
      noPokeEnds (patchQueriesOp s clientID patch cf qf cfgP rowP).events) ∧
    ((patchQueriesOp s clientID patch cf qf cfgP rowP).res = none →
      (patchQueriesOp s clientID patch cf qf cfgP rowP).state.cvr =
        (patchQueriesOp s clientID patch cf qf cfgP rowP).state.stored) := by
  by_cases hemp : patch.isEmpty = true
  · by_cases hinit : s.pipeline.isInitialized = true
    · have hred : patchQueriesOp s clientID patch cf qf cfgP rowP =
          syncQueryPipelineSetOp s qf cfgP rowP := by
        unfold patchQueriesOp
        rw [if_pos hemp]
        show (if s.pipeline.isInitialized = true then
            syncQueryPipelineSetOp s qf cfgP rowP else ⟨none, [], s⟩) = _
        rw [if_pos hinit]
      rw [hred]
      have hh := sync_flush_characterization s qf cfgP rowP hcs
      refine ⟨fun hres => ?_, hh.2⟩
      obtain ⟨h1, h2, h3⟩ := hh.1 hres
      have hstored : (syncQueryPipelineSetOp s qf cfgP rowP).state.stored = s.cvr := by
        rw [h2, hcs]
      exact ⟨by rw [h1, hstored], Or.inl h1, h3⟩
    · have hred : patchQueriesOp s clientID patch cf qf cfgP rowP =
          ⟨none, [], s⟩ := by
        unfold patchQueriesOp
        rw [if_pos hemp]
        show (if s.pipeline.isInitialized = true then
            syncQueryPipelineSetOp s qf cfgP rowP else ⟨none, [], s⟩) = _
        rw [if_neg hinit]
      rw [hred]
      constructor
      · intro hres
        cases hres
      · intro _
        exact hcs.symm
  · cases cf with
    | false =>
      have hred : patchQueriesOp s clientID patch false qf cfgP rowP =
          ⟨some Err.flushFailed, [], s⟩ := by
        unfold patchQueriesOp
        rw [if_neg hemp]
        rfl
      rw [hred]
      exact ⟨fun _ => ⟨hcs.symm, Or.inl rfl, noPokeEnds_nil⟩, fun hres => by cases hres⟩
    | true =>
      by_cases hinit : s.pipeline.isInitialized = true
      · have hred : patchQueriesOp s clientID patch true qf cfgP rowP =
            syncQueryPipelineSetOp
              { s with cvr := configFlushValue s clientID patch,
                       stored := configFlushValue s clientID patch } qf cfgP rowP := by
          unfold patchQueriesOp
          rw [if_neg hemp]
          show (if s.pipeline.isInitialized = true then
              syncQueryPipelineSetOp
                { s with cvr := configFlushValue s clientID patch,
                         stored := configFlushValue s clientID patch } qf cfgP rowP
            else ⟨none, [],
              { s with cvr := configFlushValue s clientID patch,
                       stored := configFlushValue s clientID patch }⟩) = _
          rw [if_pos hinit]
        rw [hred]
        have hh := sync_flush_characterization
          { s with cvr := configFlushValue s clientID patch,
                   stored := configFlushValue s clientID patch } qf cfgP rowP rfl
        refine ⟨fun hres => ?_, hh.2⟩
        obtain ⟨h1, h2, h3⟩ := hh.1 hres
        refine ⟨by rw [h1, h2], Or.inr h1, h3⟩
      · have hred : patchQueriesOp s clientID patch true qf cfgP rowP =
            ⟨none, [],
              { s with cvr := configFlushValue s clientID patch,
                       stored := configFlushValue s clientID patch }⟩ := by
          unfold patchQueriesOp
          rw [if_neg hemp]
          show (if s.pipeline.isInitialized = true then
              syncQueryPipelineSetOp
                { s with cvr := configFlushValue s clientID patch,
                         stored := configFlushValue s clientID patch } qf cfgP rowP
            else ⟨none, [],
              { s with cvr := configFlushValue s clientID patch,
                       stored := configFlushValue s clientID patch }⟩) = _
          rw [if_neg hinit]
        rw [hred]
        constructor
        · intro hres
          cases hres
        · intro _
          rfl

/-- C2: in each CVR-mutating operation — `#advancePipelines`,
`#addAndRemoveQueries`, `#patchQueries` — the `#cvr` snapshot pointer is
advanced only to the snapshot returned by a successful updater flush: when
the flush fails, the pointer still holds the pre-flush snapshot (the last
successfully flushed one — the original CVR, or for `#patchQueries` possibly
the config-driven flush result) and no `pokeEnd` is sent to any client; on
success the pointer equals the durably stored snapshot. -/
theorem C2_cvr_pointer_only_flush (s : ServiceState) (hcs : s.stored = s.cvr) :
    (∀ (nv : String) (changes : List RowChangeE) (fo : Bool),
      ((advancePipelinesOp nv changes fo s).res = some Err.flushFailed →
        (advancePipelinesOp nv changes fo s).state.cvr = s.cvr ∧
        (advancePipelinesOp nv changes fo s).state.stored = s.stored ∧
        noPokeEnds (advancePipelinesOp nv changes fo s).events) ∧
      ((advancePipelinesOp nv changes fo s).res = none →
        (advancePipelinesOp nv changes fo s).state.cvr =
          (advancePipelinesOp nv changes fo s).state.stored)) ∧
    (∀ (addQ remQ : List String) (fo : Bool) (cfgP : List (PatchEv × Version))
        (rowP : List CatchupRowRecord),
      ((addAndRemoveQueriesOp s addQ remQ fo cfgP rowP).res = some Err.flushFailed →
        (addAndRemoveQueriesOp s addQ remQ fo cfgP rowP).state.cvr = s.cvr ∧
        (addAndRemoveQueriesOp s addQ remQ fo cfgP rowP).state.stored = s.stored ∧
        noPokeEnds (addAndRemoveQueriesOp s addQ remQ fo cfgP rowP).events) ∧
      ((addAndRemoveQueriesOp s addQ remQ fo cfgP rowP).res = none →
        (addAndRemoveQueriesOp s addQ remQ fo cfgP rowP).state.cvr =
          (addAndRemoveQueriesOp s addQ remQ fo cfgP rowP).state.stored)) ∧
    (∀ (clientID : String) (patch : List QPatchOp) (cf qf : Bool)
        (cfgP : List (PatchEv × Version)) (rowP : List CatchupRowRecord),
      ((patchQueriesOp s clientID patch cf qf cfgP rowP).res = some Err.flushFailed →
        (patchQueriesOp s clientID patch cf qf cfgP rowP).state.cvr =
          (patchQueriesOp s clientID patch cf qf cfgP rowP).state.stored ∧
        ((patchQueriesOp s clientID patch cf qf cfgP rowP).state.cvr = s.cvr ∨
          (patchQueriesOp s clientID patch cf qf cfgP rowP).state.cvr =
            configFlushValue s clientID patch) ∧
        noPokeEnds (patchQueriesOp s clientID patch cf qf cfgP rowP).events) ∧
      ((patchQueriesOp s clientID patch cf qf cfgP rowP).res = none →
        (patchQueriesOp s clientID patch cf qf cfgP rowP).state.cvr =
          (patchQueriesOp s clientID patch cf qf cfgP rowP).state.stored)) := by
  refine ⟨?_, ?_, ?_⟩
  · intro nv changes fo
    exact advance_flush_characterization nv changes fo s
  · intro addQ remQ fo cfgP rowP
    exact addRemove_flush_characterization s addQ remQ fo cfgP rowP
  · intro clientID patch cf qf cfgP rowP
    exact patch_flush_characterization s clientID patch cf qf cfgP rowP hcs

theorem C2_cvr_pointer_only_flush_witness :
    exS.stored = exS.cvr ∧
    (advancePipelinesOp "2b0" [] false exS).res = some Err.flushFailed ∧
    (advancePipelinesOp "2b0" [] false exS).state.cvr = exS.cvr ∧
    noPokeEnds (advancePipelinesOp "2b0" [] false exS).events := by
  have h := ((C2_cvr_pointer_only_flush exS rfl).1 "2b0" [] false).1 (by decide)
  exact ⟨rfl, by decide, h.1, h.2.2⟩

theorem C10_delete_client_identity_witness :
    ((lookupC exS.clients "foo").map ClientState.handle ≠ some 9 ∧
      deleteClientOp exS "foo" 9 = exS) ∧
    ((lookupC exS.clients "foo").map ClientState.handle = some 7 ∧
      lookupC (deleteClientOp exS "foo" 7).clients "foo" = none ∧
      (deleteClientOp exS "foo" 7).idleArmed = true) := by
  refine ⟨⟨by decide, (C10_delete_client_identity exS "foo" 9).1 (by decide)⟩,
          by decide, ?_, ?_⟩
  · exact ((C10_delete_client_identity exS "foo" 7).2 (by decide)).1
  · exact ((C10_delete_client_identity exS "foo" 7).2 (by decide)).2.1 (by decide)

/-! ## Theorems: claim C5 -/

theorem lookupRM_setRM (m : RowsMap) (k : RowID) (v : RowUpdate) (k2 : RowID) :
    lookupRM (setRM m k v) k2 = if k = k2 then some v else lookupRM m k2 := by
  induction m with
  | nil =>
    simp only [setRM, lookupRM]
  | cons e rest ih =>
    obtain ⟨k1, v1⟩ := e
    simp only [setRM]
    by_cases h1 : k1 = k
    · subst h1
      by_cases h2 : k1 = k2
      · subst h2
        simp [lookupRM]
      · simp [lookupRM, h2]
    · rw [if_neg h1]
      by_cases h2 : k1 = k2
      · subst h2
        have : ¬ k = k1 := fun he => h1 he.symm
        simp [lookupRM, this]
      · simp [lookupRM, h2, ih]

theorem setRM_length (m : RowsMap) (k : RowID) (v : RowUpdate) :
    (setRM m k v).length =
      if (lookupRM m k).isSome then m.length else m.length + 1 := by
  induction m with
  | nil => simp [setRM, lookupRM]
  | cons e rest ih =>
    obtain ⟨k1, v1⟩ := e
    simp only [setRM, lookupRM]
    by_cases h1 : k1 = k
    · simp [h1]
    · simp only [if_neg h1, List.length_cons, ih]
      by_cases h2 : (lookupRM rest k).isSome
      · simp [h2]
      · simp [h2]

theorem setRM_ne_nil (m : RowsMap) (k : RowID) (v : RowUpdate) :
    setRM m k v ≠ [] := by
  cases m with
  | nil => simp [setRM]
  | cons e rest =>
    obtain ⟨k1, v1⟩ := e
    simp only [setRM]
    by_cases h1 : k1 = k
    · simp [h1]
    · simp [h1]

theorem ingest_length {m : RowsMap} {c : RowChangeE} {m2 : RowsMap}
    (h : ingest m c = some m2) :
    (m2.length = m.length ∨ m2.length = m.length + 1) ∧ 1 ≤ m2.length := by
  have hb : ∀ (k : RowID) (v : RowUpdate), m2 = setRM m k v →
      (m2.length = m.length ∨ m2.length = m.length + 1) ∧ 1 ≤ m2.length := by
    intro k v he
    subst he
    constructor
    · rw [setRM_length]
      by_cases h2 : (lookupRM m k).isSome
      · rw [if_pos h2]; exact Or.inl rfl
      · rw [if_neg h2]; exact Or.inr rfl
    · have := setRM_ne_nil m k v
      cases hs : setRM m k v with
      | nil => exact absurd hs this
      | cons a l => simp [hs]
  cases hr : c.row with
  | some r =>
    simp only [ingest, hr] at h
    by_cases hv : (((lookupRM m (ridOf c)).getD ⟨[], none, none⟩).version).isNone = true
    · rw [if_pos hv] at h
      cases hz : rowZeroVersion r with
      | none => rw [hz] at h; cases h
      | some v =>
        rw [hz] at h
        injection h with h2
        exact hb _ _ h2.symm
    · rw [if_neg hv] at h
      injection h with h2
      exact hb _ _ h2.symm
  | none =>
    simp only [ingest, hr] at h
    injection h with h2
    exact hb _ _ h2.symm

theorem pcGo_sizes :
    ∀ (cs : List RowChangeE) (m : RowsMap), m.length < CURSOR_PAGE_SIZE →
      (∀ b ∈ (pcGo m cs).1, 1 ≤ b.length ∧ b.length ≤ CURSOR_PAGE_SIZE) ∧
      allFullExceptLast (pcGo m cs).1 ∧
      ((pcGo m cs).2 = true → ∀ b ∈ (pcGo m cs).1, b.length = CURSOR_PAGE_SIZE) := by
  intro cs
  induction cs with
  | nil =>
    intro m hm
    simp only [pcGo]
    by_cases hz : m.length ≠ 0
    · rw [if_pos hz]
      refine ⟨?_, ?_, ?_⟩
      · intro b hb
        rcases List.mem_singleton.mp hb with rfl
        exact ⟨Nat.one_le_iff_ne_zero.mpr hz, le_of_lt hm⟩
      · exact trivial
      · intro hcon; cases hcon
    · rw [if_neg hz]
      exact ⟨fun b hb => absurd hb (List.not_mem_nil b), trivial, fun hcon => by cases hcon⟩
  | cons c rest ih =>
    intro m hm
    cases hi : ingest m c with
    | none =>
      simp only [pcGo, hi]
      exact ⟨fun b hb => absurd hb (List.not_mem_nil b), trivial, fun _ b hb =>
        absurd hb (List.not_mem_nil b)⟩
    | some m1 =>
      obtain ⟨hlen, hpos⟩ := ingest_length hi
      have hle : m1.length ≤ CURSOR_PAGE_SIZE := by
        rcases hlen with h | h
        · rw [h]; exact le_of_lt hm
        · rw [h]; exact hm
      simp only [pcGo, hi]
      by_cases hmod : m1.length % CURSOR_PAGE_SIZE = 0
      · rw [if_pos hmod]
        have hfull : m1.length = CURSOR_PAGE_SIZE := by
          rcases lt_or_eq_of_le hle with hlt | heq
          · rw [Nat.mod_eq_of_lt hlt] at hmod
            exact absurd hmod (Nat.one_le_iff_ne_zero.mp hpos)
          · exact heq
        have hrec := ih [] (by decide)
        refine ⟨?_, ?_, ?_⟩
        · intro b hb
          rcases List.mem_cons.mp hb with rfl | hb2
          · exact ⟨hpos, hle⟩
          · exact hrec.1 b hb2
        · cases hrest : (pcGo [] rest).1 with
          | nil => exact trivial
          | cons b2 l2 =>
            show m1.length = CURSOR_PAGE_SIZE ∧ allFullExceptLast (b2 :: l2)
            rw [← hrest]
            exact ⟨hfull, hrec.2.1⟩
        · intro herr b hb
          rcases List.mem_cons.mp hb with rfl | hb2
          · exact hfull
          · exact hrec.2.2 herr b hb2
      · rw [if_neg hmod]
        have hlt : m1.length < CURSOR_PAGE_SIZE := by
          rcases lt_or_eq_of_le hle with hlt | heq
          · exact hlt
          · rw [heq] at hmod
            exact absurd (Nat.mod_self _) hmod
        exact ih m1 hlt

theorem pcGo_nonempty :
    ∀ (cs : List RowChangeE) (m : RowsMap), (m ≠ [] ∨ cs ≠ []) →
      (pcGo m cs).2 = false → (pcGo m cs).1 ≠ [] := by
  intro cs
  induction cs with
  | nil =>
    intro m hne _
    rcases hne with hne | hne
    · have : m.length ≠ 0 := fun h => hne (List.length_eq_zero.mp h)
      simp [pcGo, this]
    · exact absurd rfl hne
  | cons c rest ih =>
    intro m _ herr
    cases hi : ingest m c with
    | none =>
      simp only [pcGo, hi] at herr
      cases herr
    | some m1 =>
      simp only [pcGo, hi] at herr ⊢
      have hm1 : m1 ≠ [] := by
        obtain ⟨_, hpos⟩ := ingest_length hi
        intro h
        rw [h] at hpos
        cases hpos
      by_cases hmod : m1.length % CURSOR_PAGE_SIZE = 0
      · rw [if_pos hmod]
        simp
      · rw [if_neg hmod] at herr ⊢
        exact ih m1 (Or.inl hm1) herr

/-- C5: `#processChanges` never hands the updater more than
`CURSOR_PAGE_SIZE = 10000` distinct row updates per batch: every interior
batch is flushed exactly when the map reaches 10000 entries (and the map is
cleared), every batch handed to `received` has between 1 and 10000 entries,
and after the change stream is exhausted a non-empty remainder is flushed as
a final partial batch (no trailing changes are dropped on success). -/
theorem C5_batch_paging (cs : List RowChangeE) :
    (∀ b ∈ (processChanges cs).1, 1 ≤ b.length ∧ b.length ≤ CURSOR_PAGE_SIZE) ∧
    allFullExceptLast (processChanges cs).1 ∧
    ((processChanges cs).2 = true →
      ∀ b ∈ (processChanges cs).1, b.length = CURSOR_PAGE_SIZE) ∧
    ((processChanges cs).2 = false → ((processChanges cs).1 = [] ↔ cs = [])) ∧
    CURSOR_PAGE_SIZE = 10000 := by
  have h := pcGo_sizes cs [] (by decide)
  refine ⟨h.1, h.2.1, h.2.2, ?_, rfl⟩
  intro herr
  constructor
  · intro hbe
    by_contra hcs
    exact pcGo_nonempty cs [] (Or.inr hcs) herr hbe
  · intro hcs
    subst hcs
    rfl

/-! ## Theorems: claim C4 -/

theorem lookupRC_bumpRC (rc : List (String × Int)) (q : String) (d : Int)
    (q2 : String) :
    lookupRC (bumpRC rc q d) q2 =
      if q = q2 then some ((lookupRC rc q).getD 0 + d) else lookupRC rc q2 := by
  induction rc with
  | nil =>
    simp only [bumpRC, lookupRC]
    by_cases h : q = q2
    · subst h; simp
    · simp [h]
  | cons e rest ih =>
    obtain ⟨q1, v1⟩ := e
    simp only [bumpRC]
    by_cases h1 : q1 = q
    · subst h1
      simp only [if_pos rfl, lookupRC]
      by_cases h2 : q1 = q2
      · subst h2; simp
      · simp [h2]
    · rw [if_neg h1]
      simp only [lookupRC]
      by_cases h2 : q1 = q2
      · subst h2
        have hne : ¬ q = q1 := fun he => h1 he.symm
        simp [hne]
      · simp only [if_neg h2]
        rw [ih, if_neg h1]

theorem verOf_setRM (m : RowsMap) (k : RowID) (v : RowUpdate) (rid : RowID) :
    verOf (setRM m k v) rid = if k = rid then v.version else verOf m rid := by
  unfold verOf
  rw [lookupRM_setRM]
  by_cases h : k = rid
  · simp [h]
  · simp [h]

theorem contOf_setRM (m : RowsMap) (k : RowID) (v : RowUpdate) (rid : RowID) :
    contOf (setRM m k v) rid = if k = rid then v.contents else contOf m rid := by
  unfold contOf
  rw [lookupRM_setRM]
  by_cases h : k = rid
  · simp [h]
  · simp [h]

theorem rcVal_setRM (m : RowsMap) (k : RowID) (v : RowUpdate) (rid : RowID)
    (q : String) :
    rcVal (setRM m k v) rid q =
      if k = rid then (lookupRC v.refCounts q).getD 0 else rcVal m rid q := by
  unfold rcVal
  rw [lookupRM_setRM]
  by_cases h : k = rid
  · simp [h]
  · simp [h]

/-- The loop body's effect on the staged values: the signed ref count is
bumped by `+1`/`-1` for the change's query, and the version and contents are
captured (validated, stripped) exactly on the first non-null row. -/
theorem ingest_char {m : RowsMap} {c : RowChangeE} {m2 : RowsMap}
    (h : ingest m c = some m2) :
    (∀ rid q, rcVal m2 rid q = rcVal m rid q +
      (if ridOf c = rid ∧ c.queryHash = q then
        (if c.row.isSome then (1 : Int) else -1) else 0)) ∧
    (∀ rid, verOf m2 rid =
      if ridOf c = rid ∧ c.row.isSome ∧ (verOf m rid).isNone then
        c.row.bind rowZeroVersion
      else verOf m rid) ∧
    (∀ rid, contOf m2 rid =
      if ridOf c = rid ∧ c.row.isSome ∧ (verOf m rid).isNone then
        c.row.map stripZeroVersion
      else contOf m rid) := by
  cases hr : c.row with
  | some r =>
    simp only [ingest, hr] at h
    by_cases hv : (((lookupRM m (ridOf c)).getD ⟨[], none, none⟩).version).isNone = true
    · rw [if_pos hv] at h
      cases hz : rowZeroVersion r with
      | none => rw [hz] at h; cases h
      | some zv =>
        rw [hz] at h
        injection h with h2
        subst h2
        have hvm : (verOf m (ridOf c)).isNone = true := hv
        refine ⟨?_, ?_, ?_⟩
        · intro rid q
          rw [rcVal_setRM]
          by_cases hrid : ridOf c = rid
          · rw [if_pos hrid]
            simp only [lookupRC_bumpRC]
            by_cases hq : c.queryHash = q
            · rw [if_pos hq, if_pos ⟨hrid, hq⟩]
              subst hrid
              subst hq
              simp [rcVal, hr]
            · rw [if_neg hq, if_neg (fun hc => hq hc.2)]
              subst hrid
              simp [rcVal]
          · rw [if_neg hrid, if_neg (fun hc => hrid hc.1)]
            simp
        · intro rid
          rw [verOf_setRM]
          by_cases hrid : ridOf c = rid
          · rw [if_pos hrid, if_pos ⟨hrid, by simp [hr], hrid ▸ hvm⟩]
            simp [hr, hz]
          · rw [if_neg hrid, if_neg (fun hc => hrid hc.1)]
        · intro rid
          rw [contOf_setRM]
          by_cases hrid : ridOf c = rid
          · rw [if_pos hrid, if_pos ⟨hrid, by simp [hr], hrid ▸ hvm⟩]
            simp [hr]
          · rw [if_neg hrid, if_neg (fun hc => hrid hc.1)]
    · rw [if_neg hv] at h
      injection h with h2
      subst h2
      have hvm : ¬ (verOf m (ridOf c)).isNone = true := hv
      refine ⟨?_, ?_, ?_⟩
      · intro rid q
        rw [rcVal_setRM]
        by_cases hrid : ridOf c = rid
        · rw [if_pos hrid]
          simp only [lookupRC_bumpRC]
          by_cases hq : c.queryHash = q
          · rw [if_pos hq, if_pos ⟨hrid, hq⟩]
            subst hrid
            subst hq
            simp [rcVal, hr]
          · rw [if_neg hq, if_neg (fun hc => hq hc.2)]
            subst hrid
            simp [rcVal]
        · rw [if_neg hrid, if_neg (fun hc => hrid hc.1)]
          simp
      · intro rid
        rw [verOf_setRM]
        by_cases hrid : ridOf c = rid
        · rw [if_pos hrid, if_neg (fun hc => hvm (hrid ▸ hc.2.2))]
          subst hrid
          rfl
        · rw [if_neg hrid, if_neg (fun hc => hrid hc.1)]
      · intro rid
        rw [contOf_setRM]
        by_cases hrid : ridOf c = rid
        · rw [if_pos hrid, if_neg (fun hc => hvm (hrid ▸ hc.2.2))]
          subst hrid
          rfl
        · rw [if_neg hrid, if_neg (fun hc => hrid hc.1)]
  | none =>
    simp only [ingest, hr] at h
    injection h with h2
    subst h2
    refine ⟨?_, ?_, ?_⟩
    · intro rid q
      rw [rcVal_setRM]
      by_cases hrid : ridOf c = rid
      · rw [if_pos hrid]
        simp only [lookupRC_bumpRC]
        by_cases hq : c.queryHash = q
        · rw [if_pos hq, if_pos ⟨hrid, hq⟩]
          subst hrid
          subst hq
          simp [rcVal, hr]
        · rw [if_neg hq, if_neg (fun hc => hq hc.2)]
          subst hrid
          simp [rcVal]
      · rw [if_neg hrid, if_neg (fun hc => hrid hc.1)]
        simp
    · intro rid
      rw [verOf_setRM]
      by_cases hrid : ridOf c = rid
      · rw [if_pos hrid, if_neg (fun hc => by simp [hr] at hc)]
        subst hrid
        rfl
      · rw [if_neg hrid, if_neg (fun hc => hrid hc.1)]
    · intro rid
      rw [contOf_setRM]
      by_cases hrid : ridOf c = rid
      · rw [if_pos hrid, if_neg (fun hc => by simp [hr] at hc)]
        subst hrid
        rfl
      · rw [if_neg hrid, if_neg (fun hc => hrid hc.1)]

/-- The loop body throws exactly when the change carries a non-null row, no
contents were recorded yet for its row id in this batch, and the row's
`_0_version` is not a non-empty string. -/
theorem ingest_none_iff {m : RowsMap} {c : RowChangeE} :
    ingest m c = none ↔
      ∃ r, c.row = some r ∧ (verOf m (ridOf c)).isNone = true ∧
        rowZeroVersion r = none := by
  cases hr : c.row with
  | some r =>
    simp only [ingest, hr]
    by_cases hv : (((lookupRM m (ridOf c)).getD ⟨[], none, none⟩).version).isNone = true
    · rw [if_pos hv]
      cases hz : rowZeroVersion r with
      | none =>
        simp only [hz]
        constructor
        · intro _
          exact ⟨r, rfl, hv, hz⟩
        · intro _
          trivial
      | some zv =>
        simp only [hz]
        constructor
        · intro hcon; cases hcon
        · rintro ⟨r2, hr2, _, hz2⟩
          injection hr2 with hr3
          subst hr3
          rw [hz] at hz2
          cases hz2
    · rw [if_neg hv]
      constructor
      · intro hcon; cases hcon
      · rintro ⟨r2, _, hv2, _⟩
        exact absurd hv2 hv
  | none =>
    simp only [ingest, hr]
    constructor
    · intro hcon; cases hcon
    · rintro ⟨r2, hr2, _⟩
      cases hr2

/-- A successful loop-body step is an insert-or-replace at the change's row
id, whose recorded version presence is the old presence joined with the
validity of the incoming row's `_0_version`. -/
theorem ingest_shape {m : RowsMap} {c : RowChangeE} {m2 : RowsMap}
    (h : ingest m c = some m2) :
    ∃ v : RowUpdate, m2 = setRM m (ridOf c) v ∧
      v.version.isSome = ((verOf m (ridOf c)).isSome ||
        (c.row.isSome && (c.row.bind rowZeroVersion).isSome)) := by
  cases hr : c.row with
  | some r =>
    simp only [ingest, hr] at h
    by_cases hv : (((lookupRM m (ridOf c)).getD ⟨[], none, none⟩).version).isNone = true
    · rw [if_pos hv] at h
      cases hz : rowZeroVersion r with
      | none => rw [hz] at h; cases h
      | some zv =>
        rw [hz] at h
        injection h with h2
        refine ⟨_, h2.symm, ?_⟩
        have hvn : (verOf m (ridOf c)).isSome = false := by
          have : (verOf m (ridOf c)).isNone = true := hv
          cases hvo : verOf m (ridOf c) with
          | none => rfl
          | some x => rw [hvo] at this; cases this
        simp [hvn, hr, hz]
    · rw [if_neg hv] at h
      injection h with h2
      refine ⟨_, h2.symm, ?_⟩
      have hvs : (verOf m (ridOf c)).isSome = true := by
        cases hvo : verOf m (ridOf c) with
        | none => exact absurd (by simp [verOf] at hvo ⊢; exact hvo) hv
        | some x => rfl
      simp only [hvs, Bool.true_or]
      exact hvs
  | none =>
    simp only [ingest, hr] at h
    injection h with h2
    refine ⟨_, h2.symm, ?_⟩
    simp [hr, verOf]

theorem lookupSeen_setSeen (sm : SeenMap) (k : RowID) (v : Bool) (k2 : RowID) :
    lookupSeen (setSeen sm k v) k2 =
      if k = k2 then some v else lookupSeen sm k2 := by
  induction sm with
  | nil => simp only [setSeen, lookupSeen]
  | cons e rest ih =>
    obtain ⟨k1, v1⟩ := e
    simp only [setSeen]
    by_cases h1 : k1 = k
    · subst h1
      by_cases h2 : k1 = k2
      · subst h2; simp [lookupSeen]
      · simp [lookupSeen, h2]
    · rw [if_neg h1]
      by_cases h2 : k1 = k2
      · subst h2
        have : ¬ k = k1 := fun he => h1 he.symm
        simp [lookupSeen, this]
      · simp [lookupSeen, h2, ih]

theorem setSeen_length (sm : SeenMap) (k : RowID) (v : Bool) :
    (setSeen sm k v).length =
      if (lookupSeen sm k).isSome then sm.length else sm.length + 1 := by
  induction sm with
  | nil => simp [setSeen, lookupSeen]
  | cons e rest ih =>
    obtain ⟨k1, v1⟩ := e
    simp only [setSeen, lookupSeen]
    by_cases h1 : k1 = k
    · simp [h1]
    · simp only [if_neg h1, List.length_cons, ih]
      by_cases h2 : (lookupSeen rest k).isSome
      · simp [h2]
      · simp [h2]

theorem signedCount_cons (c : RowChangeE) (rest : List RowChangeE)
    (rid : RowID) (q : String) :
    signedCount (c :: rest) rid q =
      (if ridOf c = rid ∧ c.queryHash = q then
        (if c.row.isSome then (1 : Int) else -1) else 0) +
        signedCount rest rid q := by
  unfold signedCount
  by_cases h1 : ridOf c = rid ∧ c.queryHash = q
  · rw [if_pos h1]
    cases hr : c.row with
    | some r =>
      rw [List.filter_cons_of_pos (by simp [h1.1, h1.2, hr]),
          List.filter_cons_of_neg (by simp [hr])]
      simp only [List.length_cons, hr, Option.isSome_some, if_true]
      push_cast
      ring
    | none =>
      rw [List.filter_cons_of_neg (by simp [hr]),
          List.filter_cons_of_pos (by simp [h1.1, h1.2, hr])]
      simp only [List.length_cons, hr, Option.isSome_none, if_false]
      push_cast
      ring
  · rw [if_neg h1]
    have hp : ∀ b : Bool,
        (decide (ridOf c = rid) && decide (c.queryHash = q) && b) = false := by
      intro b
      rcases not_and_or.mp h1 with hne | hne
      · simp [hne]
      · simp [hne]
    rw [List.filter_cons_of_neg (by rw [hp]; simp),
        List.filter_cons_of_neg (by rw [hp]; simp)]
    ring

theorem firstNonNullRow_cons (c : RowChangeE) (rest : List RowChangeE)
    (rid : RowID) :
    firstNonNullRow (c :: rest) rid =
      if ridOf c = rid ∧ c.row.isSome = true then c.row
      else firstNonNullRow rest rid := by
  unfold firstNonNullRow
  by_cases h1 : ridOf c = rid ∧ c.row.isSome = true
  · rw [List.find?_cons_of_pos _ (by simp [h1.1, h1.2]), if_pos h1]
    simp
  · rw [List.find?_cons_of_neg _ (by
      simp only [Bool.and_eq_true, decide_eq_true_eq]
      rintro ⟨ha, hb⟩
      exact h1 ⟨ha, hb⟩), if_neg h1]

theorem ingestList_append (xs ys : List RowChangeE) :
    ∀ m, ingestList m (xs ++ ys) =
      match ingestList m xs with
      | none => none
      | some mm => ingestList mm ys := by
  induction xs with
  | nil => intro m; rfl
  | cons c rest ih =>
    intro m
    simp only [List.cons_append, ingestList]
    cases ingest m c with
    | none => rfl
    | some m1 => exact ih m1

theorem ingestList_ne_nil :
    ∀ (cs : List RowChangeE) (m m2 : RowsMap), ingestList m cs = some m2 →
      (m ≠ [] ∨ cs ≠ []) → m2 ≠ [] := by
  intro cs
  induction cs with
  | nil =>
    intro m m2 h hne
    injection h with h2
    subst h2
    rcases hne with hne | hne
    · exact hne
    · exact absurd rfl hne
  | cons c rest ih =>
    intro m m2 h _
    simp only [ingestList] at h
    cases hi : ingest m c with
    | none => rw [hi] at h; cases h
    | some m1 =>
      rw [hi] at h
      have hm1 : m1 ≠ [] := by
        obtain ⟨_, hpos⟩ := ingest_length hi
        intro hc
        rw [hc] at hpos
        cases hpos
      exact ih m1 m2 h (Or.inl hm1)

/-- Folding the loop body over one batch segment, from an empty map:
the staged ref count is the signed count of the segment's changes, and the
version and contents come from the first non-null row (stripped). -/
theorem ingestList_char :
    ∀ (seg : List RowChangeE) (m m2 : RowsMap), ingestList m seg = some m2 →
      (∀ rid q, rcVal m2 rid q = rcVal m rid q + signedCount seg rid q) ∧
      (∀ rid, verOf m2 rid =
        if (verOf m rid).isNone = true ∧ (firstNonNullRow seg rid).isSome = true then
          (firstNonNullRow seg rid).bind rowZeroVersion
        else verOf m rid) ∧
      (∀ rid, contOf m2 rid =
        if (verOf m rid).isNone = true ∧ (firstNonNullRow seg rid).isSome = true then
          (firstNonNullRow seg rid).map stripZeroVersion
        else contOf m rid) := by
  intro seg
  induction seg with
  | nil =>
    intro m m2 h
    injection h with h2
    subst h2
    refine ⟨?_, ?_, ?_⟩
    · intro rid q
      simp [signedCount]
    · intro rid
      simp [firstNonNullRow]
    · intro rid
      simp [firstNonNullRow]
  | cons c rest ih =>
    intro m m2 h
    simp only [ingestList] at h
    cases hi : ingest m c with
    | none => rw [hi] at h; cases h
    | some m1 =>
      rw [hi] at h
      obtain ⟨hrc, hver, hcont⟩ := ingest_char hi
      obtain ⟨irc, iver, icont⟩ := ih m1 m2 h
      refine ⟨?_, ?_, ?_⟩
      · intro rid q
        rw [irc, hrc, signedCount_cons]
        ring
      · intro rid
        have hv1 := hver rid
        rw [iver rid, firstNonNullRow_cons]
        by_cases hA : ridOf c = rid ∧ c.row.isSome = true
        · by_cases hB : (verOf m rid).isNone = true
          · obtain ⟨r, hr⟩ := Option.isSome_iff_exists.mp hA.2
            have hzv : (rowZeroVersion r).isSome = true := by
              by_contra hzn
              have hzn2 : rowZeroVersion r = none := by
                cases hzz : rowZeroVersion r with
                | none => rfl
                | some x => rw [hzz] at hzn; exact absurd rfl hzn
              have hcon : ingest m c = none := ingest_none_iff.mpr
                ⟨r, hr, by rw [hA.1]; exact hB, hzn2⟩
              rw [hcon] at hi
              cases hi
            have hv2 : verOf m1 rid = c.row.bind rowZeroVersion := by
              rw [hv1, if_pos ⟨hA.1, hA.2, hB⟩]
            obtain ⟨zv, hzz⟩ := Option.isSome_iff_exists.mp (by
              rw [hr]
              simpa using hzv : (c.row.bind rowZeroVersion).isSome = true)
            rw [hv2, hzz]
            rw [if_neg (by rintro ⟨hcon, _⟩; cases hcon)]
            rw [if_pos hA, if_pos ⟨hB, hA.2⟩, hzz]
          · have hv2 : verOf m1 rid = verOf m rid := by
              rw [hv1, if_neg (fun hc => hB hc.2.2)]
            rw [hv2]
            rw [if_neg (fun hc => hB hc.1), if_neg (fun hc => hB hc.1)]
        · have hv2 : verOf m1 rid = verOf m rid := by
            rw [hv1, if_neg (fun hc => hA ⟨hc.1, hc.2.1⟩)]
          rw [hv2, if_neg hA]
      · intro rid
        have hv1 := hver rid
        have hc1 := hcont rid
        rw [icont rid, firstNonNullRow_cons]
        by_cases hA : ridOf c = rid ∧ c.row.isSome = true
        · by_cases hB : (verOf m rid).isNone = true
          · obtain ⟨r, hr⟩ := Option.isSome_iff_exists.mp hA.2
            have hzv : (rowZeroVersion r).isSome = true := by
              by_contra hzn
              have hzn2 : rowZeroVersion r = none := by
                cases hzz : rowZeroVersion r with
                | none => rfl
                | some x => rw [hzz] at hzn; exact absurd rfl hzn
              have hcon : ingest m c = none := ingest_none_iff.mpr
                ⟨r, hr, by rw [hA.1]; exact hB, hzn2⟩
              rw [hcon] at hi
              cases hi
            have hv2 : verOf m1 rid = c.row.bind rowZeroVersion := by
              rw [hv1, if_pos ⟨hA.1, hA.2, hB⟩]
            have hc2 : contOf m1 rid = c.row.map stripZeroVersion := by
              rw [hc1, if_pos ⟨hA.1, hA.2, hB⟩]
            obtain ⟨zv, hzz⟩ := Option.isSome_iff_exists.mp (by
              rw [hr]
              simpa using hzv : (c.row.bind rowZeroVersion).isSome = true)
            rw [hc2, hv2, hzz]
            rw [if_neg (by rintro ⟨hcon, _⟩; cases hcon)]
            rw [if_pos hA, if_pos ⟨hB, hA.2⟩]
          · have hv2 : verOf m1 rid = verOf m rid := by
              rw [hv1, if_neg (fun hc => hB hc.2.2)]
            have hc2 : contOf m1 rid = contOf m rid := by
              rw [hc1, if_neg (fun hc => hB hc.2.2)]
            rw [hv2, hc2]
            rw [if_neg (fun hc => hB hc.1), if_neg (fun hc => hB hc.1)]
        · have hv2 : verOf m1 rid = verOf m rid := by
            rw [hv1, if_neg (fun hc => hA ⟨hc.1, hc.2.1⟩)]
          have hc2 : contOf m1 rid = contOf m rid := by
            rw [hc1, if_neg (fun hc => hA ⟨hc.1, hc.2.1⟩)]
          rw [hv2, hc2, if_neg hA]

/-- The batches handed to `received` partition the change stream in order:
each batch is the loop-body fold of its own contiguous segment, restarted
from an empty map. -/
theorem pcGo_segments :
    ∀ (cs seg0 : List RowChangeE) (m : RowsMap),
      ingestList [] seg0 = some m →
      (pcGo m cs).2 = false →
      ∃ segs : List (List RowChangeE),
        seg0 ++ cs = segs.flatten ∧
        List.Forall₂ (fun seg b => ingestList [] seg = some b) segs (pcGo m cs).1 := by
  intro cs
  induction cs with
  | nil =>
    intro seg0 m hseg _
    by_cases hz : m.length ≠ 0
    · refine ⟨[seg0], by simp, ?_⟩
      have hb : (pcGo m []).1 = [m] := by simp [pcGo, hz]
      rw [hb]
      exact List.Forall₂.cons hseg List.Forall₂.nil
    · have hm : m = [] := List.length_eq_zero.mp (not_not.mp (fun hc => hz hc))
      have hseg0 : seg0 = [] := by
        by_contra hne
        exact ingestList_ne_nil seg0 [] m hseg (Or.inr hne) hm
      refine ⟨[], by simp [hseg0], ?_⟩
      have hb : (pcGo m []).1 = [] := by simp [pcGo, hz]
      rw [hb]
      exact List.Forall₂.nil
  | cons c rest ih =>
    intro seg0 m hseg herr
    cases hi : ingest m c with
    | none =>
      simp only [pcGo, hi] at herr
      cases herr
    | some m1 =>
      have hseg1 : ingestList [] (seg0 ++ [c]) = some m1 := by
        rw [ingestList_append]
        rw [hseg]
        simp [ingestList, hi]
      simp only [pcGo, hi] at herr ⊢
      by_cases hmod : m1.length % CURSOR_PAGE_SIZE = 0
      · rw [if_pos hmod] at herr ⊢
        obtain ⟨segs, hjoin, hall⟩ := ih [] [] rfl herr
        refine ⟨(seg0 ++ [c]) :: segs, ?_, List.Forall₂.cons hseg1 hall⟩
        have hr2 : rest = segs.flatten := by simpa using hjoin
        simp [List.flatten, ← hr2]
      · rw [if_neg hmod] at herr ⊢
        obtain ⟨segs, hjoin, hall⟩ := ih (seg0 ++ [c]) m1 hseg1 herr
        refine ⟨segs, ?_, hall⟩
        rw [← hjoin]
        simp

/-- The error flag of the paged processing coincides with the spec's
batch-aware first-seen bad-version predicate. -/
theorem pcGo_err_spec :
    ∀ (cs : List RowChangeE) (m : RowsMap) (sm : SeenMap),
      m.length = sm.length →
      (∀ rid, (lookupRM m rid).isSome = (lookupSeen sm rid).isSome) →
      (∀ rid, (verOf m rid).isSome = (lookupSeen sm rid).getD false) →
      (pcGo m cs).2 = specBadBatches sm cs := by
  intro cs
  induction cs with
  | nil =>
    intro m sm _ _ _
    simp only [pcGo, specBadBatches]
  | cons c rest ih =>
    intro m sm hlen hpres hseen
    cases hr : c.row with
    | some r =>
      by_cases hbad : (lookupSeen sm (ridOf c)).getD false = false ∧
          rowZeroVersion r = none
      · have hvn : (verOf m (ridOf c)).isNone = true := by
          rw [Option.isNone_iff_eq_none]
          cases hvv : verOf m (ridOf c) with
          | none => rfl
          | some x =>
            have := hseen (ridOf c)
            rw [hvv, hbad.1] at this
            cases this
        have hcode : ingest m c = none := ingest_none_iff.mpr ⟨r, hr, hvn, hbad.2⟩
        simp only [pcGo, hcode, specBadBatches, hr]
        rw [if_pos hbad]
      · have hcode : ingest m c ≠ none := by
          intro hn
          obtain ⟨r2, hr2, hv2, hz2⟩ := ingest_none_iff.mp hn
          rw [hr] at hr2
          injection hr2 with h3
          subst h3
          refine hbad ⟨?_, hz2⟩
          rw [← hseen (ridOf c)]
          cases hvv : verOf m (ridOf c) with
          | none => rfl
          | some x => rw [hvv] at hv2; cases hv2
        cases hingest : ingest m c with
        | none => exact absurd hingest hcode
        | some m1 =>
          obtain ⟨v, hm1eq, hvers⟩ := ingest_shape hingest
          have hlen1 : m1.length =
              (setSeen sm (ridOf c)
                (((lookupSeen sm (ridOf c)).getD false) || (rowZeroVersion r).isSome)).length := by
            rw [hm1eq, setRM_length, setSeen_length, hpres (ridOf c), hlen]
          have hpres1 : ∀ rid2, (lookupRM m1 rid2).isSome =
              (lookupSeen (setSeen sm (ridOf c)
                (((lookupSeen sm (ridOf c)).getD false) || (rowZeroVersion r).isSome)) rid2).isSome := by
            intro rid2
            rw [hm1eq, lookupRM_setRM, lookupSeen_setSeen]
            by_cases h2 : ridOf c = rid2
            · rw [if_pos h2, if_pos h2]
              rfl
            · rw [if_neg h2, if_neg h2]
              exact hpres rid2
          have hseen1 : ∀ rid2, (verOf m1 rid2).isSome =
              (lookupSeen (setSeen sm (ridOf c)
                (((lookupSeen sm (ridOf c)).getD false) || (rowZeroVersion r).isSome)) rid2).getD false := by
            intro rid2
            rw [hm1eq, verOf_setRM, lookupSeen_setSeen]
            by_cases h2 : ridOf c = rid2
            · rw [if_pos h2, if_pos h2]
              rw [hvers, hr, hseen (ridOf c)]
              simp
            · rw [if_neg h2, if_neg h2]
              exact hseen rid2
          simp only [pcGo, hingest, specBadBatches, hr]
          rw [if_neg hbad]
          rw [hlen1]
          by_cases hmod : (setSeen sm (ridOf c)
              (((lookupSeen sm (ridOf c)).getD false) || (rowZeroVersion r).isSome)).length %
              CURSOR_PAGE_SIZE = 0
          · rw [if_pos hmod, if_pos hmod]
            exact ih [] [] rfl (fun _ => rfl) (fun _ => rfl)
          · rw [if_neg hmod, if_neg hmod]
            exact ih m1 _ hlen1 hpres1 hseen1
    | none =>
      have hcode : ingest m c ≠ none := by
        intro hn
        obtain ⟨r2, hr2, _, _⟩ := ingest_none_iff.mp hn
        rw [hr] at hr2
        cases hr2
      cases hingest : ingest m c with
      | none => exact absurd hingest hcode
      | some m1 =>
        obtain ⟨v, hm1eq, hvers⟩ := ingest_shape hingest
        have hlen1 : m1.length =
            (setSeen sm (ridOf c) ((lookupSeen sm (ridOf c)).getD false)).length := by
          rw [hm1eq, setRM_length, setSeen_length, hpres (ridOf c), hlen]
        have hpres1 : ∀ rid2, (lookupRM m1 rid2).isSome =
            (lookupSeen (setSeen sm (ridOf c)
              ((lookupSeen sm (ridOf c)).getD false)) rid2).isSome := by
          intro rid2
          rw [hm1eq, lookupRM_setRM, lookupSeen_setSeen]
          by_cases h2 : ridOf c = rid2
          · rw [if_pos h2, if_pos h2]
            rfl
          · rw [if_neg h2, if_neg h2]
            exact hpres rid2
        have hseen1 : ∀ rid2, (verOf m1 rid2).isSome =
            (lookupSeen (setSeen sm (ridOf c)
              ((lookupSeen sm (ridOf c)).getD false)) rid2).getD false := by
          intro rid2
          rw [hm1eq, verOf_setRM, lookupSeen_setSeen]
          by_cases h2 : ridOf c = rid2
          · rw [if_pos h2, if_pos h2]
            rw [hvers, hr, hseen (ridOf c)]
            simp
          · rw [if_neg h2, if_neg h2]
            exact hseen rid2
        simp only [pcGo, hingest, specBadBatches, hr]
        rw [hlen1]
        by_cases hmod : (setSeen sm (ridOf c)
            ((lookupSeen sm (ridOf c)).getD false)).length % CURSOR_PAGE_SIZE = 0
        · rw [if_pos hmod, if_pos hmod]
          exact ih [] [] rfl (fun _ => rfl) (fun _ => rfl)
        · rw [if_neg hmod, if_neg hmod]
          exact ih m1 _ hlen1 hpres1 hseen1

/-- C4: for every sequence of row changes, `#processChanges` (lines 549-597)
errors exactly when some first-seen row's `_0_version` is not a string of
length at least 1; on success the batches handed to `received` partition the
change stream; and within each batch the staged RowUpdate accumulates
`refCounts[queryHash]` by the signed count of non-null/null changes while
contents and row version come from the batch's first non-null row with the
`_0_version` column stripped. -/
theorem C4_process_changes (cs : List RowChangeE) :
    ((processChanges cs).2 = specBadBatches [] cs) ∧
    ((processChanges cs).2 = false →
      ∃ segs : List (List RowChangeE),
        cs = segs.flatten ∧
        List.Forall₂ (fun seg b => ingestList [] seg = some b) segs
          (processChanges cs).1) ∧
    (∀ (seg : List RowChangeE) (m2 : RowsMap), ingestList [] seg = some m2 →
      (∀ rid q, rcVal m2 rid q = signedCount seg rid q) ∧
      (∀ rid, verOf m2 rid = (firstNonNullRow seg rid).bind rowZeroVersion) ∧
      (∀ rid, contOf m2 rid = (firstNonNullRow seg rid).map stripZeroVersion)) := by
  refine ⟨?_, ?_, ?_⟩
  · exact pcGo_err_spec cs [] [] rfl (fun _ => rfl) (fun _ => rfl)
  · intro herr
    obtain ⟨segs, hjoin, hall⟩ := pcGo_segments cs [] [] rfl herr
    exact ⟨segs, by simpa using hjoin, hall⟩
  · intro seg m2 hm2
    obtain ⟨hrc, hver, hcont⟩ := ingestList_char seg [] m2 hm2
    refine ⟨?_, ?_, ?_⟩
    · intro rid q
      have h0 : rcVal ([] : RowsMap) rid q = 0 := rfl
      rw [hrc rid q, h0, zero_add]
    · intro rid
      have hnone : verOf ([] : RowsMap) rid = none := rfl
      rw [hver rid, hnone]
      cases hf : firstNonNullRow seg rid <;> simp
    · intro rid
      have hnone : verOf ([] : RowsMap) rid = none := rfl
      have hcn : contOf ([] : RowsMap) rid = none := rfl
      rw [hcont rid, hnone, hcn]
      cases hf : firstNonNullRow seg rid <;> simp

theorem C4_process_changes_witness :
    (processChanges [exBadChange]).2 = specBadBatches [] [exBadChange] ∧
    specBadBatches [] [exBadChange] = true ∧
    (∃ segs : List (List RowChangeE),
      [exChange] = segs.flatten ∧
      List.Forall₂ (fun seg b => ingestList [] seg = some b) segs
        (processChanges [exChange]).1) :=
  ⟨(C4_process_changes [exBadChange]).1, by decide,
   (C4_process_changes [exChange]).2.1 (by decide)⟩

theorem C5_batch_paging_witness :
    (processChanges [exChange]).2 = false ∧
    ((processChanges [exChange]).1 = [] ↔ ([exChange] : List RowChangeE) = []) ∧
    (processChanges [exChange]).1.length = 1 :=
  ⟨by decide, (C5_batch_paging [exChange]).2.2.2.1 (by decide), by decide⟩


/-! ## Theorems: catch-up delivery (C7) -/

theorem lookupC_none_of_not_mem :
    ∀ (clients : List (String × ClientState)) (k : String),
      k ∉ clients.map Prod.fst → lookupC clients k = none := by
  intro clients
  induction clients with
  | nil => intro k _; rfl
  | cons e rest ih =>
    intro k hk
    obtain ⟨k1, st1⟩ := e
    simp only [List.map_cons, List.mem_cons] at hk
    push_neg at hk
    simp only [lookupC]
    rw [if_neg (fun h => hk.1 h.symm)]
    exact ih k hk.2

theorem deliveredTo_nil (c : String) : deliveredTo c [] = [] := rfl

theorem deliveredTo_append (c : String) (a b : List Event) :
    deliveredTo c (a ++ b) = deliveredTo c a ++ deliveredTo c b := by
  simp [deliveredTo]

theorem deliveredTo_patchSent_cons (c cid : String) (p : PatchEv) (v : Version)
    (evs : List Event) :
    deliveredTo c (Event.patchSent cid p v :: evs) =
      (if cid = c then [(p, v)] else []) ++ deliveredTo c evs := by
  by_cases h : cid = c
  · simp [deliveredTo, List.filterMap_cons, h]
  · simp [deliveredTo, List.filterMap_cons, h]

theorem deliveredTo_pokeStart_cons (c : String) (t : PokeTag) (cid : String)
    (b v : Version) (evs : List Event) :
    deliveredTo c (Event.pokeStart t cid b v :: evs) = deliveredTo c evs := by
  simp [deliveredTo, List.filterMap_cons]

theorem deliveredTo_pokeEnd_cons (c cid : String) (v : Version)
    (evs : List Event) :
    deliveredTo c (Event.pokeEnd cid v :: evs) = deliveredTo c evs := by
  simp [deliveredTo, List.filterMap_cons]

theorem deliveredTo_startPokeEvents (c : String) (t : PokeTag)
    (clients : List (String × ClientState)) (v : Version) :
    deliveredTo c (startPokeEvents t clients v) = [] := by
  induction clients with
  | nil => rfl
  | cons e rest ih =>
    simp only [startPokeEvents, List.map_cons] at ih ⊢
    rw [deliveredTo_pokeStart_cons]
    exact ih

theorem deliveredTo_endPokeEvents (c : String) (pks : List Poker) :
    deliveredTo c (endPokeEvents pks) = [] := by
  induction pks with
  | nil => rfl
  | cons pk rest ih =>
    simp only [endPokeEvents, List.map_cons] at ih ⊢
    rw [deliveredTo_pokeEnd_cons]
    exact ih

theorem startPokers_cons (e : String × ClientState)
    (rest : List (String × ClientState)) (v : Version) :
    startPokers (e :: rest) v = Poker.mk e.1 e.2.baseVersion v :: startPokers rest v := rfl

theorem addPatchEvents_cons (pk : Poker) (pks : List Poker) (p : PatchEv)
    (tv : Version) :
    addPatchEvents (pk :: pks) p tv =
      (if versionLt pk.base tv then [Event.patchSent pk.clientID p tv] else []) ++
        addPatchEvents pks p tv := by
  by_cases h : versionLt pk.base tv
  · simp [addPatchEvents, List.filterMap_cons, h]
  · simp [addPatchEvents, List.filterMap_cons, h]

theorem deliveredTo_addPatch_none :
    ∀ (clients : List (String × ClientState)) (k : String) (v tv : Version)
      (p : PatchEv),
      lookupC clients k = none →
      deliveredTo k (addPatchEvents (startPokers clients v) p tv) = [] := by
  intro clients
  induction clients with
  | nil => intro k v tv p _; rfl
  | cons e rest ih =>
    intro k v tv p hl
    obtain ⟨k1, st1⟩ := e
    have hne : k1 ≠ k := by
      intro h
      simp [lookupC, h] at hl
    have hrest : lookupC rest k = none := by
      simpa [lookupC, hne] using hl
    rw [startPokers_cons, addPatchEvents_cons, deliveredTo_append]
    by_cases hv : versionLt (Poker.mk k1 st1.baseVersion v).base tv
    · rw [if_pos hv, deliveredTo_patchSent_cons]
      rw [if_neg hne]
      simp [ih k v tv p hrest, deliveredTo_nil]
    · rw [if_neg hv]
      simp [ih k v tv p hrest, deliveredTo_nil]

theorem deliveredTo_addPatch :
    ∀ (clients : List (String × ClientState)) (k : String) (st : ClientState)
      (v tv : Version) (p : PatchEv),
      (clients.map Prod.fst).Nodup →
      lookupC clients k = some st →
      deliveredTo k (addPatchEvents (startPokers clients v) p tv) =
        if versionLt st.baseVersion tv then [(p, tv)] else [] := by
  intro clients
  induction clients with
  | nil => intro k st v tv p _ hl; cases hl
  | cons e rest ih =>
    intro k st v tv p hnd hl
    obtain ⟨k1, st1⟩ := e
    simp only [List.map_cons, List.nodup_cons] at hnd
    rw [startPokers_cons, addPatchEvents_cons, deliveredTo_append]
    by_cases hk : k1 = k
    · subst hk
      have hst : st1 = st := by
        simp only [lookupC, if_pos rfl] at hl
        injection hl
      subst hst
      have hrest : lookupC rest k1 = none :=
        lookupC_none_of_not_mem rest k1 hnd.1
      have htail := deliveredTo_addPatch_none rest k1 v tv p hrest
      by_cases hv : versionLt st1.baseVersion tv
      · rw [if_pos hv, if_pos hv, deliveredTo_patchSent_cons, if_pos rfl]
        simp [htail, deliveredTo_nil]
      · rw [if_neg hv, if_neg hv]
        simp [htail, deliveredTo_nil]
    · have hrest : lookupC rest k = some st := by
        simpa [lookupC, hk] using hl
      have htail := ih k st v tv p hnd.2 hrest
      by_cases hv : versionLt st1.baseVersion tv
      · rw [if_pos hv, deliveredTo_patchSent_cons, if_neg hk]
        simp [htail, deliveredTo_nil]
      · rw [if_neg hv]
        simp [htail, deliveredTo_nil]

theorem deliveredTo_cfg :
    ∀ (cfg : List (PatchEv × Version)) (clients : List (String × ClientState))
      (k : String) (st : ClientState) (v : Version),
      (clients.map Prod.fst).Nodup →
      lookupC clients k = some st →
      deliveredTo k (cfg.flatMap (fun pv =>
          addPatchEvents (startPokers clients v) pv.1 pv.2)) =
        cfg.filter (fun pv => decide (versionLt st.baseVersion pv.2)) := by
  intro cfg
  induction cfg with
  | nil => intro clients k st v _ _; rfl
  | cons pv rest ih =>
    intro clients k st v hnd hl
    rw [List.flatMap_cons, deliveredTo_append, deliveredTo_addPatch clients k st v pv.2 pv.1 hnd hl,
        ih clients k st v hnd hl]
    by_cases hv : versionLt st.baseVersion pv.2
    · rw [if_pos hv, List.filter_cons_of_pos (by simpa using hv)]
      simp
    · rw [if_neg hv, List.filter_cons_of_neg (by simpa using hv)]
      simp

theorem catchupRowLoop_err_iff (pk : List Poker) (pipe : PipelineState) :
    ∀ rs : List CatchupRowRecord,
      (catchupRowLoop pk pipe rs).1 ≠ none ↔
        ∃ r ∈ rs, r.hasRefCounts = true ∧
          pipeGetRow pipe r.id.table r.id.rowKey = none := by
  intro rs
  induction rs with
  | nil => simp [catchupRowLoop]
  | cons r rest ih =>
    cases hrc : r.hasRefCounts with
    | true =>
      cases hg : pipeGetRow pipe r.id.table r.id.rowKey with
      | none =>
        simp only [catchupRowLoop, hrc, if_true]
        rw [hg]
        constructor
        · intro _
          exact ⟨r, List.mem_cons_self r rest, hrc, hg⟩
        · intro _
          simp
      | some contents =>
        simp only [catchupRowLoop, hrc, if_true]
        rw [hg]
        constructor
        · intro h
          obtain ⟨r2, hmem, hp⟩ := ih.mp h
          exact ⟨r2, List.mem_cons_of_mem r hmem, hp⟩
        · rintro ⟨r2, hmem, hp1, hp2⟩
          rcases List.mem_cons.mp hmem with h | h
          · subst h
            rw [hg] at hp2
            cases hp2
          · exact ih.mpr ⟨r2, h, hp1, hp2⟩
    | false =>
      simp only [catchupRowLoop, hrc, if_false]
      constructor
      · intro h
        obtain ⟨r2, hmem, hp⟩ := ih.mp h
        exact ⟨r2, List.mem_cons_of_mem r hmem, hp⟩
      · rintro ⟨r2, hmem, hp1, hp2⟩
        rcases List.mem_cons.mp hmem with h | h
        · subst h
          rw [hrc] at hp1
          cases hp1
        · exact ih.mpr ⟨r2, h, hp1, hp2⟩

theorem deliveredTo_rowLoop :
    ∀ (rows : List CatchupRowRecord) (clients : List (String × ClientState))
      (k : String) (st : ClientState) (v : Version) (pipe : PipelineState),
      (clients.map Prod.fst).Nodup →
      lookupC clients k = some st →
      (catchupRowLoop (startPokers clients v) pipe rows).1 = none →
      deliveredTo k (catchupRowLoop (startPokers clients v) pipe rows).2 =
        rows.filterMap (fun r =>
          if versionLt st.baseVersion r.patchVersion then
            some
              (if r.hasRefCounts then
                PatchEv.rowPut r.id ((pipeGetRow pipe r.id.table r.id.rowKey).getD [])
              else PatchEv.rowDel r.id, r.patchVersion)
          else none) := by
  intro rows
  induction rows with
  | nil => intro clients k st v pipe _ _ _; rfl
  | cons r rest ih =>
    intro clients k st v pipe hnd hl hok
    cases hrc : r.hasRefCounts with
    | true =>
      cases hg : pipeGetRow pipe r.id.table r.id.rowKey with
      | none =>
        exfalso
        simp only [catchupRowLoop, hrc, if_true] at hok
        rw [hg] at hok
        cases hok
      | some contents =>
        simp only [catchupRowLoop, hrc, if_true] at hok ⊢
        rw [hg] at hok ⊢
        rw [deliveredTo_append,
            deliveredTo_addPatch clients k st v r.patchVersion
              (PatchEv.rowPut r.id contents) hnd hl,
            ih clients k st v pipe hnd hl hok,
            List.filterMap_cons]
        by_cases hv : versionLt st.baseVersion r.patchVersion
        · rw [if_pos hv, if_pos hv]
          simp [hrc, hg]
        · rw [if_neg hv, if_neg hv]
          simp
    | false =>
      simp only [catchupRowLoop, hrc, Bool.false_eq_true, if_false] at hok ⊢
      rw [deliveredTo_append,
          deliveredTo_addPatch clients k st v r.patchVersion
            (PatchEv.rowDel r.id) hnd hl,
          ih clients k st v pipe hnd hl hok,
          List.filterMap_cons]
      by_cases hv : versionLt st.baseVersion r.patchVersion
      · rw [if_pos hv, if_pos hv]
        simp [hrc]
      · rw [if_neg hv, if_neg hv]
        simp

theorem expectedCatchup_nil (base : Version) (cfg : List (PatchEv × Version))
    (rows : List CatchupRowRecord) (pipe : PipelineState)
    (h1 : ∀ pv ∈ cfg, ¬ versionLt base pv.2)
    (h2 : ∀ r ∈ rows, ¬ versionLt base r.patchVersion) :
    expectedCatchup base cfg rows pipe = [] := by
  unfold expectedCatchup
  rw [List.append_eq_nil]
  constructor
  · rw [List.filter_eq_nil_iff]
    intro pv hpv
    simpa using h1 pv hpv
  · rw [List.filterMap_eq_nil_iff]
    intro r hr
    rw [if_neg (h2 r hr)]

/-- C7: during `#catchupClients` (lines 489-547) the catch-up is streamed per
connected client from that client's own acknowledged version: each client
receives exactly the config patches and then the row patches whose patch
version is above its version (tombstones as `del`, referenced rows as `put`
of `pipeline.getRow`), a client already at `cvr.version` receives none, and
the operation fails — with `Internal` — exactly when some referenced row
patch has no row in the pipeline. -/
theorem C7_catchup_clients
    (clients : List (String × ClientState)) (pipe : PipelineState)
    (cvr : CVRSnapshot) (ex : List String)
    (cfg : List (PatchEv × Version)) (rows : List CatchupRowRecord)
    (hnd : (clients.map Prod.fst).Nodup) :
    ((catchupClients clients pipe cvr ex none cfg rows).1 = none ∨
      (catchupClients clients pipe cvr ex none cfg rows).1 = some Err.internal) ∧
    ((catchupClients clients pipe cvr ex none cfg rows).1 ≠ none ↔
      ∃ r ∈ rows, r.hasRefCounts = true ∧
        pipeGetRow pipe r.id.table r.id.rowKey = none) ∧
    ((catchupClients clients pipe cvr ex none cfg rows).1 = none →
      ∀ k st, lookupC clients k = some st →
        deliveredTo k (catchupClients clients pipe cvr ex none cfg rows).2.1 =
          expectedCatchup st.baseVersion cfg rows pipe) ∧
    ((catchupClients clients pipe cvr ex none cfg rows).1 = none →
      (∀ pv ∈ cfg, versionLe pv.2 cvr.version) →
      (∀ r ∈ rows, versionLe r.patchVersion cvr.version) →
      ∀ k st, lookupC clients k = some st → st.baseVersion = cvr.version →
        deliveredTo k (catchupClients clients pipe cvr ex none cfg rows).2.1 = []) := by
  cases hrow : (catchupRowLoop (startPokers clients cvr.version) pipe rows).1 with
  | none =>
    have hc : catchupClients clients pipe cvr ex none cfg rows =
        (none,
         startPokeEvents PokeTag.catchup clients cvr.version ++
           cfg.flatMap (fun pv =>
             addPatchEvents (startPokers clients cvr.version) pv.1 pv.2) ++
           (catchupRowLoop (startPokers clients cvr.version) pipe rows).2 ++
           endPokeEvents (startPokers clients cvr.version),
         commitClients clients cvr.version) := by
      simp [catchupClients, hrow]
    have hdel : ∀ k st, lookupC clients k = some st →
        deliveredTo k (catchupClients clients pipe cvr ex none cfg rows).2.1 =
          expectedCatchup st.baseVersion cfg rows pipe := by
      intro k st hlk
      rw [hc]
      show deliveredTo k _ = _
      rw [deliveredTo_append, deliveredTo_append, deliveredTo_append,
          deliveredTo_startPokeEvents, deliveredTo_endPokeEvents,
          deliveredTo_cfg cfg clients k st cvr.version hnd hlk,
          deliveredTo_rowLoop rows clients k st cvr.version pipe hnd hlk hrow]
      unfold expectedCatchup
      simp
    refine ⟨Or.inl (by rw [hc]), ?_, fun _ => hdel, ?_⟩
    · constructor
      · intro h
        rw [hc] at h
        exact absurd rfl h
      · intro hex
        exact absurd hrow ((catchupRowLoop_err_iff _ pipe rows).mpr hex)
    · intro _ h1 h2 k st hlk hbase
      rw [hdel k st hlk, hbase]
      refine expectedCatchup_nil cvr.version cfg rows pipe ?_ ?_
      · intro pv hpv
        exact not_versionLt_of_versionLe (h1 pv hpv)
      · intro r hr
        exact not_versionLt_of_versionLe (h2 r hr)
  | some e =>
    have hc : catchupClients clients pipe cvr ex none cfg rows =
        (some e,
         startPokeEvents PokeTag.catchup clients cvr.version ++
           cfg.flatMap (fun pv =>
             addPatchEvents (startPokers clients cvr.version) pv.1 pv.2) ++
           (catchupRowLoop (startPokers clients cvr.version) pipe rows).2,
         clients) := by
      simp [catchupClients, hrow]
    have hint : e = Err.internal := by
      rcases catchupRowLoop_res (startPokers clients cvr.version) pipe rows with h | h
      · rw [hrow] at h
        cases h
      · rw [hrow] at h
        exact Option.some.inj h
    refine ⟨Or.inr (by rw [hc, hint]), ?_, ?_, ?_⟩
    · constructor
      · intro _
        refine (catchupRowLoop_err_iff (startPokers clients cvr.version) pipe rows).mp ?_
        rw [hrow]
        intro h
        cases h
      · intro _
        rw [hc]
        intro h
        cases h
    · intro h
      rw [hc] at h
      cases h
    · intro h
      rw [hc] at h
      cases h

theorem C7_catchup_clients_witness :
    (catchupClients [("foo", exClient)] exPipeRows exCvrAhead [] none
        exCfgPatch exRowRecs).1 = none ∧
    deliveredTo "foo"
        (catchupClients [("foo", exClient)] exPipeRows exCvrAhead [] none
          exCfgPatch exRowRecs).2.1 =
      expectedCatchup exClient.baseVersion exCfgPatch exRowRecs exPipeRows :=
  ⟨by decide,
   (C7_catchup_clients [("foo", exClient)] exPipeRows exCvrAhead []
      exCfgPatch exRowRecs (by decide)).2.2.1 (by decide) "foo" exClient (by decide)⟩


/-! ## Theorems: poke version monotonicity (C1) -/

theorem mainPokesTo_append (c : String) (a b : List Event) :
    mainPokesTo c (a ++ b) = mainPokesTo c a ++ mainPokesTo c b := by
  simp [mainPokesTo]

theorem allPokesTo_append (c : String) (a b : List Event) :
    allPokesTo c (a ++ b) = allPokesTo c a ++ allPokesTo c b := by
  simp [allPokesTo]

theorem mainPokesTo_nil_of_noStarts {evs : List Event} (h : noPokeStarts evs) :
    ∀ c, mainPokesTo c evs = [] := by
  intro c
  induction evs with
  | nil => rfl
  | cons e rest ih =>
    have he := h e (List.mem_cons_self e rest)
    have hrest : noPokeStarts rest := fun e2 h2 => h e2 (List.mem_cons_of_mem e h2)
    cases e with
    | pokeStart t cid b v => cases he
    | patchSent cid p v =>
      simp only [mainPokesTo, List.filterMap_cons]
      exact ih hrest
    | pokeEnd cid v =>
      simp only [mainPokesTo, List.filterMap_cons]
      exact ih hrest

theorem allPokesTo_nil_of_noStarts {evs : List Event} (h : noPokeStarts evs) :
    ∀ c, allPokesTo c evs = [] := by
  intro c
  induction evs with
  | nil => rfl
  | cons e rest ih =>
    have he := h e (List.mem_cons_self e rest)
    have hrest : noPokeStarts rest := fun e2 h2 => h e2 (List.mem_cons_of_mem e h2)
    cases e with
    | pokeStart t cid b v => cases he
    | patchSent cid p v =>
      simp only [allPokesTo, List.filterMap_cons]
      exact ih hrest
    | pokeEnd cid v =>
      simp only [allPokesTo, List.filterMap_cons]
      exact ih hrest

theorem noPokeStarts_nil : noPokeStarts [] := by
  intro e he
  cases he

theorem noPokeStarts_append {a b : List Event} (ha : noPokeStarts a)
    (hb : noPokeStarts b) : noPokeStarts (a ++ b) := by
  intro e he
  rcases List.mem_append.mp he with h | h
  · exact ha e h
  · exact hb e h

theorem noPokeStarts_addPatchEvents (pk : List Poker) (p : PatchEv) (v : Version) :
    noPokeStarts (addPatchEvents pk p v) := by
  intro e he
  obtain ⟨x, _, hx⟩ := List.mem_filterMap.mp he
  by_cases hc : versionLt x.base v
  · rw [if_pos hc] at hx
    cases hx
    rfl
  · rw [if_neg hc] at hx
    cases hx

theorem noPokeStarts_endPokeEvents (pk : List Poker) :
    noPokeStarts (endPokeEvents pk) := by
  intro e he
  obtain ⟨x, _, hx⟩ := List.mem_map.mp he
  rw [← hx]
  rfl

theorem noPokeStarts_flatMapPatch (l : List PatchEv) (pk : List Poker) (v : Version) :
    noPokeStarts (l.flatMap (fun p => addPatchEvents pk p v)) := by
  induction l with
  | nil => exact noPokeStarts_nil
  | cons p rest ih =>
    simp only [List.flatMap_cons]
    exact noPokeStarts_append (noPokeStarts_addPatchEvents _ _ _) ih

theorem noPokeStarts_flatMapPV (l : List (PatchEv × Version)) (pk : List Poker) :
    noPokeStarts (l.flatMap (fun pv => addPatchEvents pk pv.1 pv.2)) := by
  induction l with
  | nil => exact noPokeStarts_nil
  | cons p rest ih =>
    simp only [List.flatMap_cons]
    exact noPokeStarts_append (noPokeStarts_addPatchEvents _ _ _) ih

theorem noPokeStarts_feedBatches (pk : List Poker) :
    ∀ (bs : List RowsMap) (u : QueryUpdater), noPokeStarts (feedBatches pk u bs).2 := by
  intro bs
  induction bs with
  | nil => intro u; exact noPokeStarts_nil
  | cons b rest ih =>
    intro u
    simp only [feedBatches]
    exact noPokeStarts_append (noPokeStarts_flatMapPatch _ _ _) (ih _)

theorem noPokeStarts_processChangesB (changes : List RowChangeE) (u : QueryUpdater)
    (pk : List Poker) : noPokeStarts (processChangesB changes u pk).2.2 := by
  unfold processChangesB
  exact noPokeStarts_feedBatches _ _ _

theorem noPokeStarts_catchupRowLoop (pk : List Poker) (pipe : PipelineState) :
    ∀ rs : List CatchupRowRecord, noPokeStarts (catchupRowLoop pk pipe rs).2 := by
  intro rs
  induction rs with
  | nil => exact noPokeStarts_nil
  | cons r rest ih =>
    simp only [catchupRowLoop]
    by_cases hrc : r.hasRefCounts
    · rw [if_pos hrc]
      cases hg : pipeGetRow pipe r.id.table r.id.rowKey with
      | none => exact noPokeStarts_nil
      | some contents =>
        exact noPokeStarts_append (noPokeStarts_addPatchEvents _ _ _) ih
    · rw [if_neg hrc]
      exact noPokeStarts_append (noPokeStarts_addPatchEvents _ _ _) ih

theorem noPokeStarts_addLoop (pk : List Poker) (cvr : CVRSnapshot) :
    ∀ (l : List String) (p : PipelineState) (u : QueryUpdater),
      noPokeStarts (addLoop pk cvr p u l).2.2.2 := by
  intro l
  induction l with
  | nil => intro p u; exact noPokeStarts_nil
  | cons h rest ih =>
    intro p u
    cases hq : lookupQ cvr.queries h with
    | none =>
      simp only [addLoop, hq]
      exact noPokeStarts_nil
    | some q =>
      cases hpq : pipeAddQuery p h q.ast with
      | none =>
        simp only [addLoop, hq, hpq]
        exact noPokeStarts_nil
      | some pc0 =>
        cases hpc : (processChangesB pc0.2 u pk).1 with
        | some e =>
          simp only [addLoop, hq, hpq, hpc]
          exact noPokeStarts_processChangesB _ _ _
        | none =>
          simp only [addLoop, hq, hpq, hpc]
          exact noPokeStarts_append (noPokeStarts_processChangesB _ _ _) (ih _ _)

theorem noPokeStarts_catchup_usePokers (cl : List (String × ClientState))
    (pipe : PipelineState) (cvr : CVRSnapshot) (ex : List String)
    (pk : List Poker) (cfg : List (PatchEv × Version))
    (rows : List CatchupRowRecord) :
    noPokeStarts (catchupClients cl pipe cvr ex (some pk) cfg rows).2.1 := by
  unfold catchupClients
  cases hr : (catchupRowLoop pk pipe rows).1 with
  | some e =>
    simp only [hr, Option.getD_some, Option.isSome_some, if_true]
    exact noPokeStarts_append
      (noPokeStarts_append noPokeStarts_nil (noPokeStarts_flatMapPV _ _))
      (noPokeStarts_catchupRowLoop _ _ _)
  | none =>
    simp only [hr, Option.getD_some, Option.isSome_some, if_true]
    exact noPokeStarts_append
      (noPokeStarts_append noPokeStarts_nil (noPokeStarts_flatMapPV _ _))
      (noPokeStarts_catchupRowLoop _ _ _)

theorem startPokeEvents_cons (t : PokeTag) (e : String × ClientState)
    (rest : List (String × ClientState)) (v : Version) :
    startPokeEvents t (e :: rest) v =
      Event.pokeStart t e.1 e.2.baseVersion v :: startPokeEvents t rest v := rfl

theorem mainPokesTo_cons_main (c cid : String) (b v : Version) (evs : List Event) :
    mainPokesTo c (Event.pokeStart PokeTag.main cid b v :: evs) =
      (if cid = c then [(b, v)] else []) ++ mainPokesTo c evs := by
  by_cases h : cid = c
  · simp [mainPokesTo, List.filterMap_cons, h]
  · simp [mainPokesTo, List.filterMap_cons, h]

theorem mainPokesTo_cons_catchup (c cid : String) (b v : Version) (evs : List Event) :
    mainPokesTo c (Event.pokeStart PokeTag.catchup cid b v :: evs) =
      mainPokesTo c evs := by
  simp [mainPokesTo, List.filterMap_cons]

theorem allPokesTo_cons_start (c : String) (t : PokeTag) (cid : String)
    (b v : Version) (evs : List Event) :
    allPokesTo c (Event.pokeStart t cid b v :: evs) =
      (if cid = c then [(b, v)] else []) ++ allPokesTo c evs := by
  by_cases h : cid = c
  · simp [allPokesTo, List.filterMap_cons, h]
  · simp [allPokesTo, List.filterMap_cons, h]

theorem mainPokesTo_startPokeEvents_none :
    ∀ (cl : List (String × ClientState)) (t : PokeTag) (v : Version) (c : String),
      lookupC cl c = none → mainPokesTo c (startPokeEvents t cl v) = [] := by
  intro cl
  induction cl with
  | nil => intro t v c _; rfl
  | cons e rest ih =>
    intro t v c hl
    obtain ⟨k1, st1⟩ := e
    have hne : k1 ≠ c := by
      intro h
      simp [lookupC, h] at hl
    have hrest : lookupC rest c = none := by
      simpa [lookupC, hne] using hl
    cases t with
    | main =>
      rw [startPokeEvents_cons, mainPokesTo_cons_main, if_neg hne,
        ih PokeTag.main v c hrest]
      rfl
    | catchup =>
      rw [startPokeEvents_cons, mainPokesTo_cons_catchup,
        ih PokeTag.catchup v c hrest]

theorem allPokesTo_startPokeEvents_none :
    ∀ (cl : List (String × ClientState)) (t : PokeTag) (v : Version) (c : String),
      lookupC cl c = none → allPokesTo c (startPokeEvents t cl v) = [] := by
  intro cl
  induction cl with
  | nil => intro t v c _; rfl
  | cons e rest ih =>
    intro t v c hl
    obtain ⟨k1, st1⟩ := e
    have hne : k1 ≠ c := by
      intro h
      simp [lookupC, h] at hl
    have hrest : lookupC rest c = none := by
      simpa [lookupC, hne] using hl
    rw [startPokeEvents_cons, allPokesTo_cons_start, if_neg hne, ih t v c hrest]
    rfl

theorem mainPokesTo_startPokeEvents_catchup :
    ∀ (cl : List (String × ClientState)) (v : Version) (c : String),
      mainPokesTo c (startPokeEvents PokeTag.catchup cl v) = [] := by
  intro cl
  induction cl with
  | nil => intro v c; rfl
  | cons e rest ih =>
    intro v c
    rw [startPokeEvents_cons, mainPokesTo_cons_catchup, ih v c]

theorem mainPokesTo_startPokeEvents_main :
    ∀ (cl : List (String × ClientState)) (v : Version) (c : String)
      (st : ClientState),
      (cl.map Prod.fst).Nodup → lookupC cl c = some st →
      mainPokesTo c (startPokeEvents PokeTag.main cl v) = [(st.baseVersion, v)] := by
  intro cl
  induction cl with
  | nil => intro v c st _ hl; cases hl
  | cons e rest ih =>
    intro v c st hnd hl
    obtain ⟨k1, st1⟩ := e
    simp only [List.map_cons, List.nodup_cons] at hnd
    by_cases hk : k1 = c
    · subst hk
      have hst : st1 = st := by
        simp only [lookupC, if_pos rfl] at hl
        injection hl
      subst hst
      have hrest : lookupC rest k1 = none :=
        lookupC_none_of_not_mem rest k1 hnd.1
      rw [startPokeEvents_cons, mainPokesTo_cons_main, if_pos rfl,
        mainPokesTo_startPokeEvents_none rest PokeTag.main v k1 hrest]
      rfl
    · have hrest : lookupC rest c = some st := by
        simpa [lookupC, hk] using hl
      rw [startPokeEvents_cons, mainPokesTo_cons_main, if_neg hk,
        ih v c st hnd.2 hrest]
      rfl

theorem allPokesTo_startPokeEvents_some :
    ∀ (cl : List (String × ClientState)) (t : PokeTag) (v : Version) (c : String)
      (st : ClientState),
      (cl.map Prod.fst).Nodup → lookupC cl c = some st →
      allPokesTo c (startPokeEvents t cl v) = [(st.baseVersion, v)] := by
  intro cl
  induction cl with
  | nil => intro t v c st _ hl; cases hl
  | cons e rest ih =>
    intro t v c st hnd hl
    obtain ⟨k1, st1⟩ := e
    simp only [List.map_cons, List.nodup_cons] at hnd
    by_cases hk : k1 = c
    · subst hk
      have hst : st1 = st := by
        simp only [lookupC, if_pos rfl] at hl
        injection hl
      subst hst
      have hrest : lookupC rest k1 = none :=
        lookupC_none_of_not_mem rest k1 hnd.1
      rw [startPokeEvents_cons, allPokesTo_cons_start, if_pos rfl,
        allPokesTo_startPokeEvents_none rest t v k1 hrest]
      rfl
    · have hrest : lookupC rest c = some st := by
        simpa [lookupC, hk] using hl
      rw [startPokeEvents_cons, allPokesTo_cons_start, if_neg hk,
        ih t v c st hnd.2 hrest]
      rfl


theorem receivedOne_newVersion (u : QueryUpdater) (rid : RowID) (upd : RowUpdate) :
    (receivedOne u rid upd).1.newVersion = u.newVersion := by
  unfold receivedOne
  dsimp only
  split <;> first
  | rfl
  | (split <;> rfl)

theorem receivedFold_newVersion :
    ∀ (batch : RowsMap) (acc : QueryUpdater × List PatchEv),
      (batch.foldl
        (fun (acc : QueryUpdater × List PatchEv) e =>
          let out := receivedOne acc.1 e.1 e.2
          (out.1, acc.2 ++ out.2.toList)) acc).1.newVersion = acc.1.newVersion := by
  intro batch
  induction batch with
  | nil => intro acc; rfl
  | cons e rest ih =>
    intro acc
    rw [List.foldl_cons, ih]
    exact receivedOne_newVersion _ _ _

theorem received_newVersion (u : QueryUpdater) (batch : RowsMap) :
    (received u batch).1.newVersion = u.newVersion := by
  unfold received
  exact receivedFold_newVersion batch (u, [])

theorem feedBatches_newVersion (pk : List Poker) :
    ∀ (bs : List RowsMap) (u : QueryUpdater),
      (feedBatches pk u bs).1.newVersion = u.newVersion := by
  intro bs
  induction bs with
  | nil => intro u; rfl
  | cons b rest ih =>
    intro u
    simp only [feedBatches]
    rw [ih]
    exact received_newVersion _ _

theorem processChangesB_newVersion (changes : List RowChangeE) (u : QueryUpdater)
    (pk : List Poker) : (processChangesB changes u pk).2.1.newVersion = u.newVersion := by
  unfold processChangesB
  exact feedBatches_newVersion _ _ _

theorem pipeAddQuery_fields {p : PipelineState} {h : String} {a : AST}
    {pc0 : PipelineState × List RowChangeE} (hp : pipeAddQuery p h a = some pc0) :
    pc0.1.currentVersion = p.currentVersion ∧
      pc0.1.isInitialized = p.isInitialized := by
  unfold pipeAddQuery at hp
  by_cases hc : a.columns.all (fun c => p.schemaColumns.contains c)
  · rw [if_pos hc] at hp
    injection hp with h2
    subst h2
    exact ⟨rfl, rfl⟩
  · rw [if_neg hc] at hp
    cases hp

theorem addLoop_preserve (pk : List Poker) (cvr : CVRSnapshot) :
    ∀ (l : List String) (p : PipelineState) (u : QueryUpdater),
      (addLoop pk cvr p u l).2.2.1.newVersion = u.newVersion ∧
      (addLoop pk cvr p u l).2.1.currentVersion = p.currentVersion ∧
      (addLoop pk cvr p u l).2.1.isInitialized = p.isInitialized := by
  intro l
  induction l with
  | nil => intro p u; exact ⟨rfl, rfl, rfl⟩
  | cons h rest ih =>
    intro p u
    cases hq : lookupQ cvr.queries h with
    | none =>
      simp only [addLoop, hq]
      exact ⟨trivial, trivial, trivial⟩
    | some q =>
      cases hpq : pipeAddQuery p h q.ast with
      | none =>
        simp only [addLoop, hq, hpq]
        exact ⟨trivial, trivial, trivial⟩
      | some pc0 =>
        cases hpc : (processChangesB pc0.2 u pk).1 with
        | some e =>
          simp only [addLoop, hq, hpq, hpc]
          exact ⟨processChangesB_newVersion _ _ _, (pipeAddQuery_fields hpq).1,
            (pipeAddQuery_fields hpq).2⟩
        | none =>
          simp only [addLoop, hq, hpq, hpc]
          refine ⟨?_, ?_, ?_⟩
          · rw [(ih pc0.1 (processChangesB pc0.2 u pk).2.1).1]
            exact processChangesB_newVersion _ _ _
          · rw [(ih pc0.1 (processChangesB pc0.2 u pk).2.1).2.1]
            exact (pipeAddQuery_fields hpq).1
          · rw [(ih pc0.1 (processChangesB pc0.2 u pk).2.1).2.2]
            exact (pipeAddQuery_fields hpq).2

theorem foldl_pipeRemove_fields :
    ∀ (l : List String) (p : PipelineState),
      (l.foldl pipeRemoveQuery p).currentVersion = p.currentVersion ∧
      (l.foldl pipeRemoveQuery p).isInitialized = p.isInitialized := by
  intro l
  induction l with
  | nil => intro p; exact ⟨rfl, rfl⟩
  | cons h rest ih =>
    intro p
    rw [List.foldl_cons]
    exact ⟨(ih _).1, (ih _).2⟩

theorem queryFlush_version {u : QueryUpdater} {ok : Bool} {cvr2 : CVRSnapshot}
    (h : queryFlush u ok = some cvr2) : cvr2.version = u.newVersion := by
  unfold queryFlush at h
  cases ok with
  | false => cases h
  | true =>
    injection h with h2
    subst h2
    rfl

theorem configFlush_version {staged base : CVRSnapshot} {ok : Bool}
    {cvr1 : CVRSnapshot} (h : configFlush staged base ok = some cvr1) :
    cvr1.version = configNewVersion base := by
  unfold configFlush at h
  cases ok with
  | false => cases h
  | true =>
    injection h with h2
    subst h2
    rfl

theorem arqTrack_newVersion (s : ServiceState) (addQ remQ : List String) :
    (arqTrack s addQ remQ).1.newVersion =
      nextVersion s.cvr.version s.pipeline.currentVersion := rfl

theorem deleteUnreferencedRows_newVersion (u : QueryUpdater) :
    (deleteUnreferencedRows u).1.newVersion = u.newVersion := rfl

theorem commitClients_map_fst (cl : List (String × ClientState)) (v : Version) :
    (commitClients cl v).map Prod.fst = cl.map Prod.fst := by
  simp [commitClients]

theorem commitClients_base {cl : List (String × ClientState)} {v : Version} :
    ∀ e ∈ commitClients cl v, (e : String × ClientState).2.baseVersion = v := by
  intro e he
  obtain ⟨x, _, hx⟩ := List.mem_map.mp he
  rw [← hx]

theorem lookupC_mem :
    ∀ (cl : List (String × ClientState)) (c : String) (st : ClientState),
      lookupC cl c = some st → (c, st) ∈ cl := by
  intro cl
  induction cl with
  | nil => intro c st h; cases h
  | cons e rest ih =>
    intro c st h
    obtain ⟨k1, st1⟩ := e
    by_cases hk : k1 = c
    · subst hk
      simp only [lookupC, if_pos rfl] at h
      injection h with h2
      subst h2
      exact List.mem_cons_self _ _
    · simp only [lookupC, if_neg hk] at h
      exact List.mem_cons_of_mem _ (ih c st h)

theorem lookupC_isSome_iff :
    ∀ (cl : List (String × ClientState)) (c : String),
      (lookupC cl c).isSome = true ↔ c ∈ cl.map Prod.fst := by
  intro cl
  induction cl with
  | nil =>
    intro c
    simp [lookupC]
  | cons e rest ih =>
    intro c
    obtain ⟨k1, st1⟩ := e
    by_cases hk : k1 = c
    · subst hk
      simp [lookupC]
    · simp only [lookupC, if_neg hk, List.map_cons, List.mem_cons]
      rw [ih c]
      constructor
      · intro h
        exact Or.inr h
      · intro h
        rcases h with h | h
        · exact absurd h.symm hk
        · exact h

theorem mainChainFrom_mono {b b2 : Version} (h : versionLe b b2) :
    ∀ {l : List (Version × Version)}, mainChainFrom b2 l → mainChainFrom b l := by
  intro l hl
  cases l with
  | nil => trivial
  | cons p rest =>
    obtain ⟨hle, hlt, hrest⟩ := hl
    exact ⟨versionLe_trans h hle, hlt, hrest⟩


theorem pokes_of_shape {evs tail : List Event} {cl : List (String × ClientState)}
    {t : PokeTag} {v : Version}
    (hsh : evs = startPokeEvents t cl v ++ tail) (ht : noPokeStarts tail) :
    (∀ c, lookupC cl c = none →
      mainPokesTo c evs = [] ∧ allPokesTo c evs = []) ∧
    (∀ c st, (cl.map Prod.fst).Nodup → lookupC cl c = some st →
      allPokesTo c evs = [(st.baseVersion, v)] ∧
      (t = PokeTag.main → mainPokesTo c evs = [(st.baseVersion, v)]) ∧
      (t = PokeTag.catchup → mainPokesTo c evs = [])) := by
  subst hsh
  constructor
  · intro c hl
    rw [mainPokesTo_append, allPokesTo_append,
      mainPokesTo_startPokeEvents_none cl t v c hl,
      allPokesTo_startPokeEvents_none cl t v c hl,
      mainPokesTo_nil_of_noStarts ht c, allPokesTo_nil_of_noStarts ht c]
    exact ⟨rfl, rfl⟩
  · intro c st hnd hl
    refine ⟨?_, ?_, ?_⟩
    · rw [allPokesTo_append, allPokesTo_startPokeEvents_some cl t v c st hnd hl,
        allPokesTo_nil_of_noStarts ht c]
      rfl
    · intro htag
      subst htag
      rw [mainPokesTo_append, mainPokesTo_startPokeEvents_main cl v c st hnd hl,
        mainPokesTo_nil_of_noStarts ht c]
      rfl
    · intro htag
      subst htag
      rw [mainPokesTo_append, mainPokesTo_startPokeEvents_catchup cl v c,
        mainPokesTo_nil_of_noStarts ht c]
      rfl

theorem advance_events_shape (nv : String) (cs : List RowChangeE) (fo : Bool)
    (s : ServiceState) :
    ∃ tail, (advancePipelinesOp nv cs fo s).events =
      startPokeEvents PokeTag.main s.clients
        (mkQueryUpdater s.cvr nv).newVersion ++ tail ∧
      noPokeStarts tail := by
  cases hpc : (processChangesB cs (mkQueryUpdater s.cvr nv)
      (startPokers s.clients (mkQueryUpdater s.cvr nv).newVersion)).1 with
  | some e =>
    have hsh : (advancePipelinesOp nv cs fo s).events =
        startPokeEvents PokeTag.main s.clients
          (mkQueryUpdater s.cvr nv).newVersion ++
        (processChangesB cs (mkQueryUpdater s.cvr nv)
          (startPokers s.clients (mkQueryUpdater s.cvr nv).newVersion)).2.2 := by
      simp only [advancePipelinesOp, hpc]
    exact ⟨_, hsh, noPokeStarts_processChangesB cs _ _⟩
  | none =>
    cases fo with
    | false =>
      have hsh : (advancePipelinesOp nv cs false s).events =
          startPokeEvents PokeTag.main s.clients
            (mkQueryUpdater s.cvr nv).newVersion ++
          (processChangesB cs (mkQueryUpdater s.cvr nv)
            (startPokers s.clients (mkQueryUpdater s.cvr nv).newVersion)).2.2 := by
        simp only [advancePipelinesOp, hpc, queryFlush, Bool.false_eq_true, if_false, if_true]
      exact ⟨_, hsh, noPokeStarts_processChangesB cs _ _⟩
    | true =>
      have hsh : (advancePipelinesOp nv cs true s).events =
          startPokeEvents PokeTag.main s.clients
            (mkQueryUpdater s.cvr nv).newVersion ++
          ((processChangesB cs (mkQueryUpdater s.cvr nv)
            (startPokers s.clients (mkQueryUpdater s.cvr nv).newVersion)).2.2 ++
           endPokeEvents (startPokers s.clients
             (mkQueryUpdater s.cvr nv).newVersion)) := by
        simp only [advancePipelinesOp, hpc, queryFlush, Bool.false_eq_true, if_false, if_true]
        rw [List.append_assoc]
      exact ⟨_, hsh, noPokeStarts_append (noPokeStarts_processChangesB cs _ _)
        (noPokeStarts_endPokeEvents _)⟩

theorem advance_state (nv : String) (cs : List RowChangeE) (fo : Bool)
    (s : ServiceState) :
    (advancePipelinesOp nv cs fo s).res = none →
      (advancePipelinesOp nv cs fo s).state.cvr.version =
        (mkQueryUpdater s.cvr nv).newVersion ∧
      (advancePipelinesOp nv cs fo s).state.clients =
        commitClients s.clients (mkQueryUpdater s.cvr nv).newVersion ∧
      (advancePipelinesOp nv cs fo s).state.stored =
        (advancePipelinesOp nv cs fo s).state.cvr ∧
      (advancePipelinesOp nv cs fo s).state.pipeline.currentVersion = nv ∧
      (advancePipelinesOp nv cs fo s).state.pipeline.isInitialized =
        s.pipeline.isInitialized := by
  intro hres
  cases hpc : (processChangesB cs (mkQueryUpdater s.cvr nv)
      (startPokers s.clients (mkQueryUpdater s.cvr nv).newVersion)).1 with
  | some e =>
    simp only [advancePipelinesOp, hpc] at hres
    cases hres
  | none =>
    cases fo with
    | false =>
      simp only [advancePipelinesOp, hpc, queryFlush, Bool.false_eq_true, if_false, if_true] at hres
      cases hres
    | true =>
      simp only [advancePipelinesOp, hpc, queryFlush, Bool.false_eq_true, if_false, if_true]
      refine ⟨processChangesB_newVersion cs _ _, ?_, ?_, ?_, ?_⟩ <;> trivial

theorem arqAddLoop_newVersion (s : ServiceState) (addQ remQ : List String) :
    (arqAddLoop s addQ remQ).2.2.1.newVersion =
      nextVersion s.cvr.version s.pipeline.currentVersion := by
  unfold arqAddLoop
  rw [(addLoop_preserve _ _ addQ _ _).1]
  rfl

theorem arqAddLoop_pipe (s : ServiceState) (addQ remQ : List String) :
    (arqAddLoop s addQ remQ).2.1.currentVersion = s.pipeline.currentVersion ∧
    (arqAddLoop s addQ remQ).2.1.isInitialized = s.pipeline.isInitialized := by
  unfold arqAddLoop arqPipeAfterRemove
  constructor
  · rw [(addLoop_preserve _ _ addQ _ _).2.1]
    exact (foldl_pipeRemove_fields remQ s.pipeline).1
  · rw [(addLoop_preserve _ _ addQ _ _).2.2]
    exact (foldl_pipeRemove_fields remQ s.pipeline).2

theorem noPokeStarts_arqAddLoop (s : ServiceState) (addQ remQ : List String) :
    noPokeStarts (arqAddLoop s addQ remQ).2.2.2 := by
  unfold arqAddLoop
  exact noPokeStarts_addLoop _ _ addQ _ _

theorem addRemove_events_shape (s : ServiceState) (addQ remQ : List String)
    (fo : Bool) (cfgP : List (PatchEv × Version)) (rowP : List CatchupRowRecord) :
    ∃ tail, (addAndRemoveQueriesOp s addQ remQ fo cfgP rowP).events =
      startPokeEvents PokeTag.main s.clients
        (arqTrack s addQ remQ).1.newVersion ++ tail ∧
      noPokeStarts tail := by
  cases hal : (arqAddLoop s addQ remQ).1 with
  | some e =>
    have hsh : (addAndRemoveQueriesOp s addQ remQ fo cfgP rowP).events =
        startPokeEvents PokeTag.main s.clients
          (arqTrack s addQ remQ).1.newVersion ++
        ((arqTrack s addQ remQ).2.flatMap (fun p => addPatchEvents
            (arqPokers s addQ remQ) p (arqTrack s addQ remQ).1.newVersion) ++
         (arqAddLoop s addQ remQ).2.2.2) := by
      simp only [addAndRemoveQueriesOp, hal]
      rw [List.append_assoc]
    exact ⟨_, hsh, noPokeStarts_append (noPokeStarts_flatMapPatch _ _ _)
      (noPokeStarts_arqAddLoop s addQ remQ)⟩
  | none =>
    cases fo with
    | false =>
      have hsh : (addAndRemoveQueriesOp s addQ remQ false cfgP rowP).events =
          startPokeEvents PokeTag.main s.clients
            (arqTrack s addQ remQ).1.newVersion ++
          ((arqTrack s addQ remQ).2.flatMap (fun p => addPatchEvents
              (arqPokers s addQ remQ) p (arqTrack s addQ remQ).1.newVersion) ++
           ((arqAddLoop s addQ remQ).2.2.2 ++
            (deleteUnreferencedRows (arqAddLoop s addQ remQ).2.2.1).2.flatMap
              (fun p => addPatchEvents (arqPokers s addQ remQ) p
                (arqTrack s addQ remQ).1.newVersion))) := by
        simp only [addAndRemoveQueriesOp, hal, queryFlush, Bool.false_eq_true, if_false, if_true]
        simp [List.append_assoc]
      exact ⟨_, hsh, noPokeStarts_append (noPokeStarts_flatMapPatch _ _ _)
        (noPokeStarts_append (noPokeStarts_arqAddLoop s addQ remQ)
          (noPokeStarts_flatMapPatch _ _ _))⟩
    | true =>
      cases hcu : (catchupClients s.clients (arqAddLoop s addQ remQ).2.1 s.cvr addQ
          (some (arqPokers s addQ remQ)) cfgP rowP).1 with
      | some e =>
        have hsh : (addAndRemoveQueriesOp s addQ remQ true cfgP rowP).events =
            startPokeEvents PokeTag.main s.clients
              (arqTrack s addQ remQ).1.newVersion ++
            ((arqTrack s addQ remQ).2.flatMap (fun p => addPatchEvents
                (arqPokers s addQ remQ) p (arqTrack s addQ remQ).1.newVersion) ++
             ((arqAddLoop s addQ remQ).2.2.2 ++
              ((deleteUnreferencedRows (arqAddLoop s addQ remQ).2.2.1).2.flatMap
                (fun p => addPatchEvents (arqPokers s addQ remQ) p
                  (arqTrack s addQ remQ).1.newVersion) ++
               (catchupClients s.clients (arqAddLoop s addQ remQ).2.1 s.cvr addQ
                 (some (arqPokers s addQ remQ)) cfgP rowP).2.1))) := by
          simp only [addAndRemoveQueriesOp, hal, queryFlush, hcu, Bool.false_eq_true, if_false, if_true]
          simp [List.append_assoc]
        exact ⟨_, hsh, noPokeStarts_append (noPokeStarts_flatMapPatch _ _ _)
          (noPokeStarts_append (noPokeStarts_arqAddLoop s addQ remQ)
            (noPokeStarts_append (noPokeStarts_flatMapPatch _ _ _)
              (noPokeStarts_catchup_usePokers _ _ _ _ _ _ _)))⟩
      | none =>
        have hsh : (addAndRemoveQueriesOp s addQ remQ true cfgP rowP).events =
            startPokeEvents PokeTag.main s.clients
              (arqTrack s addQ remQ).1.newVersion ++
            ((arqTrack s addQ remQ).2.flatMap (fun p => addPatchEvents
                (arqPokers s addQ remQ) p (arqTrack s addQ remQ).1.newVersion) ++
             ((arqAddLoop s addQ remQ).2.2.2 ++
              ((deleteUnreferencedRows (arqAddLoop s addQ remQ).2.2.1).2.flatMap
                (fun p => addPatchEvents (arqPokers s addQ remQ) p
                  (arqTrack s addQ remQ).1.newVersion) ++
               ((catchupClients s.clients (arqAddLoop s addQ remQ).2.1 s.cvr addQ
                 (some (arqPokers s addQ remQ)) cfgP rowP).2.1 ++
                endPokeEvents (arqPokers s addQ remQ))))) := by
          simp only [addAndRemoveQueriesOp, hal, queryFlush, hcu, Bool.false_eq_true, if_false, if_true]
          simp [List.append_assoc]
        exact ⟨_, hsh, noPokeStarts_append (noPokeStarts_flatMapPatch _ _ _)
          (noPokeStarts_append (noPokeStarts_arqAddLoop s addQ remQ)
            (noPokeStarts_append (noPokeStarts_flatMapPatch _ _ _)
              (noPokeStarts_append (noPokeStarts_catchup_usePokers _ _ _ _ _ _ _)
                (noPokeStarts_endPokeEvents _))))⟩

theorem addRemove_state (s : ServiceState) (addQ remQ : List String) (fo : Bool)
    (cfgP : List (PatchEv × Version)) (rowP : List CatchupRowRecord) :
    (addAndRemoveQueriesOp s addQ remQ fo cfgP rowP).res = none →
      (addAndRemoveQueriesOp s addQ remQ fo cfgP rowP).state.cvr.version =
        nextVersion s.cvr.version s.pipeline.currentVersion ∧
      (addAndRemoveQueriesOp s addQ remQ fo cfgP rowP).state.clients =
        commitClients s.clients (arqTrack s addQ remQ).1.newVersion ∧
      (addAndRemoveQueriesOp s addQ remQ fo cfgP rowP).state.stored =
        (addAndRemoveQueriesOp s addQ remQ fo cfgP rowP).state.cvr ∧
      (addAndRemoveQueriesOp s addQ remQ fo cfgP rowP).state.pipeline.currentVersion =
        s.pipeline.currentVersion ∧
      (addAndRemoveQueriesOp s addQ remQ fo cfgP rowP).state.pipeline.isInitialized =
        s.pipeline.isInitialized := by
  intro hres
  cases hal : (arqAddLoop s addQ remQ).1 with
  | some e =>
    simp only [addAndRemoveQueriesOp, hal] at hres
    cases hres
  | none =>
    cases fo with
    | false =>
      simp only [addAndRemoveQueriesOp, hal, queryFlush, Bool.false_eq_true, if_false, if_true] at hres
      cases hres
    | true =>
      cases hcu : (catchupClients s.clients (arqAddLoop s addQ remQ).2.1 s.cvr addQ
          (some (arqPokers s addQ remQ)) cfgP rowP).1 with
      | some e =>
        simp only [addAndRemoveQueriesOp, hal, queryFlush, hcu, Bool.false_eq_true, if_false, if_true] at hres
        cases hres
      | none =>
        simp only [addAndRemoveQueriesOp, hal, queryFlush, hcu, Bool.false_eq_true, if_false, if_true]
        refine ⟨?_, ?_, ?_, (arqAddLoop_pipe s addQ remQ).1,
          (arqAddLoop_pipe s addQ remQ).2⟩
        · show (deleteUnreferencedRows (arqAddLoop s addQ remQ).2.2.1).1.newVersion =
            nextVersion s.cvr.version s.pipeline.currentVersion
          rw [deleteUnreferencedRows_newVersion]
          exact arqAddLoop_newVersion s addQ remQ
        · trivial
        · trivial

theorem catchupStandalone_events_shape (s : ServiceState)
    (cfgP : List (PatchEv × Version)) (rowP : List CatchupRowRecord) :
    ∃ tail, (catchupStandaloneOp s cfgP rowP).events =
      startPokeEvents PokeTag.catchup s.clients s.cvr.version ++ tail ∧
      noPokeStarts tail := by
  cases hr : (catchupRowLoop (startPokers s.clients s.cvr.version) s.pipeline rowP).1 with
  | some e =>
    have hsh : (catchupStandaloneOp s cfgP rowP).events =
        startPokeEvents PokeTag.catchup s.clients s.cvr.version ++
        (cfgP.flatMap (fun pv => addPatchEvents
            (startPokers s.clients s.cvr.version) pv.1 pv.2) ++
         (catchupRowLoop (startPokers s.clients s.cvr.version) s.pipeline rowP).2) := by
      simp only [catchupStandaloneOp, catchupClients, Option.getD_none,
        Option.isSome_none, Bool.false_eq_true, if_false, hr]
      simp [List.append_assoc]
    exact ⟨_, hsh, noPokeStarts_append (noPokeStarts_flatMapPV cfgP _)
      (noPokeStarts_catchupRowLoop _ _ rowP)⟩
  | none =>
    have hsh : (catchupStandaloneOp s cfgP rowP).events =
        startPokeEvents PokeTag.catchup s.clients s.cvr.version ++
        (cfgP.flatMap (fun pv => addPatchEvents
            (startPokers s.clients s.cvr.version) pv.1 pv.2) ++
         ((catchupRowLoop (startPokers s.clients s.cvr.version) s.pipeline rowP).2 ++
          endPokeEvents (startPokers s.clients s.cvr.version))) := by
      simp only [catchupStandaloneOp, catchupClients, Option.getD_none,
        Option.isSome_none, Bool.false_eq_true, if_false, hr]
      simp [List.append_assoc]
    exact ⟨_, hsh, noPokeStarts_append (noPokeStarts_flatMapPV cfgP _)
      (noPokeStarts_append (noPokeStarts_catchupRowLoop _ _ rowP)
        (noPokeStarts_endPokeEvents _))⟩

theorem catchupStandalone_state (s : ServiceState)
    (cfgP : List (PatchEv × Version)) (rowP : List CatchupRowRecord) :
    (catchupStandaloneOp s cfgP rowP).state.cvr = s.cvr ∧
    (catchupStandaloneOp s cfgP rowP).state.stored = s.stored ∧
    (catchupStandaloneOp s cfgP rowP).state.pipeline = s.pipeline ∧
    ((catchupStandaloneOp s cfgP rowP).res = none →
      (catchupStandaloneOp s cfgP rowP).state.clients =
        commitClients s.clients s.cvr.version) := by
  cases hr : (catchupRowLoop (startPokers s.clients s.cvr.version) s.pipeline rowP).1 with
  | some e =>
    refine ⟨rfl, rfl, rfl, ?_⟩
    intro h
    simp only [catchupStandaloneOp, catchupClients, Option.getD_none,
      Option.isSome_none, Bool.false_eq_true, if_false, hr] at h
    cases h
  | none =>
    refine ⟨rfl, rfl, rfl, ?_⟩
    intro _
    simp only [catchupStandaloneOp, catchupClients, Option.getD_none,
      Option.isSome_none, Bool.false_eq_true, if_false, hr]


theorem sync_pokes (s1 : ServiceState) (qf : Bool)
    (cfgP : List (PatchEv × Version)) (rowP : List CatchupRowRecord)
    (vc : Version)
    (hnd : (s1.clients.map Prod.fst).Nodup)
    (hcl : ∀ e ∈ s1.clients, (e : String × ClientState).2.baseVersion = vc)
    (hsv : s1.cvr.version.stateVersion < s1.pipeline.currentVersion ∨
           s1.cvr.version.stateVersion = s1.pipeline.currentVersion)
    (hstored : s1.stored = s1.cvr)
    (hinit : s1.pipeline.isInitialized = true) :
    ((syncQueryPipelineSetOp s1 qf cfgP rowP).res = none →
      Inv (syncQueryPipelineSetOp s1 qf cfgP rowP).state ∧
      versionLe s1.cvr.version
        (syncQueryPipelineSetOp s1 qf cfgP rowP).state.cvr.version ∧
      (syncQueryPipelineSetOp s1 qf cfgP rowP).state.clients.map Prod.fst =
        s1.clients.map Prod.fst) ∧
    (∀ c, lookupC s1.clients c = none →
      mainPokesTo c (syncQueryPipelineSetOp s1 qf cfgP rowP).events = [] ∧
      allPokesTo c (syncQueryPipelineSetOp s1 qf cfgP rowP).events = []) ∧
    (∀ c st, lookupC s1.clients c = some st →
      (∃ v, versionLt s1.cvr.version v ∧
        mainPokesTo c (syncQueryPipelineSetOp s1 qf cfgP rowP).events = [(vc, v)] ∧
        allPokesTo c (syncQueryPipelineSetOp s1 qf cfgP rowP).events = [(vc, v)] ∧
        ((syncQueryPipelineSetOp s1 qf cfgP rowP).res = none →
          (syncQueryPipelineSetOp s1 qf cfgP rowP).state.cvr.version = v)) ∨
      (∃ v, versionLe s1.cvr.version v ∧
        mainPokesTo c (syncQueryPipelineSetOp s1 qf cfgP rowP).events = [] ∧
        allPokesTo c (syncQueryPipelineSetOp s1 qf cfgP rowP).events = [(vc, v)] ∧
        ((syncQueryPipelineSetOp s1 qf cfgP rowP).res = none →
          (syncQueryPipelineSetOp s1 qf cfgP rowP).state.cvr.version = v))) := by
  have hev := (sync_events_state s1 qf cfgP rowP).1
  have hst := (sync_events_state s1 qf cfgP rowP).2
  have hbres : (syncQueryPipelineSetOp s1 qf cfgP rowP).res = none →
      (syncBranchOp s1 qf cfgP rowP).res = none := by
    intro h
    rcases sync_res_cases s1 qf cfgP rowP with ⟨_, h2⟩ | ⟨h1, _⟩
    · exact h2 h
    · rw [h] at h1
      cases h1
  by_cases hcond : (computeAddQueries s1.cvr s1.pipeline).length > 0 ∨
      (computeRemoveQueries s1.cvr s1.pipeline).length > 0
  · have hbr : syncBranchOp s1 qf cfgP rowP =
        addAndRemoveQueriesOp s1 (computeAddQueries s1.cvr s1.pipeline)
          (computeRemoveQueries s1.cvr s1.pipeline) qf cfgP rowP := by
      unfold syncBranchOp
      rw [if_pos hcond]
    obtain ⟨tail, hsh, ht⟩ := addRemove_events_shape s1
      (computeAddQueries s1.cvr s1.pipeline)
      (computeRemoveQueries s1.cvr s1.pipeline) qf cfgP rowP
    have hshape := pokes_of_shape hsh ht
    have hlt : versionLt s1.cvr.version
        (nextVersion s1.cvr.version s1.pipeline.currentVersion) :=
      versionLt_nextVersion hsv
    have hbokf : (syncQueryPipelineSetOp s1 qf cfgP rowP).res = none →
        (addAndRemoveQueriesOp s1 (computeAddQueries s1.cvr s1.pipeline)
          (computeRemoveQueries s1.cvr s1.pipeline) qf cfgP rowP).res = none := by
      intro hok
      rw [← hbr]
      exact hbres hok
    refine ⟨?_, ?_, ?_⟩
    · intro hok
      have hstt := addRemove_state s1 (computeAddQueries s1.cvr s1.pipeline)
        (computeRemoveQueries s1.cvr s1.pipeline) qf cfgP rowP (hbokf hok)
      refine ⟨⟨?_, ?_, ?_, ?_, ?_⟩, ?_, ?_⟩
      · rw [hst, hbr, hstt.2.1, commitClients_map_fst]
        exact hnd
      · rw [hst, hbr, hstt.2.1]
        intro e he
        have hb := commitClients_base e he
        rw [hb, hstt.1]
        rfl
      · rw [hst, hbr, hstt.2.2.2.2]
        exact hinit
      · exact Or.inr (sync_post s1 qf cfgP rowP hok)
      · rw [hst, hbr]
        exact hstt.2.2.1
      · rw [hst, hbr, hstt.1]
        exact versionLt_le hlt
      · rw [hst, hbr, hstt.2.1, commitClients_map_fst]
    · intro c hl
      rw [hev, hbr]
      exact hshape.1 c hl
    · intro c st hl
      have hbase : st.baseVersion = vc := hcl (c, st) (lookupC_mem _ _ _ hl)
      refine Or.inl ⟨nextVersion s1.cvr.version s1.pipeline.currentVersion,
        hlt, ?_, ?_, ?_⟩
      · rw [hev, hbr, (hshape.2 c st hnd hl).2.1 rfl, hbase]
        rfl
      · rw [hev, hbr, (hshape.2 c st hnd hl).1, hbase]
        rfl
      · intro hok
        have hstt := addRemove_state s1 (computeAddQueries s1.cvr s1.pipeline)
          (computeRemoveQueries s1.cvr s1.pipeline) qf cfgP rowP (hbokf hok)
        rw [hst, hbr]
        exact hstt.1
  · have hbr : syncBranchOp s1 qf cfgP rowP = catchupStandaloneOp s1 cfgP rowP := by
      unfold syncBranchOp
      rw [if_neg hcond]
    obtain ⟨tail, hsh, ht⟩ := catchupStandalone_events_shape s1 cfgP rowP
    have hshape := pokes_of_shape hsh ht
    have hcst := catchupStandalone_state s1 cfgP rowP
    have hbokf : (syncQueryPipelineSetOp s1 qf cfgP rowP).res = none →
        (catchupStandaloneOp s1 cfgP rowP).res = none := by
      intro hok
      rw [← hbr]
      exact hbres hok
    refine ⟨?_, ?_, ?_⟩
    · intro hok
      refine ⟨⟨?_, ?_, ?_, ?_, ?_⟩, ?_, ?_⟩
      · rw [hst, hbr, hcst.2.2.2 (hbokf hok), commitClients_map_fst]
        exact hnd
      · rw [hst, hbr, hcst.2.2.2 (hbokf hok), hcst.1]
        intro e he
        exact commitClients_base e he
      · rw [hst, hbr, hcst.2.2.1]
        exact hinit
      · exact Or.inr (sync_post s1 qf cfgP rowP hok)
      · rw [hst, hbr, hcst.2.1, hcst.1]
        exact hstored
      · rw [hst, hbr, hcst.1]
        exact versionLe_refl _
      · rw [hst, hbr, hcst.2.2.2 (hbokf hok), commitClients_map_fst]
    · intro c hl
      rw [hev, hbr]
      exact hshape.1 c hl
    · intro c st hl
      have hbase : st.baseVersion = vc := hcl (c, st) (lookupC_mem _ _ _ hl)
      refine Or.inr ⟨s1.cvr.version, versionLe_refl _, ?_, ?_, ?_⟩
      · rw [hev, hbr, (hshape.2 c st hnd hl).2.2 rfl]
      · rw [hev, hbr, (hshape.2 c st hnd hl).1, hbase]
      · intro hok
        rw [hst, hbr, hcst.1]

theorem advance_cases (nv : String) (cs : List RowChangeE) (fo : Bool)
    (s : ServiceState) (hInv : Inv s) (hv : s.pipeline.currentVersion < nv) :
    PokeCases s (advancePipelinesOp nv cs fo s) := by
  obtain ⟨hnd, hcl, hinit, hsv, hstored⟩ := hInv
  have hsv2 : s.cvr.version.stateVersion < nv := by
    rcases hsv with h | h
    · exact lt_trans h hv
    · rw [h]
      exact hv
  obtain ⟨tail, hsh, ht⟩ := advance_events_shape nv cs fo s
  have hshape := pokes_of_shape hsh ht
  have hlt : versionLt s.cvr.version (nextVersion s.cvr.version nv) :=
    versionLt_nextVersion (Or.inl hsv2)
  refine ⟨?_, hshape.1, ?_⟩
  · intro hok
    have hstt := advance_state nv cs fo s hok
    refine ⟨⟨?_, ?_, ?_, ?_, ?_⟩, ?_, ?_⟩
    · rw [hstt.2.1, commitClients_map_fst]
      exact hnd
    · rw [hstt.2.1]
      intro e he
      have hb := commitClients_base e he
      rw [hb, hstt.1]
    · rw [hstt.2.2.2.2]
      exact hinit
    · refine Or.inr ?_
      rw [hstt.1, hstt.2.2.2.1]
      exact nextVersion_stateVersion s.cvr.version nv (Or.inl hsv2)
    · exact hstt.2.2.1
    · rw [hstt.1]
      exact versionLt_le hlt
    · rw [hstt.2.1, commitClients_map_fst]
  · intro c st hl
    have hbase : st.baseVersion = s.cvr.version := hcl (c, st) (lookupC_mem _ _ _ hl)
    refine Or.inr (Or.inl ⟨nextVersion s.cvr.version nv, hlt, ?_, ?_, ?_⟩)
    · rw [(hshape.2 c st hnd hl).2.1 rfl, hbase]
      rfl
    · rw [(hshape.2 c st hnd hl).1, hbase]
      rfl
    · intro hok
      rw [(advance_state nv cs fo s hok).1]
      rfl

theorem patch_pokes (s : ServiceState) (clientID : String) (patch : List QPatchOp)
    (cf qf : Bool) (cfgP : List (PatchEv × Version)) (rowP : List CatchupRowRecord)
    (hInv : Inv s) :
    PokeCases s (patchQueriesOp s clientID patch cf qf cfgP rowP) := by
  obtain ⟨hnd, hcl, hinit, hsv, hstored⟩ := hInv
  by_cases hemp : patch.isEmpty = true
  · have hred : patchQueriesOp s clientID patch cf qf cfgP rowP =
        syncQueryPipelineSetOp s qf cfgP rowP := by
      unfold patchQueriesOp
      rw [if_pos hemp]
      show (if s.pipeline.isInitialized = true then
          syncQueryPipelineSetOp s qf cfgP rowP else ⟨none, [], s⟩) = _
      rw [if_pos hinit]
    rw [hred]
    have hsp := sync_pokes s qf cfgP rowP s.cvr.version hnd hcl hsv hstored hinit
    refine ⟨hsp.1, hsp.2.1, ?_⟩
    intro c st hl
    rcases hsp.2.2 c st hl with ⟨v, hv1, hv2, hv3, hv4⟩ | ⟨v, hv1, hv2, hv3, hv4⟩
    · exact Or.inr (Or.inl ⟨v, hv1, hv2, hv3, hv4⟩)
    · exact Or.inr (Or.inr ⟨v, hv1, hv2, hv3, hv4⟩)
  · cases cf with
    | false =>
      have hred : patchQueriesOp s clientID patch false qf cfgP rowP =
          ⟨some Err.flushFailed, [], s⟩ := by
        unfold patchQueriesOp
        rw [if_neg hemp]
        rfl
      rw [hred]
      refine ⟨?_, ?_, ?_⟩
      · intro h
        cases h
      · intro c _
        exact ⟨rfl, rfl⟩
      · intro c st _
        exact Or.inl ⟨rfl, rfl, fun h => nomatch h⟩
    | true =>
      have hred : patchQueriesOp s clientID patch true qf cfgP rowP =
          syncQueryPipelineSetOp
            { s with cvr := configFlushValue s clientID patch,
                     stored := configFlushValue s clientID patch } qf cfgP rowP := by
        unfold patchQueriesOp
        rw [if_neg hemp]
        show (if s.pipeline.isInitialized = true then
            syncQueryPipelineSetOp
              { s with cvr := configFlushValue s clientID patch,
                       stored := configFlushValue s clientID patch } qf cfgP rowP
          else ⟨none, [],
            { s with cvr := configFlushValue s clientID patch,
                     stored := configFlushValue s clientID patch }⟩) = _
        rw [if_pos hinit]
      rw [hred]
      have hle0 : versionLe s.cvr.version
          (configFlushValue s clientID patch).version := by
        rw [show (configFlushValue s clientID patch).version =
          configNewVersion s.cvr from rfl]
        exact versionLt_le (configNewVersion_lt s.cvr)
      have hsp := sync_pokes
        { s with cvr := configFlushValue s clientID patch,
                 stored := configFlushValue s clientID patch } qf cfgP rowP
        s.cvr.version hnd hcl hsv rfl hinit
      refine ⟨?_, hsp.2.1, ?_⟩
      · intro hok
        obtain ⟨hi, hle, hkeys⟩ := hsp.1 hok
        exact ⟨hi, versionLe_trans hle0 hle, hkeys⟩
      · intro c st hl
        rcases hsp.2.2 c st hl with ⟨v, hv1, hv2, hv3, hv4⟩ | ⟨v, hv1, hv2, hv3, hv4⟩
        · exact Or.inr (Or.inl ⟨v, versionLe_lt_trans hle0 hv1, hv2, hv3, hv4⟩)
        · exact Or.inr (Or.inr ⟨v, versionLe_trans hle0 hv1, hv2, hv3, hv4⟩)

theorem changeQ_cases (s : ServiceState) (cid ws : String) (patch : List QPatchOp)
    (cf qf : Bool) (cfgP : List (PatchEv × Version)) (rowP : List CatchupRowRecord)
    (hInv : Inv s) :
    PokeCases s (changeDesiredQueriesOp s cid ws patch cf qf cfgP rowP) := by
  cases hlc : lookupC s.clients cid with
  | none =>
    have hred : changeDesiredQueriesOp s cid ws patch cf qf cfgP rowP =
        ⟨none, [], s⟩ := by
      simp only [changeDesiredQueriesOp, hlc]
    rw [hred]
    exact ⟨fun _ => ⟨hInv, versionLe_refl _, rfl⟩, fun c _ => ⟨rfl, rfl⟩,
      fun c st _ => Or.inl ⟨rfl, rfl, fun _ => rfl⟩⟩
  | some ch =>
    by_cases hw : ch.wsID = ws
    · have hred : changeDesiredQueriesOp s cid ws patch cf qf cfgP rowP =
          patchQueriesOp s cid patch cf qf cfgP rowP := by
        simp only [changeDesiredQueriesOp, hlc]
        rw [if_pos hw]
      rw [hred]
      exact patch_pokes s cid patch cf qf cfgP rowP hInv
    · have hred : changeDesiredQueriesOp s cid ws patch cf qf cfgP rowP =
          ⟨none, [], s⟩ := by
        simp only [changeDesiredQueriesOp, hlc]
        rw [if_neg hw]
      rw [hred]
      exact ⟨fun _ => ⟨hInv, versionLe_refl _, rfl⟩, fun c _ => ⟨rfl, rfl⟩,
        fun c st _ => Or.inl ⟨rfl, rfl, fun _ => rfl⟩⟩

theorem applyOp_cases (s : ServiceState) (op : SOp) (hInv : Inv s)
    (hv : validOp s op) : PokeCases s (applyOp s op) := by
  cases op with
  | advance nv cs fo => exact advance_cases nv cs fo s hInv hv
  | changeQ cid ws patch cf qf cfgP rowP =>
    exact changeQ_cases s cid ws patch cf qf cfgP rowP hInv

theorem runOps_pokes :
    ∀ (ops : List SOp) (s : ServiceState), Inv s → validOps s ops →
      ∀ c, (lookupC s.clients c).isSome = true →
        mainChainFrom s.cvr.version (mainPokesTo c (runOps s ops).2) ∧
        contiguousFrom s.cvr.version (allPokesTo c (runOps s ops).2) := by
  intro ops
  induction ops with
  | nil =>
    intro s _ _ c _
    exact ⟨trivial, trivial⟩
  | cons op rest ih =>
    intro s hInv hval c hc
    have hv : validOp s op := hval.1
    have hnext := hval.2
    obtain ⟨st, hst⟩ := Option.isSome_iff_exists.mp hc
    have hop := applyOp_cases s op hInv hv
    cases hres : (applyOp s op).res with
    | some e =>
      have hrun : runOps s (op :: rest) =
          ((applyOp s op).state, (applyOp s op).events) := by
        simp only [runOps, hres]
      rw [hrun]
      rcases hop.2.2 c st hst with ⟨hm, ha, _⟩ | ⟨v, hlt, hm, ha, _⟩ |
        ⟨v, hle, hm, ha, _⟩
      · rw [hm, ha]
        exact ⟨trivial, trivial⟩
      · rw [hm, ha]
        exact ⟨⟨versionLe_refl _, hlt, trivial⟩, rfl, trivial⟩
      · rw [hm, ha]
        exact ⟨trivial, rfl, trivial⟩
    | none =>
      obtain ⟨hInv2, hle2, hkeys⟩ := hop.1 hres
      have hc2 : (lookupC (applyOp s op).state.clients c).isSome = true := by
        rw [lookupC_isSome_iff, hkeys, ← lookupC_isSome_iff]
        exact hc
      have hrest := ih (applyOp s op).state hInv2 (hnext hres) c hc2
      have hrun : runOps s (op :: rest) =
          ((runOps (applyOp s op).state rest).1,
           (applyOp s op).events ++ (runOps (applyOp s op).state rest).2) := by
        simp only [runOps, hres]
      rw [hrun]
      rw [mainPokesTo_append, allPokesTo_append]
      rcases hop.2.2 c st hst with ⟨hm, ha, hsame⟩ | ⟨v, hlt, hm, ha, hst2⟩ |
        ⟨v, hle, hm, ha, hst2⟩
      · rw [hm, ha]
        rw [hsame hres] at hrest
        rw [List.nil_append, List.nil_append]
        exact hrest
      · rw [hm, ha]
        rw [hst2 hres] at hrest
        exact ⟨⟨versionLe_refl _, hlt, hrest.1⟩, rfl, hrest.2⟩
      · rw [hm, ha]
        rw [hst2 hres] at hrest
        rw [List.nil_append]
        exact ⟨mainChainFrom_mono hle hrest.1, rfl, hrest.2⟩

/-- C1: for every connected client, the version cookies of the successive
main pokes the service starts for it (the `newVersion` of
`#addAndRemoveQueries` and the `updatedVersion()` of `#advancePipelines`)
form a strictly increasing sequence, and the pokes are gapless: every poke —
catch-up pokes included — opens at exactly the version the client last
acknowledged. -/
theorem C1_poke_versions (s0 : ServiceState) (ops : List SOp) (c : String)
    (hInv : Inv s0) (hvalid : validOps s0 ops)
    (hc : (lookupC s0.clients c).isSome = true) :
    mainChainFrom s0.cvr.version (mainPokesTo c (runOps s0 ops).2) ∧
    List.Chain' (fun p q : Version × Version => versionLt p.2 q.2)
      (mainPokesTo c (runOps s0 ops).2) ∧
    contiguousFrom s0.cvr.version (allPokesTo c (runOps s0 ops).2) := by
  have h := runOps_pokes ops s0 hInv hvalid c hc
  exact ⟨h.1, mainChainFrom_chain h.1, h.2⟩

theorem C1_poke_versions_witness :
    Inv exS ∧
    mainChainFrom exCvr.version
      (mainPokesTo "foo" (runOps exS [SOp.advance "2b" [] true]).2) ∧
    List.Chain' (fun p q : Version × Version => versionLt p.2 q.2)
      (mainPokesTo "foo" (runOps exS [SOp.advance "2b" [] true]).2) ∧
    contiguousFrom exCvr.version
      (allPokesTo "foo" (runOps exS [SOp.advance "2b" [] true]).2) := by
  have hInv : Inv exS :=
    ⟨by decide, by decide, by decide, Or.inr (by decide), by decide⟩
  have hlt12 : ("1a0" : String) < "2b" := by
    rw [String.lt_iff_toList_lt]
    decide
  have h := C1_poke_versions exS [SOp.advance "2b" [] true] "foo" hInv
    ⟨hlt12, fun _ => trivial⟩ (by decide)
  exact ⟨hInv, h.1, h.2.1, h.2.2⟩

end ViewSyncer
